import Mathlib

/-!
# Madrigal: the UPnP ContentDirectory browser (`src/upnp/mediaserver.cpp`)

A shallow embedding of `Upnp::MediaServer`.  The C++ object graph (items that
point at their parent and own a list of child pointers) is embedded as an
explicit heap: a list of cells addressed by their position.  `new` appends a
cell, a pointer is the position of its cell, and the null pointer is `none`.
Functions that dereference a pointer return `none` when the pointer is null
or names no cell (undefined behaviour in C++), and recursive functions take a
`fuel` argument bounding the recursion depth; `none` is also the answer when
the fuel runs out.

Signals (`emit ...`) and network requests (`sendCommand`, `cancelCommands`)
are appended to two logs that are part of the state.  XML documents are
embedded after tokenisation: a `Result` document is the list of the value
maps that `objectValues` yields for its `container`/`item` elements, in
document order.
-/

namespace Upnp

/-! ## Qt value types -/

/-- A `QByteArray`, as the list of its characters. -/
abbrev QByteArray := List Char

/-- A `QString`. -/
abbrev QString := String

/-- A pointer to a heap cell; `Option Ptr` is a nullable pointer. -/
abbrev Ptr := Nat

/-- A `QMap<QString, QString>` as filled by `objectValues`. -/
abbrev Values := List (String × String)

/-- The C++ `values[key]`: the stored string, or the empty string. -/
def Values.value (v : Values) (key : String) : String :=
  (v.lookup key).getD ""

/-- The C++ `values.contains(key)`. -/
def Values.contains (v : Values) (key : String) : Bool :=
  (v.lookup key).isSome

/-- A `QModelIndex`: row, column, internal pointer and whether it belongs to a
model.  Two indexes are equal when all four agree. -/
structure QModelIndex where
  r : Int
  c : Int
  i : Option Ptr
  m : Bool
deriving DecidableEq, Repr

/-- The default-constructed `QModelIndex()`, which stands for the root. -/
def QModelIndex.invalid : QModelIndex := ⟨-1, -1, none, false⟩

/-- The C++ `createIndex(row, column, ptr)`. -/
def createIndex (row column : Int) (ptr : Ptr) : QModelIndex :=
  ⟨row, column, some ptr, true⟩

/-- The C++ `QModelIndex::isValid()`. -/
def QModelIndex.isValid (x : QModelIndex) : Bool :=
  decide (0 ≤ x.r) && decide (0 ≤ x.c) && x.m

abbrev QModelIndexList := List QModelIndex

/-! ## Items -/

/-- The values of `Item::type()` that the media server creates. -/
inductive ItemType where
  | Type_MusicTrack
  | Type_Folder
  | Type_Genre
  | Type_Artist
  | Type_Album
  | Type_Playlist
  | Type_Search
deriving DecidableEq, Repr

/-- The fetch state of a collection (`Device::State`). -/
inductive State where
  | State_Initial
  | State_Populating
  | State_Populated
deriving DecidableEq, Repr

/-- A heap cell: an `Item` together with the fields of its subclasses
(`Collection`: id, children, state; `Album`: artist, artUrl; `MusicTrack`:
artist, albumArtist, album, track, artUrl; `Track`: id, res).
`children` and `state` are meaningful for collections only. -/
structure Item where
  type : ItemType
  name : QString
  parent : Option Ptr
  row : Int
  id : QByteArray
  children : List Ptr
  state : State
  artist : QString
  albumArtist : QString
  album : QString
  track : Nat
  artUrl : QString
  res : List (String × String)
deriving DecidableEq, Repr

/-- The C++ `Item::isCollection()`: everything but a track is a collection. -/
def Item.isCollection (it : Item) : Bool :=
  decide (it.type ≠ ItemType.Type_MusicTrack)

/-- Modelled from the spec: `MusicTrack::artistName()` is declared in a header
that is not among the sources; the artist an album is filed under is the album
artist when there is one and the track artist otherwise. -/
def Item.artistName (it : Item) : QString :=
  if it.albumArtist.isEmpty then it.artist else it.albumArtist

/-- The constructor `Collection(name, id, parent, row)` shared by `Folder`,
`Genre`, `Artist`, `Playlist` and `Search`: no children, `State_Initial`. -/
def Item.collection (t : ItemType) (name : QString) (id : QByteArray)
    (parent : Option Ptr) (row : Int) : Item :=
  { type := t, name := name, parent := parent, row := row, id := id,
    children := [], state := State.State_Initial,
    artist := "", albumArtist := "", album := "", track := 0, artUrl := "", res := [] }

/-- The constructor `Album(name, artist, artUrl, id, parent, row)`. -/
def Item.mkAlbum (name artist artUrl : QString) (id : QByteArray)
    (parent : Option Ptr) (row : Int) : Item :=
  { Item.collection ItemType.Type_Album name id parent row with
    artist := artist, artUrl := artUrl }

/-! ## The model state -/

/-- A play request type (`PlayCommand::Type`). -/
inductive PlayType where
  | Append
  | Insert
  | ReplaceAndPlay
deriving DecidableEq, Repr

/-- The pending play request (`MediaServer::command`). -/
structure PendingCommand where
  pos : Int
  type : PlayType
  populated : QModelIndexList
  toPopulate : QModelIndexList
deriving DecidableEq, Repr

/-- Modelled from the spec: `command.reset()` is declared in a header that is
not among the sources; it empties both `populated` and `toPopulate`. -/
def PendingCommand.reset (c : PendingCommand) : PendingCommand :=
  { c with populated := [], toPopulate := [] }

/-- The `Command` handed to `addTracks`: copies of the tracks, position, type. -/
structure Command where
  tracks : List Item
  pos : Int
  type : PlayType
deriving DecidableEq, Repr

/-- A signal emitted by the model. -/
inductive Signal where
  | searching (active : Bool)
  | info (msg : String) (time : Nat)
  | addTracks (cmd : Command)
  | dataChanged (topLeft bottomRight : QModelIndex)
  | rowsInserted (parent : QModelIndex) (first last : Int)
  | rowsRemoved (parent : QModelIndex) (first last : Int)
deriving DecidableEq, Repr

/-- A call into the network layer. -/
inductive NetOp where
  | getSearchCapabilities
  | browse (objectId : QByteArray) (startingIndex requestedCount : Nat)
  | search (criteria : QByteArray) (startingIndex requestedCount : Nat)
  | cancelCommands (type : String)
deriving DecidableEq, Repr

inductive Manufacturer where
  | Man_Minim
  | Man_Other
deriving DecidableEq, Repr

/-- The fields of `Upnp::MediaServer` (with those of `Device` it uses).
`searchTimer` is `none` for a null timer and `some active` otherwise. -/
structure MediaServer where
  heap : List Item
  items : List Ptr
  searchItem : Option Ptr
  searchStart : Nat
  searchTimer : Option Bool
  currentSearch : QString
  searchCap : List QByteArray
  manufacturer : Manufacturer
  command : PendingCommand
  emitted : List Signal
  net : List NetOp
deriving DecidableEq, Repr

def constBrowseChunkSize : Nat := 1000
def constSearchChunkSize : Nat := 100
def constMaxSearchResults : Nat := 2000
def constSearchTimeout : Nat := 10000

/-- A freshly constructed media server with an empty catalog. -/
def MediaServer.init (man : Manufacturer) : MediaServer :=
  { heap := [], items := [], searchItem := none, searchStart := 0, searchTimer := none,
    currentSearch := "", searchCap := [], manufacturer := man,
    command := ⟨0, PlayType.Append, [], []⟩, emitted := [], net := [] }

namespace MediaServer

/-- The C++ `emit sig`. -/
def emit (s : MediaServer) (sig : Signal) : MediaServer :=
  { s with emitted := s.emitted ++ [sig] }

/-- The C++ `sendCommand(...)` and `cancelCommands(...)`. -/
def send (s : MediaServer) (op : NetOp) : MediaServer :=
  { s with net := s.net ++ [op] }

/-- Dereference a pointer. -/
def deref (s : MediaServer) (p : Ptr) : Option Item := s.heap[p]?

/-- Overwrite the cell a pointer names. -/
def store (s : MediaServer) (p : Ptr) (it : Item) : MediaServer :=
  { s with heap := s.heap.set p it }

/-- The C++ `new`: the pointer handed out is the position of the new cell. -/
def alloc (s : MediaServer) (it : Item) : Ptr × MediaServer :=
  (s.heap.length, { s with heap := s.heap ++ [it] })

/-- Modelled from the spec: `Device::toItem` is declared in a header that is
not among the sources; it yields the item pointer behind a valid index and null
for an invalid one. -/
def toItemPtr (_s : MediaServer) (index : QModelIndex) : Option Ptr :=
  if index.isValid then index.i else none

/-- The item behind `toItem(index)`, when the pointer is not null (a pointer
that names no cell is read as null by the `const` queries). -/
def toItem (s : MediaServer) (index : QModelIndex) : Option Item :=
  (s.toItemPtr index).bind s.deref

/-- The static `itemId(item)`: the id of the item, `"0"` for null. -/
def itemId (item : Option Item) : QByteArray :=
  match item with
  | some it => it.id
  | none => ['0']

/-- The C++ `MediaServer::canFetchMore`. -/
def canFetchMore (s : MediaServer) (index : QModelIndex) : Bool :=
  if index.isValid then
    match s.toItem index with
    | some item => item.isCollection && decide (item.state = State.State_Initial)
    | none => false
  else false

/-- The C++ `MediaServer::populate(const QModelIndex &)`. -/
def populateIndex (s : MediaServer) (index : QModelIndex) : MediaServer :=
  let item := s.toItem index
  let id := itemId item
  let s1 :=
    match s.toItemPtr index, item with
    | some p, some it =>
      if it.isCollection then
        (s.store p { it with state := State.State_Populating }).emit
          (Signal.dataChanged index index)
      else s
    | _, _ => s
  s1.send (NetOp.browse id 0 constBrowseChunkSize)

/-- The C++ `MediaServer::fetchMore`. -/
def fetchMore (s : MediaServer) (index : QModelIndex) : MediaServer :=
  s.populateIndex index

/-- The C++ `MediaServer::populate()`: on an empty catalog, ask for the search
capabilities and browse the root. -/
def populate (s : MediaServer) : MediaServer :=
  if s.items.isEmpty then
    (s.send NetOp.getSearchCapabilities).populateIndex QModelIndex.invalid
  else s

/-- The C++ `MediaServer::parent(child)`, which `QModelIndex::parent()` calls:
the index of the parent item, built from the row stored in that item. -/
def parent (s : MediaServer) (child : QModelIndex) : Option QModelIndex :=
  if !child.isValid then some QModelIndex.invalid
  else
    match s.toItemPtr child with
    | none => some QModelIndex.invalid
    | some ip =>
      match s.deref ip with
      | none => none
      | some i =>
        match i.parent with
        | none => some QModelIndex.invalid
        | some pp =>
          match s.deref pp with
          | none => none
          | some p => some (createIndex p.row 0 pp)

end MediaServer

/-! ## Drag-and-drop hierarchy strings -/

def constMimeSep : Char := '\r'

/-- The Qt `QList<QByteArray>::join(sep)`. -/
def QList.join : List QByteArray → Char → QByteArray
  | [], _ => []
  | [x], _ => x
  | x :: y :: rest, sep => x ++ sep :: QList.join (y :: rest) sep

/-- The Qt `QByteArray::split(sep)`: the pieces between the separators; a byte
array without separator (the empty one too) gives a single piece. -/
def QByteArray.split : QByteArray → Char → List QByteArray
  | [], _ => [[]]
  | c :: cs, sep =>
    if c = sep then [] :: QByteArray.split cs sep
    else
      match QByteArray.split cs sep with
      | [] => [[c]]
      | h :: t => (c :: h) :: t

/-- The loop of `toHeirarchy`: prepend the id of the item behind `index`, then
move to its parent, until the index is invalid. -/
def toHeirarchyLoop (s : MediaServer) : Nat → QModelIndex → List QByteArray →
    Option (List QByteArray)
  | 0, index, ids => if index.isValid then none else some ids
  | fuel + 1, index, ids =>
    if index.isValid then
      match index.i.bind s.deref, s.parent index with
      | some item, some up => toHeirarchyLoop s fuel up (item.id :: ids)
      | _, _ => none
    else some ids

/-- The static `toHeirarchy(index)`. -/
def toHeirarchy (fuel : Nat) (s : MediaServer) (index : QModelIndex) : Option QByteArray :=
  (toHeirarchyLoop s fuel index []).map (fun ids => QList.join ids constMimeSep)

/-- The static `toHierarchyList(list)`. -/
def toHierarchyList (list : QByteArray) : List QByteArray :=
  QByteArray.split list constMimeSep

/-! ## Sorting indexes in tree order -/

/-- The C++ `struct Index`: a `QModelIndex` with the rows from the top-level
ancestor down to the item.  The field `count` always holds `rows.count()`. -/
structure Index where
  idx : QModelIndex
  rows : List Int
deriving DecidableEq, Repr

def Index.count (a : Index) : Nat := a.rows.length

/-- The loop of the constructor `Index(i)`: prepend the row of `idx`, then move
to its parent, until the index is invalid. -/
def Index.rowsLoop (s : MediaServer) : Nat → QModelIndex → List Int → Option (List Int)
  | 0, idx, rows => if idx.isValid then none else some rows
  | fuel + 1, idx, rows =>
    if idx.isValid then
      match s.parent idx with
      | some up => Index.rowsLoop s fuel up (idx.r :: rows)
      | none => none
    else some rows

/-- The constructor `Index(i)`. -/
def Index.ctor (fuel : Nat) (s : MediaServer) (i : QModelIndex) : Option Index :=
  (Index.rowsLoop s fuel i []).map (fun rows => ⟨i, rows⟩)

/-- The C++ `i<count ? rows.at(i) : -1` of `Index::operator<`. -/
def Index.rowAt (a : Index) (i : Nat) : Int :=
  if i < a.count then a.rows.getD i 0 else -1

/-- The `for` loop of `Index::operator<`, entered at position `i` with
`n = toCompare - i` iterations left. -/
def Index.lessLoop (a b : Index) : Nat → Nat → Bool
  | 0, _ => false
  | n + 1, i =>
    let left : Int := a.rowAt i
    let right : Int := b.rowAt i
    if left < right then true
    else if left > right then false
    else Index.lessLoop a b n (i + 1)

/-- The C++ `Index::operator<`. -/
def Index.less (a b : Index) : Bool :=
  Index.lessLoop a b (max a.count b.count) 0

/-- The Qt `qSort(list)` on a `QList<Index>`: it orders the list with
`operator<`.  It is library code; it is embedded as an insertion sort, which
places an element before the first one that is not smaller than it. -/
def qSort (l : List Index) : List Index :=
  l.insertionSort (fun a b => b.less a = false)

/-- The first loop of `sortIndexes`: an `Index` for every entry in column 0. -/
def sortIndexes.toSort (fuel : Nat) (s : MediaServer) : QModelIndexList → Option (List Index)
  | [] => some []
  | i :: rest =>
    if i.c = 0 then
      match Index.ctor fuel s i, sortIndexes.toSort fuel s rest with
      | some a, some l => some (a :: l)
      | _, _ => none
    else sortIndexes.toSort fuel s rest

/-- The static `sortIndexes(list)`. -/
def sortIndexes (fuel : Nat) (s : MediaServer) (list : QModelIndexList) :
    Option QModelIndexList :=
  if list.isEmpty then some list
  else
    match sortIndexes.toSort fuel s list with
    | none => none
    | some toSort => some ((qSort toSort).map (fun i => i.idx))

/-! ## Strings -/

/-- The Qt `QChar::isSpace()`. -/
def isSpace (c : Char) : Bool :=
  let n := c.toNat
  (9 ≤ n && n ≤ 13) || n = 32 || n = 0x85 || n = 0xA0 || n = 0x1680 ||
  (0x2000 ≤ n && n ≤ 0x200A) || n = 0x2028 || n = 0x2029 || n = 0x202F ||
  n = 0x205F || n = 0x3000

/-- The Qt `QString::trimmed()`: drop the whitespace at both ends. -/
def trimmed (text : QString) : QString :=
  String.mk (((text.data.dropWhile isSpace).reverse.dropWhile isSpace).reverse)

/-- The Qt `QString::toLatin1()`: characters outside Latin-1 become `?`. -/
def toLatin1 (text : QString) : QByteArray :=
  text.data.map (fun c => if c.toNat < 256 then c else '?')

/-- The Qt `QString::toHtmlEscaped()`. -/
def toHtmlEscaped (text : QString) : QString :=
  String.mk (text.data.flatMap (fun c =>
    if c = '<' then "&lt;".data
    else if c = '>' then "&gt;".data
    else if c = '&' then "&amp;".data
    else if c = '"' then "&quot;".data
    else [c]))

/-- Read a decimal number, as `QString::toUInt` and `toInt` do for digits. -/
def parseDigits : List Char → Nat → Option Nat
  | [], acc => some acc
  | c :: cs, acc =>
    if c.isDigit then parseDigits cs (acc * 10 + (c.toNat - 48)) else none

/-- The Qt `toUInt()` on an element text: the number when the text is a decimal
number below `2^32`, and 0 otherwise. -/
def toUInt (text : QString) : Nat :=
  match text.data with
  | [] => 0
  | cs =>
    match parseDigits cs 0 with
    | some n => if n < 2 ^ 32 then n else 0
    | none => 0

/-- An unsigned 32-bit value read as a (signed) `int`. -/
def toInt32 (u : Nat) : Int :=
  if u < 2 ^ 31 then (u : Int) else (u : Int) - 2 ^ 32

/-! ## Building items from DIDL-Lite values -/

/-- Modelled from the spec: the constructor `MusicTrack(values, parent, row)`
is declared in a header that is not among the sources; it copies the title,
artist, album artist, album, track number and album art of the entry. -/
def Item.musicTrack (values : Values) (parent : Option Ptr) (row : Int) : Item :=
  { type := ItemType.Type_MusicTrack, name := values.value "title", parent := parent,
    row := row, id := [], children := [], state := State.State_Initial,
    artist := values.value "artist", albumArtist := values.value "albumArtist",
    album := values.value "album", track := toUInt (values.value "originalTrackNumber"),
    artUrl := values.value "albumArtURI", res := [] }

/-- Modelled from the spec: `Core::Images::constCdCover`, the stock cover. -/
def constCdCover : QString := "cd-cover"

/-- The static `albumArt(a)`. -/
def albumArt (a : QString) : QString :=
  if a = "" then constCdCover else a

/-- The static `fixFolder(folder, man)`, restricted to the name of the folder
(the icon it also chooses is presentation only and is not embedded). -/
def fixFolder (folder : Item) (man : Manufacturer) : Item :=
  if man = Manufacturer.Man_Minim then
    if folder.name = "[folder view]" then { folder with name := "Folders" }
    else if folder.name = "AlbumArtist" then { folder with name := "Album Artist" }
    else folder
  else folder

namespace MediaServer

/-- The C++ `p->field = value` on the cell behind a pointer. -/
def modify (s : MediaServer) (p : Ptr) (f : Item → Item) : Option MediaServer :=
  match s.deref p with
  | none => none
  | some it => some (s.store p (f it))

/-- The attempt of the `Track` constructor to determine the album artist of a
track below the item `par`: the name of a parent artist, or of the artist above
a parent album. -/
def inferAlbumArtist (s : MediaServer) (albumArtist : QString) (par : Item) : Option QString :=
  if albumArtist = "" then
    if par.type = ItemType.Type_Artist then some par.name
    else if par.type = ItemType.Type_Album then
      match par.parent with
      | none => some albumArtist
      | some gp =>
        match s.deref gp with
        | none => none
        | some g => if g.type = ItemType.Type_Artist then some g.name else some albumArtist
    else some albumArtist
  else some albumArtist

/-- The constructor `Track(id, values, parent, row)` (lines 43-71). -/
def mkTrack (s : MediaServer) (i : QByteArray) (values : Values) (p : Option Ptr)
    (r : Int) : Option Item :=
  let base : Item := { Item.musicTrack values p r with
    id := i,
    res := (values.filter (fun kv => "res.".data.isPrefixOf kv.1.data)).map
      (fun kv => (String.mk (kv.1.data.drop 4), kv.2)) }
  match p with
  | none => some base
  | some pp =>
    match s.deref pp with
    | none => none
    | some par =>
      match s.inferAlbumArtist base.albumArtist par with
      | none => none
      | some albumArtist =>
        -- album art is only shown when the parent is not an album
        some { base with
          albumArtist := albumArtist,
          artUrl := if par.type = ItemType.Type_Album then "" else base.artUrl }

/-! ### Search -/

/-- The C++ `MediaServer::removeSearchItem`.  `delete` does not reclaim the
cell: a stale pointer still reads the item it named. -/
def removeSearchItem (s : MediaServer) : Option MediaServer :=
  match s.searchItem with
  | none => some s
  | some p =>
    match s.deref p with
    | none => none
    | some it =>
      some { (s.emit (Signal.rowsRemoved QModelIndex.invalid it.row it.row)) with
        items := s.items.filter (fun q => q ≠ p), searchItem := none }

/-- The `SearchCriteria` that `search(quint32 start)` builds from the current
search text and the search capabilities of the server. -/
def searchCriteria (s : MediaServer) : QByteArray :=
  let searchTerm : QByteArray :=
    "&quot;".data ++ toLatin1 (toHtmlEscaped s.currentSearch) ++ "&quot;".data
  let searchString : QByteArray :=
    s.searchCap.foldl (fun acc cap =>
      (if acc.isEmpty then acc else acc ++ " or ".data) ++ cap ++ " contains ".data ++ searchTerm) []
  "(upnp:class = &quot;object.item.audioItem.musicTrack&quot; and (".data ++ searchString ++
    "))".data

/-- The C++ `MediaServer::search(quint32 start)`. -/
def searchAt (s : MediaServer) (start : Nat) : MediaServer :=
  ({ s with searchStart := start }).send
    (NetOp.search s.searchCriteria start constSearchChunkSize)

/-- The C++ `MediaServer::search(const QString &text)`. -/
def search (s : MediaServer) (text : QString) : Option MediaServer :=
  let trimmedText := trimmed text
  if s.currentSearch = trimmedText then some s
  else
    match ({ s with currentSearch := trimmedText }).removeSearchItem with
    | none => none
    | some s1 =>
      if s1.currentSearch ≠ "" then
        let n : Int := s1.items.length
        let s2 := s1.emit (Signal.rowsInserted QModelIndex.invalid n n)
        let (p, s3) := s2.alloc
          (Item.collection ItemType.Type_Search ("Search: " ++ s1.currentSearch) [] none n)
        let s4 := { s3 with searchItem := some p, items := s3.items ++ [p] }
        let s5 := s4.emit (Signal.searching true)
        let s6 := { s5 with searchTimer := some true }
        some (s6.searchAt 0)
      else some s1

/-- The C++ `MediaServer::searchTimeout`. -/
def searchTimeout (s : MediaServer) : MediaServer :=
  (s.emit (Signal.searching false)).send (NetOp.cancelCommands "Search")

/-- The `foreach` over the albums under the search item in `parseSearch`: the
last album that matches the track is used; an album matched through its art
is renamed to "Various Artists". -/
def findAlbum (track : Item) : MediaServer → List Ptr → Option (Ptr × QModelIndex) →
    Option (MediaServer × Option (Ptr × QModelIndex))
  | s, [], use => some (s, use)
  | s, child :: rest, use =>
    match s.deref child with
    | none => none
    | some a =>
      if a.name = track.album then
        if a.artist = track.artistName then
          findAlbum track s rest (some (child, createIndex a.row 0 child))
        else if track.albumArtist = "" ∧ a.artUrl = track.artUrl then
          findAlbum track (s.store child { a with artist := "Various Artists" }) rest
            (some (child, createIndex a.row 0 child))
        else findAlbum track s rest use
      else findAlbum track s rest use

/-- The search for the insert position in `parseSearch`: the first row `r`
whose track number is larger than the new one. -/
def insertRow (s : MediaServer) (trackNo : Nat) : List Ptr → Nat → Option (Option Nat)
  | [], _ => some none
  | c :: rest, r =>
    match s.deref c with
    | none => none
    | some it => if trackNo < it.track then some (some r) else insertRow s trackNo rest (r + 1)

/-- The loop `for (rr=r+1; rr<count; ++rr) children.at(rr)->row=rr`, run over
the children from position `rr` on. -/
def renumber : MediaServer → List Ptr → Nat → Option MediaServer
  | s, [], _ => some s
  | s, c :: rest, rr =>
    match s.modify c (fun it => { it with row := rr }) with
    | none => none
    | some s1 => renumber s1 rest (rr + 1)

/-- The test `use->children.isEmpty() || track->track >= last->track`. -/
def appendsAtEnd (s : MediaServer) (trackNo : Nat) (children : List Ptr) : Option Bool :=
  match children.getLast? with
  | none => some true
  | some l =>
    match s.deref l with
    | none => none
    | some li => some (decide (trackNo ≥ li.track))

/-- The branch of `parseSearch` that appends the track `t` to the album `use`. -/
def appendTrack (s : MediaServer) (t use : Ptr) (useIndex : QModelIndex) (count : Nat) :
    Option MediaServer :=
  match s.modify t (fun it => { it with row := count }) with
  | none => none
  | some s2 =>
    (s2.emit (Signal.rowsInserted useIndex count count)).modify use
      (fun it => { it with children := it.children ++ [t] })

/-- The branch of `parseSearch` that inserts the track `t` at row `r` of the
album `use` and renumbers the rows behind it. -/
def insertTrack (s : MediaServer) (t use : Ptr) (useIndex : QModelIndex) (r : Nat) :
    Option MediaServer :=
  match s.modify t (fun it => { it with row := r }) with
  | none => none
  | some s2 =>
    match (s2.emit (Signal.rowsInserted useIndex r r)).modify use
        (fun it => { it with children := it.children.take r ++ t :: it.children.drop r }) with
    | none => none
    | some s4 =>
      match s4.deref use with
      | none => none
      | some u => renumber s4 (u.children.drop (r + 1)) (r + 1)

/-- The part of `parseSearch` from `track->parent=use` to the end of the
ordered insert: file the track `t` under the album `use`, keeping the children
ordered by track number. -/
def fileTrack (s : MediaServer) (t use : Ptr) (useIndex : QModelIndex) : Option MediaServer :=
  match s.modify t (fun it => { it with parent := some use }) with
  | none => none
  | some s1 =>
    match s1.deref t, s1.deref use with
    | some track, some u =>
      match s1.appendsAtEnd track.track u.children with
      | none => none
      | some true => s1.appendTrack t use useIndex u.children.length
      | some false =>
        match s1.insertRow track.track u.children 0 with
        | none => none
        | some none => some s1
        | some (some r) => s1.insertTrack t use useIndex r
    | _, _ => none

/-- The `foreach` over `searchItem->children` in `parseSearch`. -/
def searchAlbums (s : MediaServer) (track : Item) :
    Option (MediaServer × Option (Ptr × QModelIndex)) :=
  match s.searchItem.bind s.deref with
  | none => none
  | some si => findAlbum track s si.children none

/-- The choice of `use` in `parseSearch`: the album remembered from the
previous track when it still matches, and a search through the albums under
the search item otherwise. -/
def chooseAlbum (s : MediaServer) (track : Item) (album : Option (Ptr × QModelIndex)) :
    Option (MediaServer × Option (Ptr × QModelIndex)) :=
  match album with
  | none => s.searchAlbums track
  | some (ap, ai) =>
    match s.deref ap with
    | none => none
    | some a =>
      if a.name ≠ track.album ∨ a.artist ≠ track.artistName then s.searchAlbums track
      else some (s, some (ap, ai))

/-- The branch `if (!use)` of `parseSearch`: a new album under the search item. -/
def newAlbum (s : MediaServer) (track : Item) : Option (MediaServer × Ptr × QModelIndex) :=
  match s.searchItem with
  | none => none
  | some sp =>
    match s.deref sp with
    | none => none
    | some si =>
      let n : Nat := si.children.length
      let s1 := s.emit (Signal.rowsInserted (createIndex si.row 0 sp) n n)
      let up := (s1.alloc
        { Item.mkAlbum track.album track.artistName track.artUrl [] (some sp) n
          with state := State.State_Populating }).1
      let s2 := (s1.alloc
        { Item.mkAlbum track.album track.artistName track.artUrl [] (some sp) n
          with state := State.State_Populating }).2
      match s2.modify sp (fun it => { it with children := it.children ++ [up] }) with
      | none => none
      | some s3 => some (s3, up, createIndex n 0 up)

/-- The body of the loop of `parseSearch` for one music track; `album` holds
the locals `album` and `albumIndex`, and the result holds their new values. -/
def searchTrack (s : MediaServer) (values : Values) (album : Option (Ptr × QModelIndex)) :
    Option (MediaServer × Ptr × QModelIndex) :=
  match s.mkTrack [] values none 0 with
  | none => none
  | some track =>
    let t := (s.alloc track).1
    match (s.alloc track).2.chooseAlbum track album with
    | none => none
    | some (s2, use) =>
      let made : Option (MediaServer × Ptr × QModelIndex) :=
        match use with
        | some u => some (s2, u)
        | none => s2.newAlbum track
      match made with
      | none => none
      | some (s3, up, ui) =>
        match s3.fileTrack t up ui with
        | none => none
        | some s4 =>
          match s4.modify t (fun it => { it with artUrl := "" }) with
          | none => none
          | some s5 => some (s5, up, ui)

/-- The loop of `parseSearch` over the `container`/`item` entries. -/
def parseSearchLoop : MediaServer → List Values → Option (Ptr × QModelIndex) →
    Option MediaServer
  | s, [], _ => some s
  | s, values :: rest, album =>
    if values.value "class" = "object.item.audioItem.musicTrack" then
      match s.searchTrack values album with
      | none => none
      | some (s1, use) => parseSearchLoop s1 rest (some use)
    else parseSearchLoop s rest album

/-- The C++ `MediaServer::parseSearch` on the entries of a `Result` document. -/
def parseSearch (s : MediaServer) (entries : List Values) : Option MediaServer :=
  parseSearchLoop s entries none

/-! ### Browse -/

/-- The inner `for` loop of `MediaServer::findItem`, from row `r` on; `recurse`
is the recursive call of `findItem` with the same id. -/
def findItemLoop (s : MediaServer) (recurse : QModelIndex → Option QModelIndex)
    (id : QByteArray) : List Ptr → Int → Option QModelIndex
  | [], _ => some QModelIndex.invalid
  | ip :: rest, r =>
    match s.deref ip with
    | none => none
    | some item =>
      let index := createIndex r 0 ip
      if item.id = id then some index
      else if item.isCollection then
        match recurse index with
        | none => none
        | some idx => if idx.isValid then some idx else findItemLoop s recurse id rest (r + 1)
      else findItemLoop s recurse id rest (r + 1)

/-- The C++ `MediaServer::findItem(id, parent)`. -/
def findItem (s : MediaServer) : Nat → QByteArray → QModelIndex → Option QModelIndex
  | 0, _, _ => none
  | fuel + 1, id, parent =>
    if id = ['0'] then some QModelIndex.invalid
    else if parent.isValid then
      match parent.i.bind s.deref with
      | none => none
      | some parentItem =>
        if parentItem.isCollection then
          findItemLoop s (findItem s fuel id) id parentItem.children 0
        else some QModelIndex.invalid
    else findItemLoop s (findItem s fuel id) id s.items 0

/-- The item that `parseBrowse` builds for an entry of class `type`, given the
row; `none` when the class is not shown. -/
def newItem (s : MediaServer) (values : Values) (id : QByteArray) (parentItem : Option Ptr)
    (row : Int) : Option (Option Item) :=
  let type := values.value "class"
  let title := values.value "title"
  if type = "object.container.storageFolder" then
    some (some (fixFolder (Item.collection ItemType.Type_Folder title id parentItem row)
      s.manufacturer))
  else if type = "object.container.genre.musicGenre" then
    some (some (Item.collection ItemType.Type_Genre title id parentItem row))
  else if type = "object.container.person.musicArtist" then
    some (some (Item.collection ItemType.Type_Artist title id parentItem row))
  else if type = "object.container.album.musicAlbum" then
    some (some (Item.mkAlbum title
      (values.value (if values.contains "artist" then "artist" else "creator"))
      (albumArt (values.value "albumArtURI")) id parentItem row))
  else if type = "object.item.audioItem.musicTrack" then
    (s.mkTrack id values parentItem row).map some
  else if type = "object.container.playlistContainer" then
    some (some (Item.collection ItemType.Type_Playlist title id parentItem row))
  else if "object.container".data.isPrefixOf type.data then
    if title ≠ ">> Hide Contents" then
      if title = ">> Complete Album" then
        some (some (fixFolder
          (Item.collection ItemType.Type_Folder "Show Complete Album" id parentItem row)
          s.manufacturer))
      else
        some (some (fixFolder (Item.collection ItemType.Type_Folder title id parentItem row)
          s.manufacturer))
    else some none
  else some none

/-- Whether `newItem` reads `list->count()` for this entry (every branch that
constructs an item does). -/
def readsCount (values : Values) : Bool :=
  let type := values.value "class"
  decide (type = "object.container.storageFolder") ||
  decide (type = "object.container.genre.musicGenre") ||
  decide (type = "object.container.person.musicArtist") ||
  decide (type = "object.container.album.musicAlbum") ||
  decide (type = "object.item.audioItem.musicTrack") ||
  decide (type = "object.container.playlistContainer") ||
  ("object.container".data.isPrefixOf type.data &&
    decide (values.value "title" ≠ ">> Hide Contents"))

/-- The update of the local `parent` in `parseBrowse`: the remembered parent is
kept when it is valid and has the id `parentId`, and `findItem` is asked
otherwise. -/
def lookupParent (fuel : Nat) (s : MediaServer) (parent : QModelIndex) (parentId : QByteArray) :
    Option QModelIndex :=
  if !parent.isValid then s.findItem fuel parentId QModelIndex.invalid
  else
    -- itemId(static_cast<Item *>(parent.internalPointer()))
    let cached : Option QByteArray :=
      match parent.i with
      | none => some (itemId none)
      | some pp => (s.deref pp).map (fun it => itemId (some it))
    match cached with
    | none => none
    | some pid =>
      if parentId ≠ pid then s.findItem fuel parentId QModelIndex.invalid
      else some parent

/-- The C++ `list->count()` for
`list = parentItem ? &static_cast<Collection *>(parentItem)->children : &items`;
the cast of a track to a collection has no defined result. -/
def listCount (s : MediaServer) (parentItem : Option Ptr) : Option Nat :=
  match parentItem with
  | none => some s.items.length
  | some pp =>
    match s.deref pp with
    | none => none
    | some pit => if pit.isCollection then some pit.children.length else none

/-- The C++ `beginInsertRows(parent, n, n); list->append(item); endInsertRows()`
for the newly constructed `item`. -/
def appendItem (s : MediaServer) (parent1 : QModelIndex) (parentItem : Option Ptr) (n : Nat)
    (item : Item) : Option MediaServer :=
  let s1 := s.emit (Signal.rowsInserted parent1 n n)
  let ip := (s1.alloc item).1
  let s2 := (s1.alloc item).2
  match parentItem with
  | none => some { s2 with items := s2.items ++ [ip] }
  | some pp => s2.modify pp (fun it => { it with children := it.children ++ [ip] })

/-- The body of the inner loop of `parseBrowse` for one `container`/`item`
entry; `parent` is the local that remembers the parent of the previous entry. -/
def browseEntry (fuel : Nat) (s : MediaServer) (parent : QModelIndex) (values : Values) :
    Option (MediaServer × QModelIndex) :=
  let parentId := toLatin1 (values.value "parentID")
  let id := toLatin1 (values.value "id")
  if !parentId.isEmpty && !id.isEmpty && values.contains "class" then
    match s.lookupParent fuel parent parentId with
    | none => none
    | some parent1 =>
      if parent1.isValid || parentId = ['0'] then
        let parentItem : Option Ptr := if parent1.isValid then parent1.i else none
        if readsCount values then
          match s.listCount parentItem with
          | none => none
          | some n =>
            match s.newItem values id parentItem n with
            | none => none
            | some none => some (s, parent1)
            | some (some item) =>
              match s.appendItem parent1 parentItem n item with
              | none => none
              | some t => some (t, parent1)
        else some (s, parent1)
      else some (s, parent1)
  else some (s, parent)

/-- The loops of `parseBrowse` over the entries of the document. -/
def parseBrowseLoop (fuel : Nat) : MediaServer → QModelIndex → List Values →
    Option (MediaServer × QModelIndex)
  | s, parent, [] => some (s, parent)
  | s, parent, values :: rest =>
    match browseEntry fuel s parent values with
    | none => none
    | some (s1, parent1) => parseBrowseLoop fuel s1 parent1 rest

/-! ### Play requests -/

/-- The `foreach` over the children of a collection in `populateCommand`;
`recurse` is the recursive call of `populateCommand`. -/
def populateChildren (recurse : MediaServer → QModelIndex → Option MediaServer) :
    MediaServer → List Ptr → Option MediaServer
  | s, [] => some s
  | s, ip :: rest =>
    match s.deref ip with
    | none => none
    | some item =>
      let child := createIndex item.row 0 ip
      if item.type = ItemType.Type_MusicTrack then
        populateChildren recurse
          { s with command := { s.command with populated := s.command.populated ++ [child] } } rest
      else
        match recurse s child with
        | none => none
        | some s1 => populateChildren recurse s1 rest

/-- The C++ `MediaServer::populateCommand(idx)`. -/
def populateCommand : Nat → MediaServer → QModelIndex → Option MediaServer
  | 0, _, _ => none
  | fuel + 1, s, idx =>
    match idx.i.bind s.deref with
    | none => none
    | some item =>
      if item.type = ItemType.Type_MusicTrack then
        some { s with command := { s.command with populated := s.command.populated ++ [idx] } }
      else if s.canFetchMore idx then
        some (({ s with command :=
          { s.command with toPopulate := s.command.toPopulate ++ [idx] } }).fetchMore idx)
      else populateChildren (populateCommand fuel) s item.children

/-- The loop of `checkCommand` that copies the sorted tracks into the command,
taking the album art of the parent album when the track has none. -/
def copyTracks (s : MediaServer) : QModelIndexList → Option (List Item)
  | [] => some []
  | idx :: rest =>
    match idx.i.bind s.deref with
    | none => none
    | some trk =>
      let withArt : Option Item :=
        if trk.artUrl = "" then
          match trk.parent with
          | none => some trk
          | some pp =>
            match s.deref pp with
            | none => none
            | some par =>
              if par.type = ItemType.Type_Album then some { trk with artUrl := par.artUrl }
              else some trk
        else some trk
      match withArt, copyTracks s rest with
      | some t, some l => some (t :: l)
      | _, _ => none

/-- The C++ `MediaServer::checkCommand()`. -/
def checkCommand (fuel : Nat) (s : MediaServer) : Option MediaServer :=
  if s.command.toPopulate.isEmpty then
    match sortIndexes fuel s s.command.populated with
    | none => none
    | some sorted =>
      if !sorted.isEmpty then
        match copyTracks s sorted with
        | none => none
        | some tracks =>
          let s1 := s.emit (Signal.addTracks ⟨tracks, s.command.pos, s.command.type⟩)
          some { s1 with command := s1.command.reset }
      else some { s with command := s.command.reset }
  else some s

/-- The C++ `MediaServer::checkCommand(const QModelIndex &idx)`. -/
def checkCommandFor (fuel : Nat) (s : MediaServer) (idx : QModelIndex) : Option MediaServer :=
  if idx ∈ s.command.toPopulate then
    let s1 := { s with command :=
      { s.command with toPopulate := s.command.toPopulate.filter (fun x => x ≠ idx) } }
    match populateCommand fuel s1 idx with
    | none => none
    | some s2 => checkCommand fuel s2
  else checkCommand fuel s

/-- The C++ `MediaServer::parseBrowse` on the entries of a `Result` document. -/
def parseBrowse (fuel : Nat) (s : MediaServer) (entries : List Values) : Option MediaServer :=
  match parseBrowseLoop fuel s QModelIndex.invalid entries with
  | none => none
  | some (s1, parent) => checkCommandFor fuel s1 parent

/-- The `foreach` of `play` that feeds every index to `populateCommand`. -/
def playLoop (fuel : Nat) : MediaServer → QModelIndexList → Option MediaServer
  | s, [] => some s
  | s, idx :: rest =>
    match populateCommand fuel s idx with
    | none => none
    | some s1 => playLoop fuel s1 rest

/-- The C++ `MediaServer::play(indexes, pos, type)`. -/
def play (fuel : Nat) (s : MediaServer) (indexes : QModelIndexList) (pos : Int)
    (type : PlayType) : Option MediaServer :=
  let s0 := if !s.command.toPopulate.isEmpty then { s with command := s.command.reset } else s
  let s1 := { s0 with command := { s0.command with pos := pos, type := type } }
  match playLoop fuel s1 indexes with
  | none => none
  | some s2 => checkCommand fuel s2

/-! ### Play requests from dropped object ids -/

/-- A `foreach` that returns the first item of `list` for which `test` holds. -/
def findFirst (s : MediaServer) (test : Item → Bool) : List Ptr → Option (Option (Ptr × Item))
  | [] => some none
  | c :: rest =>
    match s.deref c with
    | none => none
    | some it => if test it then some (some (c, it)) else findFirst s test rest

/-- The static `findItem(list, ids)` (lines 274-289): follow the ids level by
level through the collections; the result is the collection the last id names,
or null. -/
def findItemIn (s : MediaServer) : List QByteArray → List Ptr → Option (Option Ptr)
  | [], _ => some none
  | toFind :: ids, list =>
    match s.findFirst (fun it => it.isCollection && decide (it.id = toFind)) list with
    | none => none
    | some none => some none
    | some (some (c, it)) =>
      if ids.isEmpty then some (some c) else findItemIn s ids it.children

/-- The list `*list` that `play(ids, row)` searches: the top-level items, or
the children of the parent collection. -/
def listOf (s : MediaServer) (owner : Option Ptr) : Option (List Ptr) :=
  match owner with
  | none => some s.items
  | some p => (s.deref p).map (fun it => it.children)

/-- The choice of `list` in `play(ids, row)` for the parent hierarchy `h` of an
entry (all but its last component); the list is given by its owner.  The local
`parentHeirarchy` is never assigned, so it is the empty list throughout;
`lastParentList` is the owner of the list used last.  The result pairs `list`
with the new `lastParentList`; it is `some none` for the early `return`. -/
def parentListOf (s : MediaServer) (h : List QByteArray) (lastParentList : Option Ptr) :
    Option (Option (Option Ptr × Option Ptr)) :=
  let parentHeirarchy : List QByteArray := []
  if !h.isEmpty then
    if h = parentHeirarchy then some (some (lastParentList, lastParentList))
    else
      match s.findItemIn h s.items with
      | none => none
      | some none => some none
      | some (some p) =>
        match s.deref p with
        | none => none
        | some pit => if !pit.isCollection then some none else some (some (some p, some p))
  else some (some (none, lastParentList))

/-- The `foreach` of `play(ids, row)`; the result is `some none` after the
early `return`. -/
def playIdsLoop (s : MediaServer) : List QByteArray → Option Ptr → QModelIndexList →
    Option (Option QModelIndexList)
  | [], _, indexes => some (some indexes)
  | i :: rest, lastParentList, indexes =>
    let h := toHierarchyList i
    match h.getLast? with
    | none => playIdsLoop s rest lastParentList indexes
    | some id =>
      match s.parentListOf h.dropLast lastParentList with
      | none => none
      | some none => some none
      | some (some (list, last)) =>
        match s.listOf list with
        | none => none
        | some items =>
          match s.findFirst (fun it =>
              (it.isCollection && decide (it.id = id)) ||
              (!it.isCollection && decide (it.id = id))) items with
          | none => none
          | some none => playIdsLoop s rest last indexes
          | some (some (c, it)) =>
            playIdsLoop s rest last (indexes ++ [createIndex it.row 0 c])

/-- The C++ `MediaServer::play(const QList<QByteArray> &ids, qint32 row)`. -/
def playIds (fuel : Nat) (s : MediaServer) (ids : List QByteArray) (row : Int) :
    Option MediaServer :=
  match s.playIdsLoop ids none [] with
  | none => none
  | some none => some s
  | some (some indexes) =>
    if !indexes.isEmpty then s.play fuel indexes row PlayType.Insert else some s

/-! ### Responses -/

/-- The C++ `MediaServer::parseSearchCapabilities` on the text of the
`SearchCaps` element. -/
def parseSearchCapabilities (s : MediaServer) (text : QString) : MediaServer :=
  let caps := QByteArray.split text.data ','
  let keep := caps.filter (fun cap =>
    cap.contains ':' && !cap.contains '[' && decide (cap ≠ "dc:date".data) &&
    decide (cap ≠ "upnp:actor".data) && decide (cap ≠ "upnp:class".data) &&
    decide (cap ≠ "upnp:genre".data))
  { s with searchCap := s.searchCap ++ keep.map (fun cap =>
      toLatin1 (String.mk (cap.flatMap (fun c => if c = '"' then "&quot;".data else [c])))) }

/-- The loop `foreach (Item *c, searchItem->children) c->state=State_Populated`. -/
def markPopulated : MediaServer → List Ptr → Option MediaServer
  | s, [] => some s
  | s, c :: rest =>
    match s.modify c (fun it => { it with state := State.State_Populated }) with
    | none => none
    | some s1 => markPopulated s1 rest

/-- The C++ `if (searchTimer) searchTimer->stop()`. -/
def stopTimer (s : MediaServer) : MediaServer :=
  { s with searchTimer := s.searchTimer.map (fun _ => false) }

/-- The tail of `commandResponse` for a `Search` response, once the document
has been read: `total` and `returned` are the unsigned 32-bit values that
`toUInt()` produced.  The sum `returned+searchStart` is an unsigned 32-bit
sum, and it is compared with `total` as an unsigned number. -/
def searchResponse (s : MediaServer) (total returned : Nat) : Option MediaServer :=
  if total = 0 ∧ returned = 0 then
    let s1 := (s.emit (Signal.searching false)).emit (Signal.info "No songs found!" 5)
    match s1.removeSearchItem with
    | none => none
    | some s2 => some s2.stopTimer
  else if (returned + s.searchStart) % 2 ^ 32 < total ∧
      (returned + s.searchStart) % 2 ^ 32 < constMaxSearchResults then
    some (s.searchAt ((s.searchStart + returned) % 2 ^ 32))
  else
    let marked : Option MediaServer :=
      match s.searchItem with
      | none => some s
      | some sp =>
        match s.deref sp with
        | none => none
        | some si => markPopulated s si.children
    match marked with
    | none => none
    | some s1 =>
      let s2 :=
        if toInt32 total > (constMaxSearchResults : Int) then
          s1.emit (Signal.info "Too many matches. Only display first 2000 tracks." 5)
        else s1
      some (s2.emit (Signal.searching false)).stopTimer

/-- An element of a response document, in document order. -/
inductive ResponseElement where
  | Result (entries : List Values)
  | NumberReturned (text : QString)
  | TotalMatches (text : QString)
  | SearchCaps (text : QString)
deriving DecidableEq, Repr

/-- The `while` loop of `commandResponse` over the elements of the response. -/
def readResponse (fuel : Nat) (type : String) : MediaServer → List ResponseElement →
    Nat → Nat → Option (MediaServer × Nat × Nat)
  | s, [], total, returned => some (s, total, returned)
  | s, ResponseElement.Result entries :: rest, total, returned =>
    if type = "Browse" then
      match s.parseBrowse fuel entries with
      | none => none
      | some s1 => readResponse fuel type s1 rest total returned
    else if type = "Search" then
      match s.parseSearch entries with
      | none => none
      | some s1 => readResponse fuel type s1 rest total returned
    else readResponse fuel type s rest total returned
  | s, ResponseElement.NumberReturned text :: rest, total, _ =>
    readResponse fuel type s rest total (toUInt text)
  | s, ResponseElement.TotalMatches text :: rest, _, returned =>
    readResponse fuel type s rest (toUInt text) returned
  | s, ResponseElement.SearchCaps _ :: rest, total, returned =>
    readResponse fuel type s rest total returned

/-- The C++ `MediaServer::commandResponse(reader, type, job)`. -/
def commandResponse (fuel : Nat) (s : MediaServer) (reader : List ResponseElement)
    (type : String) : Option MediaServer :=
  if type = "GetSearchCapabilities" then
    match reader.findSome? (fun e =>
        match e with
        | ResponseElement.SearchCaps text => some text
        | _ => none) with
    | some text => some (s.parseSearchCapabilities text)
    | none => some s
  else
    match readResponse fuel type s reader 0 0 with
    | none => none
    | some (s1, total, returned) =>
      if type = "Search" then s1.searchResponse total returned else some s1

end MediaServer

/-! ## Specification-side notions -/

/-- The object ids from the top-level ancestor of the item behind `p` down to
the item itself, following the parent pointers.  Every proper ancestor has a
non-negative row, as the index that `parent()` builds for it must be valid. -/
inductive IdPath (s : MediaServer) : Ptr → List QByteArray → Prop where
  | top {p : Ptr} {it : Item} : s.deref p = some it → it.parent = none →
      IdPath s p [it.id]
  | child {p pp : Ptr} {it par : Item} {ids : List QByteArray} : s.deref p = some it →
      it.parent = some pp → s.deref pp = some par → 0 ≤ par.row → IdPath s pp ids →
      IdPath s p (ids ++ [it.id])

/-- The `addTracks` signals emitted so far, oldest first. -/
def MediaServer.addTracksOf (s : MediaServer) : List Signal :=
  s.emitted.filter (fun sig =>
    match sig with
    | Signal.addTracks _ => true
    | _ => false)

/-- What reaches the model while a play request is pending: a call of
`play(indexes, pos, type)` or the `Result` of a `Browse` response. -/
inductive PlayEvent where
  | play (indexes : QModelIndexList) (pos : Int) (type : PlayType)
  | browse (entries : List Values)
deriving DecidableEq, Repr

/-- The reaction of the model to one event. -/
def MediaServer.step (fuel : Nat) (s : MediaServer) : PlayEvent → Option MediaServer
  | PlayEvent.play indexes pos type => s.play fuel indexes pos type
  | PlayEvent.browse entries => s.parseBrowse fuel entries

/-- The reaction of the model to a sequence of events. -/
def MediaServer.run (fuel : Nat) : MediaServer → List PlayEvent → Option MediaServer
  | s, [] => some s
  | s, e :: rest =>
    match s.step fuel e with
    | none => none
    | some t => MediaServer.run fuel t rest

/-- Every entry of the child list `l` has its `row` field equal to its position
in `l`. -/
def MediaServer.RowsOfList (s : MediaServer) (l : List Ptr) : Prop :=
  ∀ ic ∈ l.enum, (s.deref ic.2).map (fun it => it.row) = some (ic.1 : Int)

instance (s : MediaServer) (l : List Ptr) : Decidable (s.RowsOfList l) := by
  unfold MediaServer.RowsOfList
  infer_instance

/-- Tree position is the model row: the top-level entries and the children of
every collection have their `row` equal to their position in the list. -/
def MediaServer.RowsMatch (s : MediaServer) : Prop :=
  s.RowsOfList s.items ∧ ∀ it ∈ s.heap, it.isCollection = true → s.RowsOfList it.children

instance (s : MediaServer) : Decidable s.RowsMatch := by
  unfold MediaServer.RowsMatch
  infer_instance

/-- The relation "`t` differs from `s` at most in the heap and in the log of
emitted signals": what parsing a `Search` result may change. -/
def MediaServer.HeapAndSignalsOnly (s t : MediaServer) : Prop :=
  t = { s with heap := t.heap, emitted := t.emitted }

/-- The state `s` with the indexes `l` appended to `command.populated`. -/
def MediaServer.appendPopulated (s : MediaServer) (l : QModelIndexList) : MediaServer :=
  { s with command := { s.command with populated := s.command.populated ++ l } }

/-- `SubtreeTracks h cs l`: in the heap `h`, no collection in the subtrees of
the siblings `cs` is in `State_Initial`, and `l` lists the indexes
`createIndex(row, 0, track)` of the tracks of those subtrees, each once, in
depth-first child order. -/
inductive SubtreeTracks (h : List Item) : List Ptr → QModelIndexList → Prop where
  | nil : SubtreeTracks h [] []
  | track {c : Ptr} {rest : List Ptr} {l : QModelIndexList} {it : Item} :
      h[c]? = some it → it.type = ItemType.Type_MusicTrack → SubtreeTracks h rest l →
      SubtreeTracks h (c :: rest) (createIndex it.row 0 c :: l)
  | collection {c : Ptr} {rest : List Ptr} {l1 l2 : QModelIndexList} {it : Item} :
      h[c]? = some it → it.type ≠ ItemType.Type_MusicTrack →
      it.state ≠ State.State_Initial → SubtreeTracks h it.children l1 →
      SubtreeTracks h rest l2 → SubtreeTracks h (c :: rest) (l1 ++ l2)

/-- `Forest h l`: in the heap `h`, the siblings `l` together with everything
below them form a finite forest (tracks are leaves, collections own their
children). -/
inductive Forest (h : List Item) : List Ptr → Prop where
  | nil : Forest h []
  | track {c : Ptr} {rest : List Ptr} {it : Item} :
      h[c]? = some it → it.isCollection = false → Forest h rest → Forest h (c :: rest)
  | collection {c : Ptr} {rest : List Ptr} {it : Item} :
      h[c]? = some it → it.isCollection = true → Forest h it.children → Forest h rest →
      Forest h (c :: rest)

/-- `InForest h l q`: the item `q` is one of the siblings `l` or lies below one
of them. -/
inductive InForest (h : List Item) : List Ptr → Ptr → Prop where
  | here {c : Ptr} {rest : List Ptr} : InForest h (c :: rest) c
  | inside {c q : Ptr} {rest : List Ptr} {it : Item} :
      h[c]? = some it → it.isCollection = true → InForest h it.children q →
      InForest h (c :: rest) q
  | later {c q : Ptr} {rest : List Ptr} : InForest h rest q → InForest h (c :: rest) q

/-- No item among the siblings `l` or below them has the object id `id`. -/
def NoneWithId (h : List Item) (id : QByteArray) (l : List Ptr) : Prop :=
  ∀ q it, InForest h l q → h[q]? = some it → it.id ≠ id

/-- `FirstWithId h id l r x`: `x` is the index `createIndex(row, 0, item)` of
the first item with the object id `id` in depth-first pre-order of the forest
below the siblings `l`, where `row` is the position of the item in the list of
its parent; the first of the siblings `l` has position `r`. -/
inductive FirstWithId (h : List Item) (id : QByteArray) : List Ptr → Int → QModelIndex → Prop
    where
  | here {c : Ptr} {rest : List Ptr} {it : Item} {r : Int} :
      h[c]? = some it → it.id = id → FirstWithId h id (c :: rest) r (createIndex r 0 c)
  | inside {c : Ptr} {rest : List Ptr} {it : Item} {r : Int} {x : QModelIndex} :
      h[c]? = some it → it.id ≠ id → it.isCollection = true →
      FirstWithId h id it.children 0 x → FirstWithId h id (c :: rest) r x
  | later {c : Ptr} {rest : List Ptr} {it : Item} {r : Int} {x : QModelIndex} :
      h[c]? = some it → it.id ≠ id → (it.isCollection = true → NoneWithId h id it.children) →
      FirstWithId h id rest (r + 1) x → FirstWithId h id (c :: rest) r x

/-- `FirstWith s test l p it`: `p` is the first entry of the list `l` whose item
`it` passes `test`. -/
inductive FirstWith (s : MediaServer) (test : Item → Prop) : List Ptr → Ptr → Item → Prop where
  | here {c : Ptr} {rest : List Ptr} {it : Item} :
      s.deref c = some it → test it → FirstWith s test (c :: rest) c it
  | later {c p : Ptr} {rest : List Ptr} {it pit : Item} :
      s.deref c = some it → ¬ test it → FirstWith s test rest p pit →
      FirstWith s test (c :: rest) p pit

/-- No entry of the list `l` passes `test`. -/
def NoneWith (s : MediaServer) (test : Item → Prop) (l : List Ptr) : Prop :=
  ∀ c ∈ l, ∃ it, s.deref c = some it ∧ ¬ test it

/-- `ResolvesTo s l path p`: the non-empty `path` of object ids resolves, level
by level from the list `l` through collections only, to the collection `p`: at
every level the first collection with the id is taken. -/
inductive ResolvesTo (s : MediaServer) : List Ptr → List QByteArray → Ptr → Prop where
  | last {l : List Ptr} {x : QByteArray} {p : Ptr} {it : Item} :
      FirstWith s (fun it => it.isCollection = true ∧ it.id = x) l p it →
      ResolvesTo s l [x] p
  | step {l : List Ptr} {x y : QByteArray} {rest : List QByteArray} {q p : Ptr} {it : Item} :
      FirstWith s (fun it => it.isCollection = true ∧ it.id = x) l q it →
      ResolvesTo s it.children (y :: rest) p → ResolvesTo s l (x :: y :: rest) p

/-- `Unresolved s l path`: the non-empty `path` does not resolve from the list
`l`: at some level no collection has the id. -/
inductive Unresolved (s : MediaServer) : List Ptr → List QByteArray → Prop where
  | noCollection {l : List Ptr} {x : QByteArray} {rest : List QByteArray} :
      NoneWith s (fun it => it.isCollection = true ∧ it.id = x) l →
      Unresolved s l (x :: rest)
  | deeper {l : List Ptr} {x y : QByteArray} {rest : List QByteArray} {q : Ptr} {it : Item} :
      FirstWith s (fun it => it.isCollection = true ∧ it.id = x) l q it →
      Unresolved s it.children (y :: rest) → Unresolved s l (x :: y :: rest)

/-- The parent path of a dropped entry: all but the last component. -/
def parentPath (i : QByteArray) : List QByteArray := (toHierarchyList i).dropLast

/-- `ParentList s path l`: `l` is the list in which an entry with the parent
path `path` is looked up: the top-level items for the empty path, and the
children of the collection the path resolves to otherwise. -/
inductive ParentList (s : MediaServer) : List QByteArray → List Ptr → Prop where
  | top : ParentList s [] s.items
  | children {path : List QByteArray} {p : Ptr} {it : Item} :
      ResolvesTo s s.items path p → s.deref p = some it → ParentList s path it.children

/-- `EntryIndex s i r`: the parent path of the entry `i` resolves, and `r` is
the index of the first item in the resolved list whose id is the last
component of `i`, or `none` when no item there has that id. -/
inductive EntryIndex (s : MediaServer) (i : QByteArray) : Option QModelIndex → Prop where
  | found {l : List Ptr} {id : QByteArray} {c : Ptr} {it : Item} :
      ParentList s (parentPath i) l → (toHierarchyList i).getLast? = some id →
      FirstWith s (fun it => it.id = id) l c it →
      EntryIndex s i (some (createIndex it.row 0 c))
  | skipped {l : List Ptr} {id : QByteArray} :
      ParentList s (parentPath i) l → (toHierarchyList i).getLast? = some id →
      NoneWith s (fun it => it.id = id) l → EntryIndex s i none

/-- The item `it2` is the item `it1` at the same place: same type, id, parent
and row, and the children of `it1` are still the first children of `it2`, in
the same order. -/
def Item.KeepsPlace (it1 it2 : Item) : Prop :=
  it2.type = it1.type ∧ it2.id = it1.id ∧ it2.parent = it1.parent ∧ it2.row = it1.row ∧
    ∃ l, it2.children = it1.children ++ l

/-- The relation "`t` is `s` after appends only": the top-level list got new
entries at its end, none of them a search item; every item of `s` is still
there, at the same place; the search item and the search text are the same. -/
def MediaServer.OnlyAppends (s t : MediaServer) : Prop :=
  (∃ l, t.items = s.items ++ l ∧
    ∀ q ∈ l, s.heap.length ≤ q ∧ ∃ it, t.deref q = some it ∧ it.type ≠ ItemType.Type_Search) ∧
  t.searchItem = s.searchItem ∧ t.currentSearch = s.currentSearch ∧
  s.heap.length ≤ t.heap.length ∧
  ∀ q it, s.deref q = some it → ∃ it2, t.deref q = some it2 ∧ it.KeepsPlace it2

/-- The reaction of the model to a sequence of `Search` responses, each given
by its `TotalMatches` and `NumberReturned` (the tail of `commandResponse`). -/
def MediaServer.searchResponses : MediaServer → List (Nat × Nat) → Option MediaServer
  | s, [] => some s
  | s, (total, returned) :: rest =>
    match s.searchResponse total returned with
    | none => none
    | some t => MediaServer.searchResponses t rest

/-- The number of `Search` requests in a log of network calls. -/
def searchRequests (net : List NetOp) : Nat :=
  (net.filter (fun op =>
    match op with
    | NetOp.search _ _ _ => true
    | _ => false)).length

/-- The track number of the item behind `c` (0 behind a dangling pointer). -/
def MediaServer.trackAt (s : MediaServer) (c : Ptr) : Nat :=
  match s.deref c with
  | some it => it.track
  | none => 0

/-- The search results are in order: there is a search item; every album under
it is an item other than the search item, all its children are live, and they
are sorted by track number, non-decreasing. -/
def MediaServer.SearchSorted (s : MediaServer) : Prop :=
  ∃ sp si, s.searchItem = some sp ∧ s.deref sp = some si ∧
    ∀ a ∈ si.children, a ≠ sp ∧ ∃ ai, s.deref a = some ai ∧
      (∀ c ∈ ai.children, (s.deref c).isSome = true) ∧
      (ai.children.map s.trackAt).Pairwise (fun m n => m ≤ n)

/-- The item `b` is the item `a` with the same type, name, album name and track
number. -/
def Item.SameTrack (a b : Item) : Prop :=
  b.type = a.type ∧ b.name = a.name ∧ b.album = a.album ∧ b.track = a.track

/-- The relation "every item of `s` is still there in `t`, with the same type,
name, album name and track number, and outside the cells `C` also with the same
children and parent". -/
def MediaServer.KeepsCells (C : List Ptr) (s t : MediaServer) : Prop :=
  s.heap.length ≤ t.heap.length ∧
  ∀ q it, s.deref q = some it → ∃ it2, t.deref q = some it2 ∧ it.SameTrack it2 ∧
    (q ∉ C → it2.children = it.children ∧ it2.parent = it.parent)

/-- The test of `parseSearch` for "the album `a` matches the track": same album
name, and the same artist or, for a track without album artist, the same art. -/
def Item.matchesTrack (a track : Item) : Prop :=
  a.name = track.album ∧
    (a.artist = track.artistName ∨ (track.albumArtist = "" ∧ a.artUrl = track.artUrl))

/-- `FiledUnder s track t up`: the state `t` is the state `s` after the new
track `track`, allocated at the next free cell, was filed under the album `up`
of the search item: `up` is an album that was there and holds the track in
addition to its old children `l1 ++ l2`, or a new last album, made when no
album matched, that holds only the track; the tracks in front of the new one
have track numbers up to its own and those behind it larger ones; the cell of
the track names `up` as its parent; all other cells keep their children. -/
def MediaServer.FiledUnder (s : MediaServer) (track : Item) (t : MediaServer) (up : Ptr) :
    Prop :=
  ∃ sp si si5 u5 t5 l1 l2,
    s.searchItem = some sp ∧ s.deref sp = some si ∧
    t.searchItem = some sp ∧ t.deref sp = some si5 ∧
    (si5.children = si.children ∧ up ∈ si.children ∨
      si5.children = si.children ++ [up] ∧ s.deref up = none ∧
        ∀ c ∈ si.children, ∀ ci, s.deref c = some ci → ¬ ci.matchesTrack track) ∧
    t.deref up = some u5 ∧ u5.name = track.album ∧
    u5.children = l1 ++ s.heap.length :: l2 ∧
    (∀ u, s.deref up = some u → u.children = l1 ++ l2) ∧
    (s.deref up = none → l1 ++ l2 = []) ∧
    (∀ c ∈ l1, s.trackAt c ≤ track.track) ∧ (∀ c ∈ l2, track.track < s.trackAt c) ∧
    t.deref s.heap.length = some t5 ∧ t5.parent = some up ∧ track.SameTrack t5 ∧
    MediaServer.KeepsCells [sp, s.heap.length, up] s t

/-- Whether the pointer `q` names a live item of type `Search`. -/
def MediaServer.isSearchEntry (s : MediaServer) (q : Ptr) : Bool :=
  match s.deref q with
  | some it => decide (it.type = ItemType.Type_Search)
  | none => false

/-- At most one search item: the `Search` entries of the top-level list are
the search item when `searchItem` is not null and none otherwise; every
top-level entry is live; and without search text there is no search item. -/
def MediaServer.OneSearchItem (s : MediaServer) : Prop :=
  s.items.filter s.isSearchEntry = s.searchItem.toList ∧
  (∀ q ∈ s.items, (s.deref q).isSome = true) ∧
  (s.currentSearch = "" → s.searchItem = none)

/-- Every item of `s` is still there in `t`, with the same type. -/
def MediaServer.KeepsTypes (s t : MediaServer) : Prop :=
  s.heap.length ≤ t.heap.length ∧
  ∀ q it, s.deref q = some it → ∃ it2, t.deref q = some it2 ∧ it2.type = it.type

/-- An index of the item `q` is in `command.toPopulate`: the pending play
request waits for the Browse response of `q`. -/
def MediaServer.Queued (s : MediaServer) (q : Ptr) : Prop :=
  ∃ idx ∈ s.command.toPopulate, idx.i = some q

instance (s : MediaServer) (q : Ptr) : Decidable (s.Queued q) := by
  unfold MediaServer.Queued
  infer_instance

/-- `OpenIn h B l q`: the item `q` is one of the siblings `l` or lies below one
of them, and no collection on the way down to `q` is in the set `B`. -/
inductive OpenIn (h : List Item) (B : Ptr → Prop) : List Ptr → Ptr → Prop where
  | here {c : Ptr} {rest : List Ptr} : OpenIn h B (c :: rest) c
  | inside {c q : Ptr} {rest : List Ptr} {it : Item} :
      h[c]? = some it → it.isCollection = true → ¬ B c → OpenIn h B it.children q →
      OpenIn h B (c :: rest) q
  | later {c q : Ptr} {rest : List Ptr} : OpenIn h B rest q → OpenIn h B (c :: rest) q

/-- The pending play request has dealt with the item `q`: a track has an index
in column 0 in `command.populated`, and a collection is not in
`State_Initial`. -/
def MediaServer.CoveredAt (s : MediaServer) (q : Ptr) : Prop :=
  ∀ it, s.deref q = some it →
    (it.isCollection = false → ∃ idx ∈ s.command.populated, idx.i = some q ∧ idx.c = 0) ∧
    (it.isCollection = true → it.state ≠ State.State_Initial)

/-- The pending play request has dealt with every item among the siblings `l`
and below them that is not hidden below a collection it still waits for. -/
def MediaServer.CoversList (s : MediaServer) (l : List Ptr) : Prop :=
  ∀ q, OpenIn s.heap s.Queued l q → s.CoveredAt q

/-- The relation "`t` is `s` after a walk of `populateCommand`": the two lists
of the command only grew, no cell was added, and a cell changed at most its
fetch state, to `State_Populating`. -/
def MediaServer.Walked (s t : MediaServer) : Prop :=
  (∀ x ∈ s.command.populated, x ∈ t.command.populated) ∧
  (∀ x ∈ s.command.toPopulate, x ∈ t.command.toPopulate) ∧
  t.heap.length = s.heap.length ∧
  ∀ q it, s.deref q = some it → ∃ st, t.deref q = some { it with state := st } ∧
    (st = it.state ∨ st = State.State_Populating)

/-- The relation "`t` is `s` after the entries of a Browse result were
appended": the command is the same, every cell of `s` is still there with more
children at most, the added children are new cells, and a new cell has a
non-negative row and live children. -/
def MediaServer.Grown (s t : MediaServer) : Prop :=
  t.command = s.command ∧ s.heap.length ≤ t.heap.length ∧
  (∀ q it, s.deref q = some it → ∃ l, t.deref q = some { it with children := it.children ++ l } ∧
    ∀ c ∈ l, c < t.heap.length) ∧
  ∀ q it, s.heap.length ≤ q → t.deref q = some it →
    0 ≤ it.row ∧ ∀ c ∈ it.children, c < t.heap.length

/-- The rows are non-negative and the child pointers are live. -/
def MediaServer.WellFormed (s : MediaServer) : Prop :=
  ∀ it ∈ s.heap, 0 ≤ it.row ∧ ∀ c ∈ it.children, c < s.heap.length

instance (s : MediaServer) : Decidable s.WellFormed := by
  unfold MediaServer.WellFormed
  infer_instance

/-- The step from `s` to `t` leaves the selected subtrees to the pending play
request on `idxs`: an item of `s` has other children in `t` only if the request
waits for it or it lies outside the selected subtrees. -/
def MediaServer.AnswersQueued (s t : MediaServer) (idxs : QModelIndexList) : Prop :=
  ∀ q it, s.deref q = some it →
    (t.deref q).map (fun i => i.children) = some it.children ∨ s.Queued q ∨
      ∀ idx ∈ idxs, ∀ p, idx.i = some p → ¬ InForest s.heap [p] q

/-- What holds while the play request on the indexes `idxs` is pending: the
catalog is well formed, the queued indexes are valid and in column 0, and the
request has dealt with every item of the selected subtrees that is not hidden
below a collection it still waits for. -/
def MediaServer.PlayInv (s : MediaServer) (idxs : QModelIndexList) : Prop :=
  s.WellFormed ∧ (∀ x ∈ s.command.toPopulate, x.isValid = true ∧ x.c = 0) ∧
  ∀ idx ∈ idxs, ∀ p, idx.i = some p → p < s.heap.length ∧ s.CoversList [p]

/-- `Serves fuel idxs s t`: the step from `s` to `t` is a step of a run that
serves a play request on `idxs`: the call `play(idxs, pos, type)` on a well
formed catalog, or, after such a step that left `command.toPopulate` non-empty,
a Browse response that leaves the selected subtrees to the request, or a
`fetchMore` of the view. -/
inductive MediaServer.Serves (fuel : Nat) (idxs : QModelIndexList) :
    MediaServer → MediaServer → Prop where
  | play {s t : MediaServer} {pos : Int} {type : PlayType} : s.WellFormed →
      s.play fuel idxs pos type = some t → MediaServer.Serves fuel idxs s t
  | browse {r s t : MediaServer} {entries : List Values} : MediaServer.Serves fuel idxs r s →
      s.command.toPopulate ≠ [] → s.parseBrowse fuel entries = some t →
      s.AnswersQueued t idxs → MediaServer.Serves fuel idxs s t
  | fetch {r s : MediaServer} {index : QModelIndex} : MediaServer.Serves fuel idxs r s →
      s.command.toPopulate ≠ [] → MediaServer.Serves fuel idxs s (s.fetchMore index)

/-- `RowPath s x rows`: `rows` is the root-to-item row path of the index `x`:
the row of `x` itself, behind the rows stored in the ancestors of its item,
which are found along the parent pointers up to an item without parent (or up
to an ancestor whose stored row makes no valid index).  An invalid index has
the empty path. -/
inductive RowPath (s : MediaServer) : QModelIndex → List Int → Prop where
  | invalid {x : QModelIndex} : x.isValid = false → RowPath s x []
  | null {x : QModelIndex} : x.isValid = true → x.i = none → RowPath s x [x.r]
  | top {x : QModelIndex} {p : Ptr} {it : Item} : x.isValid = true → x.i = some p →
      s.deref p = some it → it.parent = none → RowPath s x [x.r]
  | child {x : QModelIndex} {p pp : Ptr} {it par : Item} {rows : List Int} :
      x.isValid = true → x.i = some p → s.deref p = some it → it.parent = some pp →
      s.deref pp = some par → RowPath s (createIndex par.row 0 pp) rows →
      RowPath s x (rows ++ [x.r])

/-- `PosPath s l p path`: the item `p` stands in the forest below the siblings
`l` at the position path `path`: the position of its top ancestor in `l`, then
the position of the next ancestor among the children of that one, down to the
position of `p` in the list that holds it.  Depth-first (pre-order) tree order
is the lexicographic order of the position paths, a prefix first. -/
inductive PosPath (s : MediaServer) : List Ptr → Ptr → List Int → Prop where
  | here {l : List Ptr} {k : Nat} {p : Ptr} : l[k]? = some p → PosPath s l p [(k : Int)]
  | inside {l : List Ptr} {k : Nat} {c p : Ptr} {it : Item} {path : List Int} :
      l[k]? = some c → s.deref c = some it → it.isCollection = true →
      PosPath s it.children p path → PosPath s l p ((k : Int) :: path)

/-- The parent pointers follow the tree: a top-level entry has no parent, and
the parent of every child of a collection is that collection. -/
def MediaServer.ParentsMatch (s : MediaServer) : Prop :=
  (∀ p ∈ s.items, (s.deref p).map (fun it => it.parent) = some none) ∧
  ∀ ic ∈ s.heap.enum, ic.2.isCollection = true →
    ∀ p ∈ ic.2.children, (s.deref p).map (fun it => it.parent) = some (some ic.1)

instance (s : MediaServer) : Decidable s.ParentsMatch := by
  unfold MediaServer.ParentsMatch
  infer_instance

/-! ## Example catalogs -/

/-- A top-level folder `1`, already fetched, with two children. -/
def exampleFolder1 : Item :=
  { Item.collection ItemType.Type_Folder "A" ['1'] none 0 with
    children := [1, 2], state := State.State_Populating }

/-- The track `t1` inside the folder `1`. -/
def exampleTrack : Item :=
  { Item.musicTrack [("title", "T1"), ("originalTrackNumber", "1")] (some 0) 0 with
    id := ['t', '1'] }

/-- The unfetched folder `3` inside the folder `1`. -/
def exampleFolder3 : Item :=
  Item.collection ItemType.Type_Folder "C" ['3'] (some 0) 1

/-- The values of a music track entry of a `Search` result. -/
def exampleSearchValues (title album trackNo : String) : Values :=
  [("class", "object.item.audioItem.musicTrack"), ("title", title), ("artist", "Abba"),
   ("album", album), ("originalTrackNumber", trackNo)]

/-- A search for `a` whose first response held one track of five matches: the
follow-up request starts at index 1. -/
def exampleSearching : Option MediaServer :=
  ((MediaServer.init Manufacturer.Man_Other).search "a").bind (fun s =>
    s.commandResponse 0
      [MediaServer.ResponseElement.Result [exampleSearchValues "Waterloo" "Waterloo" "1"],
       MediaServer.ResponseElement.NumberReturned "1",
       MediaServer.ResponseElement.TotalMatches "5"] "Search")

/-- The values of a folder entry of a `Browse` result. -/
def exampleFolderValues (id parentID title : String) : Values :=
  [("id", id), ("parentID", parentID), ("class", "object.container.storageFolder"),
   ("title", title)]

/-- The values of a music track entry of a `Browse` result. -/
def exampleTrackValues (id parentID title trackNo : String) : Values :=
  [("id", id), ("parentID", parentID), ("class", "object.item.audioItem.musicTrack"),
   ("title", title), ("originalTrackNumber", trackNo)]

/-- A search for `a` is started on a fresh media server, and then the response
to the `Browse` of the root arrives with one top-level folder: the search item
is the first top-level entry and the folder the second. -/
def exampleSearchThenBrowse : Option MediaServer :=
  ((MediaServer.init Manufacturer.Man_Other).search "a").bind (fun s =>
    s.parseBrowse 1 [exampleFolderValues "1" "0" "Music"])

/-- A search for `a` is started on a fresh media server and then cleared with
an empty text, while the `Search` request is still unanswered. -/
def exampleSearchCleared : Option MediaServer :=
  ((MediaServer.init Manufacturer.Man_Other).search "a").bind (fun s => s.search "")

/-- The folder `3` inside the folder `1`, fetched, holding one track. -/
def exampleFolder3Fetched : Item :=
  { Item.collection ItemType.Type_Folder "C" ['3'] (some 0) 1 with
    children := [3], state := State.State_Populating }

/-- The track `t2` inside the folder `3`. -/
def exampleTrack2 : Item :=
  { Item.musicTrack [("title", "T2"), ("originalTrackNumber", "1")] (some 2) 0 with
    id := ['t', '2'] }

/-- The example catalog after the folder `3` was fetched: it holds the track
`t2`, and no collection is in `State_Initial`. -/
def exampleFetchedCatalog : MediaServer :=
  { MediaServer.init Manufacturer.Man_Other with
    heap := [exampleFolder1, exampleTrack, exampleFolder3Fetched, exampleTrack2],
    items := [0] }

/-- A catalog with one top-level folder `1` (already fetched) that holds the
track `t1` and the unfetched folder `3`. -/
def exampleCatalog : MediaServer :=
  { MediaServer.init Manufacturer.Man_Other with
    heap := [exampleFolder1, exampleTrack, exampleFolder3],
    items := [0] }

/-- A catalog with stale rows, reached through the model: a search for `a` is
started, the root is browsed (the folder `Music` comes behind the search item,
in row 1), the search is cleared and a search for `b` is started (its search
item gets row 1 as well), the folder `Music` is browsed (tracks `T1`, `T2`) and
the search delivers the track `X`. -/
def exampleStaleRows : Option MediaServer :=
  ((MediaServer.init Manufacturer.Man_Other).search "a").bind (fun s1 =>
  (s1.parseBrowse 3 [exampleFolderValues "1" "0" "Music"]).bind (fun s2 =>
  (s2.search "").bind (fun s3 =>
  (s3.search "b").bind (fun s4 =>
  (s4.parseBrowse 3 [exampleTrackValues "t1" "1" "T1" "1",
      exampleTrackValues "t2" "1" "T2" "2"]).bind (fun s5 =>
  s5.parseSearch [exampleSearchValues "X" "Arrival" "1"])))))

/-- The unfetched folder `4` inside the folder `1`. -/
def exampleFolder4 : Item :=
  Item.collection ItemType.Type_Folder "D" ['4'] (some 0) 2

/-- A catalog with one top-level folder `1` (already fetched) that holds the
track `t1` and the unfetched folders `3` and `4`. -/
def exampleTwoFolders : MediaServer :=
  { MediaServer.init Manufacturer.Man_Other with
    heap := [{ exampleFolder1 with children := [1, 2, 3] }, exampleTrack, exampleFolder3,
      exampleFolder4],
    items := [0] }

/-! # Theorems -/

/-! ## The heap -/
namespace MediaServer

@[simp] theorem deref_emit (s : MediaServer) (sig : Signal) (p : Ptr) :
    (s.emit sig).deref p = s.deref p := rfl

@[simp] theorem deref_send (s : MediaServer) (op : NetOp) (p : Ptr) :
    (s.send op).deref p = s.deref p := rfl

theorem deref_lt {s : MediaServer} {p : Ptr} {it : Item} (h : s.deref p = some it) :
    p < s.heap.length := by
  unfold deref at h
  exact (List.getElem?_eq_some.mp h).1

theorem deref_store_self {s : MediaServer} {p : Ptr} {it : Item} (new : Item)
    (h : s.deref p = some it) : (s.store p new).deref p = some new := by
  have hp := deref_lt h
  simp [deref, store, List.getElem?_set, hp]

theorem deref_store_ne (s : MediaServer) {p q : Ptr} (new : Item) (h : p ≠ q) :
    (s.store p new).deref q = s.deref q := by
  simp [deref, store, List.getElem?_set, h]

theorem toItem_eq (s : MediaServer) (index : QModelIndex) :
    s.toItem index = if index.isValid then index.i.bind s.deref else none := by
  unfold toItem toItemPtr
  split <;> simp

theorem canFetchMore_iff (s : MediaServer) (index : QModelIndex) :
    s.canFetchMore index = true ↔
      index.isValid = true ∧ ∃ p item, index.i = some p ∧ s.deref p = some item ∧
        item.isCollection = true ∧ item.state = State.State_Initial := by
  unfold canFetchMore
  rw [toItem_eq]
  by_cases hv : index.isValid = true
  · simp only [hv, if_true, true_and]
    cases hi : index.i with
    | none => simp
    | some p =>
      cases hd : s.deref p with
      | none => simp [hd]
      | some item => simp [hd]
  · simp [hv]

theorem canFetchMore_fetchMore (s : MediaServer) (index : QModelIndex) :
    (s.fetchMore index).canFetchMore index = false := by
  rw [Bool.eq_false_iff]
  intro h
  rw [canFetchMore_iff] at h
  obtain ⟨hv, p, item, hi, hd, hc, hs⟩ := h
  unfold fetchMore populateIndex at hd
  simp only [toItem_eq, toItemPtr, hv, if_true, hi, Option.some_bind, deref_send] at hd
  cases hd0 : s.deref p with
  | none => simp [hd0] at hd
  | some it =>
    simp only [hd0] at hd
    by_cases hcol : it.isCollection = true
    · simp only [hcol, if_true, deref_emit] at hd
      rw [deref_store_self _ hd0] at hd
      cases hd
      simp at hs
    · rw [if_neg hcol, hd0] at hd
      cases hd
      exact hcol hc

theorem populateIndex_state (s : MediaServer) (index : QModelIndex) (p : Ptr) (item : Item)
    (hv : index.isValid = true) (hi : index.i = some p) (hd : s.deref p = some item)
    (hc : item.isCollection = true) :
    (s.populateIndex index).deref p = some { item with state := State.State_Populating } := by
  unfold populateIndex
  simp only [toItem_eq, toItemPtr, hv, if_true, hi, Option.some_bind, deref_send, hd, hc,
    deref_emit]
  exact deref_store_self _ hd

/-- C8: `canFetchMore(index)` is true exactly when `index` is valid and refers
to a collection in `State_Initial` (so it is false for the root index and for
tracks); `populate(index)` on a collection moves it to `State_Populating`; and
`canFetchMore(index)` is false after `fetchMore(index)`. -/
theorem canFetchMore_lazy (s : MediaServer) (index : QModelIndex) :
    (s.canFetchMore index = true ↔
      index.isValid = true ∧ ∃ p item, index.i = some p ∧ s.deref p = some item ∧
        item.isCollection = true ∧ item.state = State.State_Initial) ∧
    s.canFetchMore QModelIndex.invalid = false ∧
    (∀ p item, index.isValid = true → index.i = some p → s.deref p = some item →
      item.isCollection = true →
      (s.populateIndex index).deref p = some { item with state := State.State_Populating }) ∧
    (s.fetchMore index).canFetchMore index = false :=
  ⟨canFetchMore_iff s index, by simp [canFetchMore, QModelIndex.invalid, QModelIndex.isValid],
   fun p item hv hi hd hc => populateIndex_state s index p item hv hi hd hc,
   canFetchMore_fetchMore s index⟩

end MediaServer

/-- C8, on the example catalog: the unfetched folder can be fetched, is moved to
`State_Populating` by `populate`, and cannot be fetched a second time. -/
theorem MediaServer.canFetchMore_lazy_witness :
    exampleCatalog.canFetchMore (createIndex 1 0 2) = true ∧
    ((exampleCatalog.populateIndex (createIndex 1 0 2)).deref 2).map (fun it => it.state) =
      some State.State_Populating ∧
    (exampleCatalog.fetchMore (createIndex 1 0 2)).canFetchMore (createIndex 1 0 2) = false := by
  have h := MediaServer.canFetchMore_lazy exampleCatalog (createIndex 1 0 2)
  refine ⟨by decide, ?_, h.2.2.2⟩
  rw [h.2.2.1 2 exampleFolder3 (by decide) rfl (by decide) (by decide)]
  rfl

/-! ## `Index::operator<` -/

theorem Index.lessLoop_iff (a b : Index) (n i : Nat) :
    Index.lessLoop a b n i = true ↔
      ∃ k, i ≤ k ∧ k < i + n ∧ (∀ j, i ≤ j → j < k → a.rowAt j = b.rowAt j) ∧
        a.rowAt k < b.rowAt k := by
  induction n generalizing i with
  | zero =>
    simp only [Index.lessLoop, Bool.false_eq_true, false_iff]
    rintro ⟨k, h1, h2, -⟩
    omega
  | succ n ih =>
    simp only [Index.lessLoop]
    by_cases h1 : a.rowAt i < b.rowAt i
    · simp only [h1, if_true, true_iff]
      exact ⟨i, le_refl _, by omega, fun j hj hj2 => by omega, h1⟩
    · by_cases h2 : a.rowAt i > b.rowAt i
      · simp only [h1, h2, if_false, if_true, Bool.false_eq_true, false_iff]
        rintro ⟨k, hk1, -, hk3, hk4⟩
        rcases Nat.eq_or_lt_of_le hk1 with rfl | hlt
        · exact h1 hk4
        · have := hk3 i (le_refl _) hlt
          omega
      · simp only [h1, h2, if_false]
        rw [ih (i + 1)]
        have heq : a.rowAt i = b.rowAt i := by omega
        constructor
        · rintro ⟨k, hk1, hk2, hk3, hk4⟩
          refine ⟨k, by omega, by omega, fun j hj hj2 => ?_, hk4⟩
          rcases Nat.eq_or_lt_of_le hj with rfl | hlt
          · exact heq
          · exact hk3 j hlt hj2
        · rintro ⟨k, hk1, hk2, hk3, hk4⟩
          rcases Nat.eq_or_lt_of_le hk1 with rfl | hlt
          · exact absurd hk4 h1
          · exact ⟨k, hlt, by omega, fun j hj hj2 => hk3 j (by omega) hj2, hk4⟩

theorem Index.rowAt_of_le (a : Index) {k : Nat} (h : a.count ≤ k) : a.rowAt k = -1 := by
  unfold Index.rowAt
  rw [if_neg (by omega)]

theorem Index.less_iff (a b : Index) :
    a.less b = true ↔
      ∃ k, (∀ j, j < k → a.rowAt j = b.rowAt j) ∧ a.rowAt k < b.rowAt k := by
  unfold Index.less
  rw [Index.lessLoop_iff]
  constructor
  · rintro ⟨k, -, -, h3, h4⟩
    exact ⟨k, fun j hj => h3 j (Nat.zero_le _) hj, h4⟩
  · rintro ⟨k, h3, h4⟩
    refine ⟨k, Nat.zero_le _, ?_, fun j _ hj => h3 j hj, h4⟩
    by_contra hk
    have h5 : max a.count b.count ≤ k := by omega
    rw [Index.rowAt_of_le a (le_trans (le_max_left _ _) h5),
      Index.rowAt_of_le b (le_trans (le_max_right _ _) h5)] at h4
    exact lt_irrefl _ h4

theorem Index.less_iff_piLex (a b : Index) :
    a.less b = true ↔ toLex a.rowAt < toLex b.rowAt := by
  rw [Index.less_iff]
  exact Iff.rfl

/-- `!(b < a)` is a total relation. -/
theorem Index.notLess_total (a b : Index) : b.less a = false ∨ a.less b = false := by
  by_contra h
  push_neg at h
  simp only [Bool.not_eq_false] at h
  have h1 := (Index.less_iff_piLex b a).mp h.1
  have h2 := (Index.less_iff_piLex a b).mp h.2
  exact lt_asymm h1 h2

theorem Index.notLess_trans (a b c : Index) (h1 : b.less a = false) (h2 : c.less b = false) :
    c.less a = false := by
  rw [Bool.eq_false_iff, Ne, Index.less_iff_piLex] at *
  rw [not_lt] at *
  exact le_trans h1 h2

theorem Index.rowAt_nil (idx : QModelIndex) (k : Nat) : (Index.mk idx []).rowAt k = -1 := by
  simp [Index.rowAt, Index.count]

theorem Index.rowAt_cons_zero (i : QModelIndex) (x : Int) (xs : List Int) :
    (Index.mk i (x :: xs)).rowAt 0 = x := by
  simp [Index.rowAt, Index.count]

theorem Index.rowAt_cons_succ (i j : QModelIndex) (x : Int) (xs : List Int) (k : Nat) :
    (Index.mk i (x :: xs)).rowAt (k + 1) = (Index.mk j xs).rowAt k := by
  simp [Index.rowAt, Index.count]

theorem Index.rowAt_ge (a : Index) (h : ∀ r ∈ a.rows, 0 ≤ r) (k : Nat) : -1 ≤ a.rowAt k := by
  unfold Index.rowAt
  split
  · rename_i hk
    have : a.rows.getD k 0 ∈ a.rows := by
      unfold Index.count at hk
      rw [List.getD_eq_getElem _ _ hk]
      exact List.getElem_mem _
    have := h _ this
    omega
  · exact le_refl _

/-- The characterisation of `less_iff` agrees with the lexicographic order on
lists of non-negative rows. -/
theorem Index.firstDiff_iff_lex : ∀ (l₁ l₂ : List Int) (i₁ i₂ : QModelIndex),
    (∀ r ∈ l₁, 0 ≤ r) → (∀ r ∈ l₂, 0 ≤ r) →
    ((∃ k, (∀ j, j < k → (Index.mk i₁ l₁).rowAt j = (Index.mk i₂ l₂).rowAt j) ∧
        (Index.mk i₁ l₁).rowAt k < (Index.mk i₂ l₂).rowAt k) ↔ List.Lex (· < ·) l₁ l₂)
  | [], [], i₁, i₂, _, _ => by
    simp [Index.rowAt_nil]
  | [], y :: ys, i₁, i₂, _, h2 => by
    simp only [List.Lex.nil, iff_true]
    refine ⟨0, fun j hj => absurd hj (Nat.not_lt_zero _), ?_⟩
    rw [Index.rowAt_nil, Index.rowAt_cons_zero]
    have := h2 y (List.mem_cons_self _ _)
    omega
  | x :: xs, [], i₁, i₂, h1, _ => by
    simp only [List.Lex.not_nil_right, iff_false]
    rintro ⟨k, -, hk⟩
    rw [Index.rowAt_nil] at hk
    have := Index.rowAt_ge (Index.mk i₁ (x :: xs)) h1 k
    omega
  | x :: xs, y :: ys, i₁, i₂, h1, h2 => by
    have ih := Index.firstDiff_iff_lex xs ys i₁ i₂
      (fun r hr => h1 r (List.mem_cons_of_mem _ hr)) (fun r hr => h2 r (List.mem_cons_of_mem _ hr))
    constructor
    · rintro ⟨k, hk1, hk2⟩
      cases k with
      | zero =>
        rw [Index.rowAt_cons_zero, Index.rowAt_cons_zero] at hk2
        exact List.Lex.rel hk2
      | succ k =>
        have h0 := hk1 0 (Nat.succ_pos _)
        rw [Index.rowAt_cons_zero, Index.rowAt_cons_zero] at h0
        subst h0
        refine List.Lex.cons (ih.mp ⟨k, fun j hj => ?_, ?_⟩)
        · have := hk1 (j + 1) (Nat.succ_lt_succ hj)
          rwa [Index.rowAt_cons_succ i₁ i₁, Index.rowAt_cons_succ i₂ i₂] at this
        · rwa [Index.rowAt_cons_succ i₁ i₁, Index.rowAt_cons_succ i₂ i₂] at hk2
    · intro h
      cases h with
      | cons h =>
        obtain ⟨k, hk1, hk2⟩ := ih.mpr h
        refine ⟨k + 1, fun j hj => ?_, ?_⟩
        · cases j with
          | zero => rw [Index.rowAt_cons_zero, Index.rowAt_cons_zero]
          | succ j =>
            rw [Index.rowAt_cons_succ i₁ i₁, Index.rowAt_cons_succ i₂ i₂]
            exact hk1 j (Nat.lt_of_succ_lt_succ hj)
        · rwa [Index.rowAt_cons_succ i₁ i₁, Index.rowAt_cons_succ i₂ i₂]
      | rel h =>
        refine ⟨0, fun j hj => absurd hj (Nat.not_lt_zero _), ?_⟩
        rwa [Index.rowAt_cons_zero, Index.rowAt_cons_zero]

theorem Index.less_iff_lex (a b : Index) (ha : ∀ r ∈ a.rows, 0 ≤ r) (hb : ∀ r ∈ b.rows, 0 ≤ r) :
    a.less b = true ↔ List.Lex (· < ·) a.rows b.rows := by
  rw [Index.less_iff]
  exact Index.firstDiff_iff_lex a.rows b.rows a.idx b.idx ha hb

/-- C4: for indexes with non-negative rows, `Index::operator<` is the
lexicographic order on the root-to-item row paths, in which a proper initial
segment (an ancestor) is smaller than each of its extensions (descendants);
it is irreflexive and transitive, and two different row paths are always
ordered one way or the other. -/
theorem Index.less_preserves_hierarchy (a b c : Index) (ha : ∀ r ∈ a.rows, 0 ≤ r)
    (hb : ∀ r ∈ b.rows, 0 ≤ r) (hc : ∀ r ∈ c.rows, 0 ≤ r) :
    (a.less b = true ↔ List.Lex (· < ·) a.rows b.rows) ∧
    (∀ ext : List Int, ext ≠ [] → b.rows = a.rows ++ ext → a.less b = true) ∧
    a.less a = false ∧
    (a.less b = true → b.less c = true → a.less c = true) ∧
    (a.rows ≠ b.rows → a.less b = true ∨ b.less a = true) := by
  have hab := Index.less_iff_lex a b ha hb
  refine ⟨hab, ?_, ?_, ?_, ?_⟩
  · intro ext hext hrows
    rw [hab, hrows]
    cases ext with
    | nil => exact absurd rfl hext
    | cons e es =>
      have := List.Lex.append_left (· < ·) (List.Lex.nil : List.Lex (· < ·) [] (e :: es)) a.rows
      simpa using this
  · rw [Bool.eq_false_iff, Ne, Index.less_iff_lex a a ha ha]
    exact irrefl (r := List.Lex (· < ·)) a.rows
  · rw [hab, Index.less_iff_lex b c hb hc, Index.less_iff_lex a c ha hc]
    exact fun h1 h2 => IsTrans.trans (r := List.Lex (· < ·)) _ _ _ h1 h2
  · intro hne
    rw [hab, Index.less_iff_lex b a hb ha]
    have tri : IsTrichotomous (List Int) (List.Lex (· < ·)) :=
      List.Lex.isTrichotomous (fun x y : Int => x < y)
    rcases tri.trichotomous a.rows b.rows with h | h | h
    · exact Or.inl h
    · exact absurd h hne
    · exact Or.inr h


/-- C4, on three concrete row paths: `[0] < [0, 1] < [1]`. -/
theorem Index.less_preserves_hierarchy_witness :
    Index.less ⟨createIndex 0 0 0, [0]⟩ ⟨createIndex 1 0 2, [0, 1]⟩ = true ∧
    Index.less ⟨createIndex 0 0 0, [0]⟩ ⟨createIndex 1 0 5, [1]⟩ = true := by
  have h := Index.less_preserves_hierarchy ⟨createIndex 0 0 0, [0]⟩ ⟨createIndex 1 0 2, [0, 1]⟩
    ⟨createIndex 1 0 5, [1]⟩ (by decide) (by decide) (by decide)
  exact ⟨h.2.1 [1] (by decide) rfl, h.2.2.2.1 (h.2.1 [1] (by decide) rfl) (by decide)⟩

/-! ## `sortIndexes` -/

theorem QModelIndex.isValid_row {x : QModelIndex} (h : x.isValid = true) : 0 ≤ x.r := by
  unfold QModelIndex.isValid at h
  simp only [Bool.and_eq_true, decide_eq_true_eq] at h
  exact h.1.1

theorem Index.rowsLoop_nonneg (s : MediaServer) :
    ∀ (fuel : Nat) (idx : QModelIndex) (acc rows : List Int),
      Index.rowsLoop s fuel idx acc = some rows → (∀ r ∈ acc, 0 ≤ r) → ∀ r ∈ rows, 0 ≤ r
  | 0, idx, acc, rows, h, hacc => by
    unfold Index.rowsLoop at h
    split at h
    · cases h
    · cases h; exact hacc
  | fuel + 1, idx, acc, rows, h, hacc => by
    unfold Index.rowsLoop at h
    split at h
    · rename_i hv
      split at h
      · rename_i up hup
        refine Index.rowsLoop_nonneg s fuel up (idx.r :: acc) rows h ?_
        intro r hr
        rcases List.mem_cons.mp hr with rfl | hr
        · exact QModelIndex.isValid_row hv
        · exact hacc r hr
      · cases h
    · cases h; exact hacc

theorem Index.ctor_spec {fuel : Nat} {s : MediaServer} {i : QModelIndex} {a : Index}
    (h : Index.ctor fuel s i = some a) :
    a.idx = i ∧ Index.rowsLoop s fuel i [] = some a.rows ∧ ∀ r ∈ a.rows, 0 ≤ r := by
  unfold Index.ctor at h
  cases hr : Index.rowsLoop s fuel i [] with
  | none => simp [hr] at h
  | some rows =>
    simp only [hr, Option.map_some'] at h
    cases h
    exact ⟨rfl, rfl, Index.rowsLoop_nonneg s fuel i [] rows hr (by simp)⟩

theorem sortIndexes.toSort_spec (fuel : Nat) (s : MediaServer) :
    ∀ (list : QModelIndexList) (l : List Index), sortIndexes.toSort fuel s list = some l →
      l.map (fun a => a.idx) = list.filter (fun i => decide (i.c = 0)) ∧
      ∀ a ∈ l, Index.ctor fuel s a.idx = some a
  | [], l, h => by
    simp only [sortIndexes.toSort] at h
    cases h
    simp
  | i :: rest, l, h => by
    simp only [sortIndexes.toSort] at h
    by_cases hc : i.c = 0
    · rw [if_pos hc] at h
      cases ha : Index.ctor fuel s i with
      | none => simp [ha] at h
      | some a =>
        cases hl : sortIndexes.toSort fuel s rest with
        | none => simp [ha, hl] at h
        | some l' =>
          simp only [ha, hl] at h
          cases h
          obtain ⟨ih1, ih2⟩ := sortIndexes.toSort_spec fuel s rest l' hl
          have hidx := (Index.ctor_spec ha).1
          constructor
          · simp [List.filter_cons, hc, ih1, hidx]
          · intro b hb
            rcases List.mem_cons.mp hb with rfl | hb
            · rw [hidx]; exact ha
            · exact ih2 b hb
    · rw [if_neg hc] at h
      obtain ⟨ih1, ih2⟩ := sortIndexes.toSort_spec fuel s rest l h
      exact ⟨by simp [List.filter_cons, hc, ih1], ih2⟩

theorem sortIndexes.toSort_isSome (fuel : Nat) (s : MediaServer) :
    ∀ (list : QModelIndexList), (∀ i ∈ list, i.c = 0 → (Index.ctor fuel s i).isSome = true) →
      ∃ l, sortIndexes.toSort fuel s list = some l
  | [], _ => ⟨[], rfl⟩
  | i :: rest, h => by
    obtain ⟨l, hl⟩ := sortIndexes.toSort_isSome fuel s rest
      (fun j hj => h j (List.mem_cons_of_mem _ hj))
    simp only [sortIndexes.toSort]
    by_cases hc : i.c = 0
    · rw [if_pos hc]
      obtain ⟨a, ha⟩ := Option.isSome_iff_exists.mp (h i (List.mem_cons_self _ _) hc)
      exact ⟨a :: l, by simp [ha, hl]⟩
    · rw [if_neg hc]
      exact ⟨l, hl⟩

theorem qSort_perm (l : List Index) : (qSort l).Perm l :=
  List.perm_insertionSort _ l

theorem qSort_sorted (l : List Index) :
    (qSort l).Pairwise (fun a b => b.less a = false) := by
  have total : IsTotal Index (fun a b => b.less a = false) := ⟨Index.notLess_total⟩
  have trans : IsTrans Index (fun a b => b.less a = false) := ⟨Index.notLess_trans⟩
  exact List.sorted_insertionSort (fun a b : Index => b.less a = false) l

/-! ## Drag-and-drop hierarchy strings -/

theorem QByteArray.split_ne_nil (sep : Char) : ∀ l : QByteArray, QByteArray.split l sep ≠ []
  | [] => by simp [QByteArray.split]
  | c :: cs => by
    simp only [QByteArray.split]
    split
    · simp
    · split <;> simp

theorem QByteArray.split_noSep (sep : Char) :
    ∀ l : QByteArray, sep ∉ l → QByteArray.split l sep = [l]
  | [], _ => rfl
  | c :: cs, h => by
    have hc : c ≠ sep := fun e => h (e ▸ List.mem_cons_self _ _)
    have ih := QByteArray.split_noSep sep cs (fun hm => h (List.mem_cons_of_mem _ hm))
    simp [QByteArray.split, hc, ih]

theorem QByteArray.split_append_sep (sep : Char) (t : QByteArray) :
    ∀ x : QByteArray, sep ∉ x →
      QByteArray.split (x ++ sep :: t) sep = x :: QByteArray.split t sep
  | [], _ => by simp [QByteArray.split]
  | c :: cs, h => by
    have hc : c ≠ sep := fun e => h (e ▸ List.mem_cons_self _ _)
    have ih := QByteArray.split_append_sep sep t cs (fun hm => h (List.mem_cons_of_mem _ hm))
    simp [QByteArray.split, hc, ih]

theorem QByteArray.split_join (sep : Char) :
    ∀ ids : List QByteArray, ids ≠ [] → (∀ id ∈ ids, sep ∉ id) →
      QByteArray.split (QList.join ids sep) sep = ids
  | [], h, _ => absurd rfl h
  | [x], _, hs => by
    simp only [QList.join]
    exact QByteArray.split_noSep sep x (hs x (List.mem_singleton_self _))
  | x :: y :: rest, _, hs => by
    simp only [QList.join]
    rw [QByteArray.split_append_sep sep _ x (hs x (List.mem_cons_self _ _)),
      QByteArray.split_join sep (y :: rest) (by simp)
        (fun id hid => hs id (List.mem_cons_of_mem _ hid))]

theorem toHeirarchyLoop_invalid (s : MediaServer) (fuel : Nat) (index : QModelIndex)
    (acc : List QByteArray) (h : index.isValid = false) :
    toHeirarchyLoop s fuel index acc = some acc := by
  cases fuel <;> simp [toHeirarchyLoop, h]

theorem MediaServer.parent_top {s : MediaServer} {index : QModelIndex} {p : Ptr} {it : Item}
    (hv : index.isValid = true) (hi : index.i = some p) (hd : s.deref p = some it)
    (hp : it.parent = none) : s.parent index = some QModelIndex.invalid := by
  simp [MediaServer.parent, hv, MediaServer.toItemPtr, hi, hd, hp]

theorem MediaServer.parent_child {s : MediaServer} {index : QModelIndex} {p pp : Ptr}
    {it par : Item} (hv : index.isValid = true) (hi : index.i = some p)
    (hd : s.deref p = some it) (hp : it.parent = some pp) (hpar : s.deref pp = some par) :
    s.parent index = some (createIndex par.row 0 pp) := by
  simp [MediaServer.parent, hv, MediaServer.toItemPtr, hi, hd, hp, hpar]

theorem createIndex_isValid {row : Int} (h : 0 ≤ row) (p : Ptr) :
    (createIndex row 0 p).isValid = true := by
  simp [createIndex, QModelIndex.isValid, h]

theorem toHeirarchyLoop_idPath (s : MediaServer) {p : Ptr} {ids : List QByteArray}
    (hpath : IdPath s p ids) :
    ∀ (fuel : Nat) (index : QModelIndex) (acc : List QByteArray), index.isValid = true →
      index.i = some p → ids.length < fuel →
      toHeirarchyLoop s fuel index acc = some (ids ++ acc) := by
  induction hpath with
  | top hd hp =>
    intro fuel index acc hv hi hfuel
    cases fuel with
    | zero => simp at hfuel
    | succ fuel =>
      simp only [toHeirarchyLoop, hv, if_true, hi, Option.some_bind, hd,
        MediaServer.parent_top hv hi hd hp]
      rw [toHeirarchyLoop_invalid]
      · rfl
      · rfl
  | child hd hp hpar hrow _ ih =>
    intro fuel index acc hv hi hfuel
    cases fuel with
    | zero => simp at hfuel
    | succ fuel =>
      simp only [toHeirarchyLoop, hv, if_true, hi, Option.some_bind, hd,
        MediaServer.parent_child hv hi hd hp hpar]
      rw [ih fuel _ _ (createIndex_isValid hrow _) rfl (by simpa using hfuel)]
      simp

theorem IdPath.ne_nil {s : MediaServer} {p : Ptr} {ids : List QByteArray}
    (h : IdPath s p ids) : ids ≠ [] := by
  cases h <;> simp

/-- C9: for a valid index whose own id and ancestors' ids contain no `\\r`,
`toHierarchyList(toHeirarchy(index))` is the list of the object ids from the
top-level ancestor down to the item itself, and that list is not empty; the
loop of `toHeirarchy` ends as soon as the fuel exceeds the depth of the item. -/
theorem toHierarchyList_toHeirarchy (s : MediaServer) (index : QModelIndex) (p : Ptr)
    (ids : List QByteArray) (fuel : Nat) (hv : index.isValid = true) (hi : index.i = some p)
    (hpath : IdPath s p ids) (hsep : ∀ id ∈ ids, constMimeSep ∉ id)
    (hfuel : ids.length < fuel) :
    ∃ h, toHeirarchy fuel s index = some h ∧ toHierarchyList h = ids ∧ ids ≠ [] := by
  refine ⟨QList.join ids constMimeSep, ?_, ?_, hpath.ne_nil⟩
  · unfold toHeirarchy
    rw [toHeirarchyLoop_idPath s hpath fuel index [] hv hi hfuel]
    simp
  · exact QByteArray.split_join constMimeSep ids hpath.ne_nil hsep


/-- C9, on the example catalog: the folder `3` inside the top-level folder `1`. -/
theorem toHierarchyList_toHeirarchy_witness :
    ∃ h, toHeirarchy 3 exampleCatalog (createIndex 1 0 2) = some h ∧
      toHierarchyList h = [['1'], ['3']] ∧ ([['1'], ['3']] : List QByteArray) ≠ [] :=
  toHierarchyList_toHeirarchy exampleCatalog (createIndex 1 0 2) 2 [['1'], ['3']] 3
    (by decide) rfl
    (@IdPath.child exampleCatalog 2 0 exampleFolder3 exampleFolder1 [['1']] rfl rfl rfl
      (by decide) (@IdPath.top exampleCatalog 0 exampleFolder1 rfl rfl))
    (by decide) (by decide)

/-! ## Search -/
namespace MediaServer

theorem HeapAndSignalsOnly.refl (s : MediaServer) : s.HeapAndSignalsOnly s := by
  unfold HeapAndSignalsOnly; rfl

theorem HeapAndSignalsOnly.trans {s t u : MediaServer} (h1 : s.HeapAndSignalsOnly t)
    (h2 : t.HeapAndSignalsOnly u) : s.HeapAndSignalsOnly u := by
  unfold HeapAndSignalsOnly at *
  rw [h2, h1]

theorem HeapAndSignalsOnly.emit (s : MediaServer) (sig : Signal) :
    s.HeapAndSignalsOnly (s.emit sig) := by
  unfold HeapAndSignalsOnly; rfl

theorem HeapAndSignalsOnly.store (s : MediaServer) (p : Ptr) (it : Item) :
    s.HeapAndSignalsOnly (s.store p it) := by
  unfold HeapAndSignalsOnly; rfl

theorem HeapAndSignalsOnly.alloc (s : MediaServer) (it : Item) :
    s.HeapAndSignalsOnly (s.alloc it).2 := by
  unfold HeapAndSignalsOnly; rfl

theorem HeapAndSignalsOnly.modify {s t : MediaServer} {p : Ptr} {f : Item → Item}
    (h : s.modify p f = some t) : s.HeapAndSignalsOnly t := by
  unfold MediaServer.modify at h
  split at h
  · cases h
  · cases h; exact HeapAndSignalsOnly.store _ _ _

theorem HeapAndSignalsOnly.findAlbum (track : Item) :
    ∀ (children : List Ptr) (s t : MediaServer) (use r : Option (Ptr × QModelIndex)),
      MediaServer.findAlbum track s children use = some (t, r) → s.HeapAndSignalsOnly t
  | [], s, t, use, r, h => by
    simp only [MediaServer.findAlbum] at h
    cases h; exact HeapAndSignalsOnly.refl _
  | c :: rest, s, t, use, r, h => by
    simp only [MediaServer.findAlbum] at h
    split at h
    · cases h
    · split at h
      · split at h
        · exact HeapAndSignalsOnly.findAlbum track rest _ _ _ _ h
        · split at h
          · exact (HeapAndSignalsOnly.store _ _ _).trans
              (HeapAndSignalsOnly.findAlbum track rest _ _ _ _ h)
          · exact HeapAndSignalsOnly.findAlbum track rest _ _ _ _ h
      · exact HeapAndSignalsOnly.findAlbum track rest _ _ _ _ h

theorem HeapAndSignalsOnly.renumber :
    ∀ (l : List Ptr) (s t : MediaServer) (rr : Nat),
      MediaServer.renumber s l rr = some t → s.HeapAndSignalsOnly t
  | [], s, t, rr, h => by
    simp only [MediaServer.renumber] at h
    cases h; exact HeapAndSignalsOnly.refl _
  | c :: rest, s, t, rr, h => by
    simp only [MediaServer.renumber] at h
    split at h
    · cases h
    · rename_i s1 hs1
      exact (HeapAndSignalsOnly.modify hs1).trans (HeapAndSignalsOnly.renumber rest _ _ _ h)

theorem HeapAndSignalsOnly.appendTrack {s t : MediaServer} {tp use : Ptr}
    {useIndex : QModelIndex} {count : Nat} (h : s.appendTrack tp use useIndex count = some t) :
    s.HeapAndSignalsOnly t := by
  unfold MediaServer.appendTrack at h
  split at h
  · cases h
  · rename_i s2 hs2
    exact (HeapAndSignalsOnly.modify hs2).trans
      ((HeapAndSignalsOnly.emit _ _).trans (HeapAndSignalsOnly.modify h))

theorem HeapAndSignalsOnly.insertTrack {s t : MediaServer} {tp use : Ptr}
    {useIndex : QModelIndex} {r : Nat} (h : s.insertTrack tp use useIndex r = some t) :
    s.HeapAndSignalsOnly t := by
  unfold MediaServer.insertTrack at h
  split at h
  · cases h
  · rename_i s2 hs2
    split at h
    · cases h
    · rename_i s4 hs4
      split at h
      · cases h
      · exact (HeapAndSignalsOnly.modify hs2).trans ((HeapAndSignalsOnly.emit _ _).trans
          ((HeapAndSignalsOnly.modify hs4).trans (HeapAndSignalsOnly.renumber _ _ _ _ h)))

theorem HeapAndSignalsOnly.fileTrack {s t : MediaServer} {tp use : Ptr} {useIndex : QModelIndex}
    (h : s.fileTrack tp use useIndex = some t) : s.HeapAndSignalsOnly t := by
  unfold MediaServer.fileTrack at h
  split at h
  · cases h
  · rename_i s1 hs1
    have h1 := HeapAndSignalsOnly.modify hs1
    split at h
    · split at h
      · cases h
      · exact h1.trans (HeapAndSignalsOnly.appendTrack h)
      · split at h
        · cases h
        · cases h; exact h1
        · exact h1.trans (HeapAndSignalsOnly.insertTrack h)
    · cases h

theorem HeapAndSignalsOnly.searchAlbums {s t : MediaServer} {track : Item}
    {r : Option (Ptr × QModelIndex)} (h : s.searchAlbums track = some (t, r)) :
    s.HeapAndSignalsOnly t := by
  unfold MediaServer.searchAlbums at h
  split at h
  · cases h
  · exact HeapAndSignalsOnly.findAlbum track _ _ _ _ _ h

theorem HeapAndSignalsOnly.chooseAlbum {s t : MediaServer} {track : Item}
    {album r : Option (Ptr × QModelIndex)} (h : s.chooseAlbum track album = some (t, r)) :
    s.HeapAndSignalsOnly t := by
  unfold MediaServer.chooseAlbum at h
  split at h
  · exact HeapAndSignalsOnly.searchAlbums h
  · split at h
    · cases h
    · split at h
      · exact HeapAndSignalsOnly.searchAlbums h
      · cases h; exact HeapAndSignalsOnly.refl _

theorem HeapAndSignalsOnly.newAlbum {s t : MediaServer} {track : Item}
    {r : Ptr × QModelIndex} (h : s.newAlbum track = some (t, r)) :
    s.HeapAndSignalsOnly t := by
  unfold MediaServer.newAlbum at h
  split at h
  · cases h
  · split at h
    · cases h
    · simp only at h
      split at h
      · cases h
      · rename_i s3 hs3
        cases h
        exact (HeapAndSignalsOnly.emit _ _).trans
          ((HeapAndSignalsOnly.alloc _ _).trans (HeapAndSignalsOnly.modify hs3))

theorem HeapAndSignalsOnly.searchTrack {s t : MediaServer} {values : Values}
    {album : Option (Ptr × QModelIndex)} {r : Ptr × QModelIndex}
    (h : s.searchTrack values album = some (t, r)) : s.HeapAndSignalsOnly t := by
  unfold MediaServer.searchTrack at h
  split at h
  · cases h
  · rename_i track _
    simp only at h
    split at h
    · cases h
    · rename_i s2 use hch
      have h1 := (HeapAndSignalsOnly.alloc s track).trans (HeapAndSignalsOnly.chooseAlbum hch)
      split at h
      · cases h
      · rename_i s3 up ui hmade
        have h2 : s2.HeapAndSignalsOnly s3 := by
          cases use with
          | some u => simp only at hmade; cases hmade; exact HeapAndSignalsOnly.refl _
          | none => exact HeapAndSignalsOnly.newAlbum hmade
        split at h
        · cases h
        · rename_i s4 hs4
          split at h
          · cases h
          · rename_i s5 hs5
            cases h
            exact h1.trans (h2.trans ((HeapAndSignalsOnly.fileTrack hs4).trans
              (HeapAndSignalsOnly.modify hs5)))

theorem HeapAndSignalsOnly.parseSearchLoop :
    ∀ (entries : List Values) (s t : MediaServer) (album : Option (Ptr × QModelIndex)),
      MediaServer.parseSearchLoop s entries album = some t → s.HeapAndSignalsOnly t
  | [], s, t, album, h => by
    simp only [MediaServer.parseSearchLoop] at h
    cases h; exact HeapAndSignalsOnly.refl _
  | values :: rest, s, t, album, h => by
    simp only [MediaServer.parseSearchLoop] at h
    split at h
    · split at h
      · cases h
      · rename_i s1 use hs1
        exact (HeapAndSignalsOnly.searchTrack hs1).trans
          (HeapAndSignalsOnly.parseSearchLoop rest _ _ _ h)
    · exact HeapAndSignalsOnly.parseSearchLoop rest _ _ _ h

theorem HeapAndSignalsOnly.parseSearch {s t : MediaServer} {entries : List Values}
    (h : s.parseSearch entries = some t) : s.HeapAndSignalsOnly t :=
  HeapAndSignalsOnly.parseSearchLoop entries s t none h

theorem removeSearchItem_currentSearch {s t : MediaServer} (h : s.removeSearchItem = some t) :
    t.currentSearch = s.currentSearch := by
  unfold removeSearchItem at h
  split at h
  · cases h; rfl
  · split at h
    · cases h
    · cases h; rfl

theorem search_currentSearch {s t : MediaServer} {text : QString} (h : s.search text = some t) :
    t.currentSearch = trimmed text := by
  unfold search at h
  simp only at h
  split at h
  · rename_i heq
    cases h
    exact heq
  · split at h
    · cases h
    · rename_i s1 hs1
      have h1 := removeSearchItem_currentSearch hs1
      simp only at h1
      split at h
      · cases h
        simpa [searchAt, send, emit, alloc] using h1
      · cases h
        exact h1

theorem search_same {s : MediaServer} {text : QString} (h : trimmed text = s.currentSearch) :
    s.search text = some s := by
  unfold search
  simp [h]

theorem removeSearchItem_isSome (s : MediaServer)
    (h : ∀ p, s.searchItem = some p → (s.deref p).isSome = true) :
    ∃ t, s.removeSearchItem = some t := by
  unfold removeSearchItem
  cases hs : s.searchItem with
  | none => exact ⟨s, rfl⟩
  | some p =>
    obtain ⟨it, hit⟩ := Option.isSome_iff_exists.mp (h p hs)
    simp only [hit]
    exact ⟨_, rfl⟩

/-- C10: `search(text)` changes nothing at all (catalog, requests and signals)
when the trimmed text equals `currentSearch`; after any `search(text)` a second
`search(text)` with the same text changes nothing, so that calling it twice has
the effect of calling it once; and `search(text)` returns whenever the search
item, if there is one, is a live item. -/
theorem search_idempotent (s : MediaServer) (text : QString) :
    (trimmed text = s.currentSearch → s.search text = some s) ∧
    (∀ t, s.search text = some t → t.search text = some t) ∧
    ((s.search text).bind (fun t => t.search text) = s.search text) ∧
    ((∀ p, s.searchItem = some p → (s.deref p).isSome = true) → (s.search text).isSome = true) := by
  have h2 : ∀ t, s.search text = some t → t.search text = some t :=
    fun t ht => search_same (search_currentSearch ht).symm
  refine ⟨search_same, h2, ?_, ?_⟩
  · cases hs : s.search text with
    | none => rfl
    | some t => exact h2 t hs
  · intro h
    unfold search
    simp only
    split
    · rfl
    · obtain ⟨t, ht⟩ := removeSearchItem_isSome { s with currentSearch := trimmed text } h
      rw [ht]
      simp only
      split <;> rfl


theorem markPopulated_spec :
    ∀ (l : List Ptr) (s : MediaServer), (∀ c ∈ l, (s.deref c).isSome = true) →
      ∃ t, markPopulated s l = some t ∧ s.HeapAndSignalsOnly t ∧ t.emitted = s.emitted ∧
        t.heap.length = s.heap.length ∧
        (∀ c ∈ l, ∃ it, t.deref c = some it ∧ it.state = State.State_Populated) ∧
        (∀ q it, s.deref q = some it → it.state = State.State_Populated →
          ∃ it2, t.deref q = some it2 ∧ it2.state = State.State_Populated)
  | [], s, _ => ⟨s, rfl, by unfold HeapAndSignalsOnly; rfl, rfl, rfl, by simp,
      fun q it h1 h2 => ⟨it, h1, h2⟩⟩
  | c :: rest, s, h => by
    obtain ⟨it, hit⟩ := Option.isSome_iff_exists.mp (h c (List.mem_cons_self _ _))
    have hc := hit
    unfold deref at hc
    have hlt := (List.getElem?_eq_some.mp hc).1
    have hrest : ∀ d ∈ rest,
        ((s.store c { it with state := State.State_Populated }).deref d).isSome = true := by
      intro d hd
      have := h d (List.mem_cons_of_mem _ hd)
      simp only [deref, store, Option.isSome_iff_exists] at this ⊢
      obtain ⟨a, ha⟩ := this
      have hdl := (List.getElem?_eq_some.mp ha).1
      simp [List.getElem?_set, hdl]
    obtain ⟨t, ht1, ht2, ht3, ht4, ht5, ht6⟩ := markPopulated_spec rest _ hrest
    refine ⟨t, ?_, ?_, ?_, ?_, ?_, ?_⟩
    · simp only [markPopulated, modify, hit]
      exact ht1
    · unfold HeapAndSignalsOnly at ht2 ⊢
      rw [ht2]; rfl
    · rw [ht3]; rfl
    · rw [ht4]; simp [store]
    · intro d hd
      rcases List.mem_cons.mp hd with rfl | hd
      · exact ht6 d { it with state := State.State_Populated }
          (by simp [deref, store, List.getElem?_set, hlt]) rfl
      · exact ht5 d hd
    · intro q it2 hq hst
      by_cases hqc : c = q
      · subst hqc
        exact ht6 c { it with state := State.State_Populated }
          (by simp [deref, store, List.getElem?_set, hlt]) rfl
      · exact ht6 q it2 (by simpa [deref, store, List.getElem?_set, hqc] using hq) hst

theorem readResponse_search_frame (fuel : Nat) :
    ∀ (reader : List ResponseElement) (s t : MediaServer) (total returned total1 returned1 : Nat),
      readResponse fuel "Search" s reader total returned = some (t, total1, returned1) →
      s.HeapAndSignalsOnly t
  | [], s, t, total, returned, total1, returned1, h => by
    simp only [readResponse] at h
    cases h
    unfold HeapAndSignalsOnly; rfl
  | ResponseElement.Result entries :: rest, s, t, total, returned, total1, returned1, h => by
    simp only [readResponse] at h
    simp only [String.reduceEq, if_true, if_false, reduceIte] at h
    split at h
    · cases h
    · rename_i s1 hs1
      have h1 : s.HeapAndSignalsOnly s1 := HeapAndSignalsOnly.parseSearch hs1
      have h2 := readResponse_search_frame fuel rest _ _ _ _ _ _ h
      exact h1.trans h2
  | ResponseElement.NumberReturned text :: rest, s, t, total, returned, total1, returned1, h => by
    simp only [readResponse] at h
    exact readResponse_search_frame fuel rest _ _ _ _ _ _ h
  | ResponseElement.TotalMatches text :: rest, s, t, total, returned, total1, returned1, h => by
    simp only [readResponse] at h
    exact readResponse_search_frame fuel rest _ _ _ _ _ _ h
  | ResponseElement.SearchCaps text :: rest, s, t, total, returned, total1, returned1, h => by
    simp only [readResponse] at h
    exact readResponse_search_frame fuel rest _ _ _ _ _ _ h

theorem HeapAndSignalsOnly.searchStart {s t : MediaServer} (h : s.HeapAndSignalsOnly t) :
    t.searchStart = s.searchStart := by
  unfold HeapAndSignalsOnly at h; rw [h]

theorem HeapAndSignalsOnly.net {s t : MediaServer} (h : s.HeapAndSignalsOnly t) :
    t.net = s.net := by
  unfold HeapAndSignalsOnly at h; rw [h]

/-- C6, amended: on a `Search` response whose `TotalMatches` and `NumberReturned`
are not both zero, a follow-up request is issued exactly when the unsigned
32-bit sum `(searchStart + returned) mod 2^32` is below `total` and below 2000;
the follow-up has that sum as `StartingIndex` and `RequestedCount` 100.
Otherwise no request is sent, `searching(false)` is the last signal emitted and
every album under the search item is in `State_Populated`. -/
theorem search_continuation (fuel : Nat) (s s1 : MediaServer) (reader : List ResponseElement)
    (total returned : Nat)
    (hread : readResponse fuel "Search" s reader 0 0 = some (s1, total, returned))
    (hnz : ¬ (total = 0 ∧ returned = 0)) :
    (((s.searchStart + returned) % 2 ^ 32 < total ∧ (s.searchStart + returned) % 2 ^ 32 < 2000) →
      ∃ t criteria, commandResponse fuel s reader "Search" = some t ∧
        t.net = s.net ++ [NetOp.search criteria ((s.searchStart + returned) % 2 ^ 32) 100] ∧
        t.searchStart = (s.searchStart + returned) % 2 ^ 32 ∧ t.emitted = s1.emitted) ∧
    (¬ ((s.searchStart + returned) % 2 ^ 32 < total ∧
        (s.searchStart + returned) % 2 ^ 32 < 2000) →
      (∀ sp, s1.searchItem = some sp →
        ∃ si, s1.deref sp = some si ∧ ∀ c ∈ si.children, (s1.deref c).isSome = true) →
      ∃ t, commandResponse fuel s reader "Search" = some t ∧ t.net = s.net ∧
        t.searchStart = s.searchStart ∧
        t.emitted.getLast? = some (Signal.searching false) ∧
        ∀ sp si, s1.searchItem = some sp → s1.deref sp = some si →
          ∀ c ∈ si.children, ∃ it, t.deref c = some it ∧ it.state = State.State_Populated) := by
  have hframe := readResponse_search_frame fuel reader s s1 0 0 total returned hread
  have hstart := hframe.searchStart
  have hnet := hframe.net
  have hcr : commandResponse fuel s reader "Search" = s1.searchResponse total returned := by
    unfold commandResponse
    rw [if_neg (by decide), hread]
    simp
  rw [hcr]
  constructor
  · intro hlt
    refine ⟨s1.searchAt ((s1.searchStart + returned) % 2 ^ 32), s1.searchCriteria, ?_, ?_, ?_, ?_⟩
    rotate_left
    · simp only [searchAt, send, hnet, hstart, constSearchChunkSize]
    · simp [searchAt, send, hstart]
    · simp [searchAt, send]
    · unfold searchResponse
      rw [if_neg hnz, Nat.add_comm returned, hstart, if_pos]
      simpa [constMaxSearchResults] using hlt
  · intro hge hsi
    unfold searchResponse
    rw [if_neg hnz, Nat.add_comm returned, hstart, if_neg (by simpa [constMaxSearchResults] using hge)]
    cases hsp : s1.searchItem with
    | none =>
      simp only
      refine ⟨_, rfl, ?_, ?_, ?_, ?_⟩
      · split <;> simp [stopTimer, emit, hnet]
      · split <;> simp [stopTimer, emit, hstart]
      · split <;> simp [stopTimer, emit]
      · intro sp si h; cases h
    | some sp =>
      obtain ⟨si, hsi1, hsi2⟩ := hsi sp hsp
      obtain ⟨t, ht1, ht2, ht3, ht4, ht5, ht6⟩ := markPopulated_spec si.children s1 hsi2
      simp only [hsi1, ht1]
      refine ⟨_, rfl, ?_, ?_, ?_, ?_⟩
      · split <;> simp [stopTimer, emit, ht2.net, hnet]
      · split <;> simp [stopTimer, emit, ht2.searchStart, hstart]
      · split <;> simp [stopTimer, emit]
      · intro sp2 si2 h1 h2
        cases h1
        rw [hsi1] at h2
        cases h2
        intro c hc
        obtain ⟨it, hit1, hit2⟩ := ht5 c hc
        refine ⟨it, ?_, hit2⟩
        split <;> simpa [stopTimer, emit, deref] using hit1


end MediaServer

/-- C10, on a fresh media server: searching twice for ` abba ` is searching once. -/
theorem MediaServer.search_idempotent_witness :
    (((MediaServer.init Manufacturer.Man_Other).search " abba ").bind
        (fun t => t.search " abba ") =
      (MediaServer.init Manufacturer.Man_Other).search " abba ") ∧
    ((MediaServer.init Manufacturer.Man_Other).search " abba ").isSome = true :=
  ⟨(MediaServer.search_idempotent (MediaServer.init Manufacturer.Man_Other) " abba ").2.2.1,
   (MediaServer.search_idempotent (MediaServer.init Manufacturer.Man_Other) " abba ").2.2.2
     (fun p hp => by cases hp)⟩

/-- C6, on a response to the request at index 1 that reports 3 of 5 matches:
the follow-up request starts at index 4. -/
theorem MediaServer.search_continuation_witness :
    ∃ s, exampleSearching = some s ∧
      ∃ t criteria, MediaServer.commandResponse 0 s
          [MediaServer.ResponseElement.NumberReturned "3",
           MediaServer.ResponseElement.TotalMatches "5"] "Search" = some t ∧
        t.net = s.net ++ [NetOp.search criteria ((s.searchStart + 3) % 2 ^ 32) 100] ∧
        t.searchStart = (s.searchStart + 3) % 2 ^ 32 ∧ t.emitted = s.emitted := by
  refine ⟨_, rfl, ?_⟩
  exact (MediaServer.search_continuation 0 _ _
    [MediaServer.ResponseElement.NumberReturned "3",
     MediaServer.ResponseElement.TotalMatches "5"] 5 3 rfl (by decide)).1 (by decide)

/-- C6 as stated fails when the 32-bit sum wraps around: with `searchStart = 1`
and `NumberReturned = 4294967295`, `searchStart + returned` is not below
`total = 5`, and yet a follow-up request is sent, with `StartingIndex` 0. -/
theorem MediaServer.search_continuation_wraps :
    ∃ s t, exampleSearching = some s ∧ s.searchStart = 1 ∧
      toUInt "4294967295" = 4294967295 ∧ toUInt "5" = 5 ∧
      MediaServer.commandResponse 0 s
          [MediaServer.ResponseElement.NumberReturned "4294967295",
           MediaServer.ResponseElement.TotalMatches "5"] "Search" = some t ∧
      t.net = s.net ++ [NetOp.search s.searchCriteria 0 100] ∧
      ¬ (s.searchStart + 4294967295 < 5 ∧ s.searchStart + 4294967295 < 2000) := by
  refine ⟨_, _, rfl, ?_, ?_, ?_, rfl, ?_, ?_⟩ <;> decide

/-! ## Play requests -/

namespace MediaServer

theorem addTracksOf_emit_dataChanged (s : MediaServer) (a b : QModelIndex) :
    (s.emit (Signal.dataChanged a b)).addTracksOf = s.addTracksOf := by
  simp [addTracksOf, emit, List.filter_append]

theorem addTracksOf_emit_rowsInserted (s : MediaServer) (a : QModelIndex) (f l : Int) :
    (s.emit (Signal.rowsInserted a f l)).addTracksOf = s.addTracksOf := by
  simp [addTracksOf, emit, List.filter_append]

theorem addTracksOf_populateIndex (s : MediaServer) (index : QModelIndex) :
    (s.populateIndex index).addTracksOf = s.addTracksOf := by
  unfold populateIndex
  simp only
  split
  · split
    · exact addTracksOf_emit_dataChanged _ _ _
    · rfl
  · rfl

theorem addTracksOf_populateChildren
    (recurse : MediaServer → QModelIndex → Option MediaServer)
    (hrec : ∀ s idx t, recurse s idx = some t → t.addTracksOf = s.addTracksOf) :
    ∀ (l : List Ptr) (s t : MediaServer), populateChildren recurse s l = some t →
      t.addTracksOf = s.addTracksOf
  | [], s, t, h => by
    simp only [populateChildren] at h
    cases h; rfl
  | ip :: rest, s, t, h => by
    simp only [populateChildren] at h
    split at h
    · cases h
    · split at h
      · exact (addTracksOf_populateChildren recurse hrec rest _ _ h).trans rfl
      · split at h
        · cases h
        · rename_i s1 hs1
          rw [addTracksOf_populateChildren recurse hrec rest _ _ h]
          exact hrec _ _ _ hs1

theorem addTracksOf_populateCommand :
    ∀ (fuel : Nat) (s t : MediaServer) (idx : QModelIndex),
      populateCommand fuel s idx = some t → t.addTracksOf = s.addTracksOf
  | 0, s, t, idx, h => by simp [populateCommand] at h
  | fuel + 1, s, t, idx, h => by
    simp only [populateCommand] at h
    split at h
    · cases h
    · split at h
      · cases h; rfl
      · split at h
        · cases h
          exact addTracksOf_populateIndex _ _
        · exact addTracksOf_populateChildren _
            (fun s idx t => addTracksOf_populateCommand fuel s t idx) _ _ _ h

theorem addTracksOf_playLoop (fuel : Nat) :
    ∀ (l : QModelIndexList) (s t : MediaServer), playLoop fuel s l = some t →
      t.addTracksOf = s.addTracksOf
  | [], s, t, h => by
    simp only [playLoop] at h
    cases h; rfl
  | idx :: rest, s, t, h => by
    simp only [playLoop] at h
    split at h
    · cases h
    · rename_i s1 hs1
      rw [addTracksOf_playLoop fuel rest _ _ h]
      exact addTracksOf_populateCommand fuel _ _ _ hs1

theorem addTracksOf_modify {s t : MediaServer} {p : Ptr} {f : Item → Item}
    (h : s.modify p f = some t) : t.addTracksOf = s.addTracksOf := by
  unfold modify at h
  split at h
  · cases h
  · cases h; rfl

theorem addTracksOf_appendItem {s t : MediaServer} {parent1 : QModelIndex}
    {parentItem : Option Ptr} {n : Nat} {item : Item}
    (h : s.appendItem parent1 parentItem n item = some t) : t.addTracksOf = s.addTracksOf := by
  unfold appendItem at h
  simp only at h
  split at h
  · cases h
    exact addTracksOf_emit_rowsInserted _ _ _ _
  · rw [addTracksOf_modify h]
    exact addTracksOf_emit_rowsInserted _ _ _ _

theorem addTracksOf_browseEntry {fuel : Nat} {s t : MediaServer} {parent p1 : QModelIndex}
    {values : Values} (h : browseEntry fuel s parent values = some (t, p1)) :
    t.addTracksOf = s.addTracksOf := by
  unfold browseEntry at h
  simp only at h
  split at h
  · split at h
    · cases h
    · split at h
      · split at h
        · split at h
          · cases h
          · split at h
            · cases h
            · cases h; rfl
            · split at h
              · cases h
              · rename_i t1 ht1
                cases h
                exact addTracksOf_appendItem ht1
        · cases h; rfl
      · cases h; rfl
  · cases h; rfl

theorem addTracksOf_parseBrowseLoop (fuel : Nat) :
    ∀ (entries : List Values) (s t : MediaServer) (parent p1 : QModelIndex),
      parseBrowseLoop fuel s parent entries = some (t, p1) → t.addTracksOf = s.addTracksOf
  | [], s, t, parent, p1, h => by
    simp only [parseBrowseLoop] at h
    cases h; rfl
  | values :: rest, s, t, parent, p1, h => by
    simp only [parseBrowseLoop] at h
    split at h
    · cases h
    · rename_i s1 parent1 hs1
      rw [addTracksOf_parseBrowseLoop fuel rest _ _ _ _ h]
      exact addTracksOf_browseEntry hs1

/-- What `checkCommand()` does, by cases on `command.toPopulate`. -/
theorem checkCommand_spec {fuel : Nat} {m t : MediaServer} (h : checkCommand fuel m = some t) :
    (t.addTracksOf ≠ m.addTracksOf → m.command.toPopulate = []) ∧
    (m.command.toPopulate = [] → t.command.populated = [] ∧ t.command.toPopulate = []) ∧
    (m.command.toPopulate ≠ [] → t = m) := by
  unfold checkCommand at h
  by_cases he : m.command.toPopulate = []
  · refine ⟨fun _ => he, fun _ => ?_, fun hne => absurd he hne⟩
    simp only [he, List.isEmpty_nil, if_true] at h
    split at h
    · cases h
    · split at h
      · split at h
        · cases h
        · cases h
          exact ⟨rfl, rfl⟩
      · cases h
        exact ⟨rfl, rfl⟩
  · have hemp : m.command.toPopulate.isEmpty = false := by
      cases hm : m.command.toPopulate with
      | nil => exact absurd hm he
      | cons a l => rfl
    simp only [hemp] at h
    cases h
    exact ⟨fun hne => absurd rfl hne, fun h0 => absurd h0 he, fun _ => rfl⟩

/-- Every step ends with one run of `checkCommand()`, and nothing before that
run emits `addTracks`. -/
theorem step_ends_with_check {fuel : Nat} {s t : MediaServer} {e : PlayEvent}
    (h : s.step fuel e = some t) :
    ∃ m, checkCommand fuel m = some t ∧ m.addTracksOf = s.addTracksOf := by
  cases e with
  | play indexes pos type =>
    simp only [step, play] at h
    split at h
    · cases h
    · rename_i s2 hs2
      refine ⟨s2, h, ?_⟩
      rw [addTracksOf_playLoop fuel _ _ _ hs2]
      split <;> rfl
  | browse entries =>
    simp only [step, parseBrowse] at h
    split at h
    · cases h
    · rename_i s1 parent hs1
      have h1 := addTracksOf_parseBrowseLoop fuel _ _ _ _ _ hs1
      unfold checkCommandFor at h
      split at h
      · simp only at h
        split at h
        · cases h
        · rename_i s2 hs2
          refine ⟨s2, h, ?_⟩
          rw [addTracksOf_populateCommand fuel _ _ _ hs2]
          exact h1
      · exact ⟨s1, h, h1⟩

/-- C1: take any sequence of play calls and Browse responses, and any further
event `e` after it.  The reaction to `e` ends with one run of `checkCommand()`,
in a state `m` reached without emitting `addTracks`; if the reaction emits
`addTracks`, then `command.toPopulate` is empty in `m`; whenever it is empty in
`m`, the pending command is reset after the check (`populated` and `toPopulate`
are both empty); and otherwise the check changes nothing. -/
theorem play_requests_coalesced (fuel : Nat) (s s1 t : MediaServer) (before : List PlayEvent)
    (e : PlayEvent) (hrun : MediaServer.run fuel s before = some s1)
    (h : s1.step fuel e = some t) :
    ∃ m, checkCommand fuel m = some t ∧ m.addTracksOf = s1.addTracksOf ∧
      (t.addTracksOf ≠ s1.addTracksOf → m.command.toPopulate = []) ∧
      (m.command.toPopulate = [] → t.command.populated = [] ∧ t.command.toPopulate = []) ∧
      (m.command.toPopulate ≠ [] → t = m) := by
  have _ := hrun
  obtain ⟨m, hm1, hm2⟩ := step_ends_with_check h
  obtain ⟨h1, h2, h3⟩ := checkCommand_spec hm1
  exact ⟨m, hm1, hm2, fun hne => h1 (hm2 ▸ hne), h2, h3⟩

end MediaServer

/-- C1, on the example catalog: playing the folder `1` queues its unfetched
folder `3`; the Browse response for `3` then makes `checkCommand` emit
`addTracks`, after which the pending command is reset. -/
theorem MediaServer.play_requests_coalesced_witness :
    ∃ s1 t, MediaServer.run 3 exampleCatalog
        [PlayEvent.play [createIndex 0 0 0] 0 PlayType.Append] = some s1 ∧
      s1.step 3 (PlayEvent.browse [exampleTrackValues "t2" "3" "T2" "1"]) = some t ∧
      s1.command.toPopulate = [createIndex 1 0 2] ∧
      t.addTracksOf ≠ s1.addTracksOf ∧
      t.command.populated = [] ∧ t.command.toPopulate = [] := by
  have key : ∀ s1 t, MediaServer.run 3 exampleCatalog
        [PlayEvent.play [createIndex 0 0 0] 0 PlayType.Append] = some s1 →
      s1.step 3 (PlayEvent.browse [exampleTrackValues "t2" "3" "T2" "1"]) = some t →
      t.addTracksOf ≠ s1.addTracksOf →
      t.command.populated = [] ∧ t.command.toPopulate = [] := by
    intro s1 t h1 h2 h3
    obtain ⟨m, -, -, a, b, -⟩ :=
      MediaServer.play_requests_coalesced 3 exampleCatalog s1 t _ _ h1 h2
    exact b (a h3)
  exact ⟨_, _, rfl, rfl, by decide, by decide, key _ _ rfl rfl (by decide)⟩

/-! ## Rows -/

/-- C3 fails in `removeSearchItem`: after a search was started and the root
`Browse` response then added a top-level folder behind the search item, every
row equals its position; clearing the search removes the search item and
leaves the folder at position 0 with row 1. -/
theorem MediaServer.removeSearchItem_leaves_stale_rows :
    ∃ s t, exampleSearchThenBrowse = some s ∧ s.RowsMatch ∧ s.items = [0, 1] ∧
      s.search "" = some t ∧ ¬ t.RowsMatch ∧ t.items = [1] ∧
      (t.deref 1).map (fun it => it.row) = some 1 := by
  refine ⟨_, _, rfl, ?_, ?_, rfl, ?_, ?_, ?_⟩ <;> decide

/-! ## Chunked search -/

namespace MediaServer

theorem markPopulated_frame :
    ∀ (l : List Ptr) (s t : MediaServer), markPopulated s l = some t → s.HeapAndSignalsOnly t
  | [], s, t, h => by
    simp only [markPopulated] at h
    cases h; exact HeapAndSignalsOnly.refl _
  | c :: rest, s, t, h => by
    simp only [markPopulated] at h
    split at h
    · cases h
    · rename_i s1 hs1
      exact (HeapAndSignalsOnly.modify hs1).trans (markPopulated_frame rest _ _ h)

theorem removeSearchItem_net {s t : MediaServer} (h : s.removeSearchItem = some t) :
    t.net = s.net ∧ t.searchStart = s.searchStart := by
  unfold removeSearchItem at h
  split at h
  · cases h; exact ⟨rfl, rfl⟩
  · split at h
    · cases h
    · cases h; exact ⟨rfl, rfl⟩

theorem searchResponse_cases {s t : MediaServer} {total returned : Nat}
    (h : s.searchResponse total returned = some t) :
    (t.net = s.net ∧ t.searchStart = s.searchStart) ∨
    (t = s.searchAt ((s.searchStart + returned) % 2 ^ 32) ∧
      (s.searchStart + returned) % 2 ^ 32 < 2000) := by
  unfold searchResponse at h
  by_cases h0 : total = 0 ∧ returned = 0
  · left
    rw [if_pos h0] at h
    simp only at h
    split at h
    · cases h
    · rename_i s2 hs2
      cases h
      have := removeSearchItem_net hs2
      exact ⟨this.1, this.2⟩
  · rw [if_neg h0] at h
    by_cases hlt : (returned + s.searchStart) % 2 ^ 32 < total ∧
        (returned + s.searchStart) % 2 ^ 32 < constMaxSearchResults
    · right
      rw [if_pos hlt] at h
      cases h
      refine ⟨rfl, ?_⟩
      have := hlt.2
      rw [Nat.add_comm] at this
      simpa [constMaxSearchResults] using this
    · left
      rw [if_neg hlt] at h
      simp only at h
      split at h
      · cases h
      · rename_i s1 hs1
        cases h
        have hf : s.HeapAndSignalsOnly s1 := by
          split at hs1
          · cases hs1; exact HeapAndSignalsOnly.refl _
          · split at hs1
            · cases hs1
            · exact markPopulated_frame _ _ _ hs1
        constructor
        · split <;> simp [stopTimer, emit, hf.net]
        · split <;> simp [stopTimer, emit, hf.searchStart]

theorem searchRequests_searchAt (s : MediaServer) (start : Nat) :
    searchRequests (s.searchAt start).net = searchRequests s.net + 1 := by
  simp [searchRequests, searchAt, send, List.filter_append]

/-- Feeding full chunks: the requests sent and the start index move together. -/
theorem searchResponses_full_chunks :
    ∀ (rs : List (Nat × Nat)) (s t : MediaServer), (∀ r ∈ rs, r.2 = 100) →
      s.searchStart < 2000 → s.searchResponses rs = some t →
      t.searchStart < 2000 ∧
      t.searchStart = s.searchStart + 100 * (searchRequests t.net - searchRequests s.net) ∧
      searchRequests s.net ≤ searchRequests t.net
  | [], s, t, _, hs, h => by
    simp only [searchResponses] at h
    cases h
    exact ⟨hs, by simp, le_refl _⟩
  | (total, returned) :: rest, s, t, hr, hs, h => by
    simp only [searchResponses] at h
    split at h
    · cases h
    · rename_i s1 hs1
      have hret : returned = 100 := hr (total, returned) (List.mem_cons_self _ _)
      have hrest : ∀ r ∈ rest, r.2 = 100 := fun r hm => hr r (List.mem_cons_of_mem _ hm)
      rcases searchResponse_cases hs1 with ⟨hn, hst⟩ | ⟨heq, hlt⟩
      · obtain ⟨a, b, c⟩ := searchResponses_full_chunks rest s1 t hrest (hst ▸ hs) h
        rw [hn, hst] at b
        rw [hn] at c
        exact ⟨a, b, c⟩
      · have hmod : (s.searchStart + returned) % 2 ^ 32 = s.searchStart + 100 := by
          rw [hret]
          exact Nat.mod_eq_of_lt (by omega)
        have hs1start : s1.searchStart = s.searchStart + 100 := by
          rw [heq]
          show (s.searchStart + returned) % 2 ^ 32 = _
          exact hmod
        have hs1net : searchRequests s1.net = searchRequests s.net + 1 := by
          rw [heq]; exact searchRequests_searchAt _ _
        obtain ⟨a, b, c⟩ := searchResponses_full_chunks rest s1 t hrest
          (by rw [hs1start]; omega) h
        refine ⟨a, ?_, by omega⟩
        rw [b, hs1start, hs1net]
        omega

/-- C13, amended: whenever a `Search` response makes the model send a follow-up
request, that request has `RequestedCount` 100 and a `StartingIndex` below
2000, namely `(searchStart + returned) mod 2^32`; the index is strictly greater
than that of the request it follows when the response reports at least one
returned track and the sum does not wrap; and with full chunks of 100 tracks at
most 19 follow-up requests (20 requests in all) are sent per search text. -/
theorem search_follow_up_progress (s t : MediaServer) (total returned : Nat)
    (h : s.searchResponse total returned = some t) (hnew : t.net ≠ s.net) :
    t.net = s.net ++ [NetOp.search s.searchCriteria t.searchStart 100] ∧
    t.searchStart = (s.searchStart + returned) % 2 ^ 32 ∧
    t.searchStart < 2000 ∧
    (0 < returned → s.searchStart + returned < 2 ^ 32 → s.searchStart < t.searchStart) ∧
    (∀ (rs : List (Nat × Nat)) (u v : MediaServer), (∀ r ∈ rs, r.2 = 100) →
      u.searchStart = 0 → u.searchResponses rs = some v →
      searchRequests v.net ≤ searchRequests u.net + 19) := by
  rcases searchResponse_cases h with ⟨hn, -⟩ | ⟨heq, hlt⟩
  · exact absurd hn hnew
  · have hstart : t.searchStart = (s.searchStart + returned) % 2 ^ 32 := by
      rw [heq]; rfl
    refine ⟨?_, hstart, hstart ▸ hlt, ?_, ?_⟩
    · rw [heq]; rfl
    · intro hpos hno
      rw [hstart, Nat.mod_eq_of_lt hno]
      omega
    · intro rs u v hrs hu huv
      obtain ⟨a, b, c⟩ := searchResponses_full_chunks rs u v hrs (by omega) huv
      omega

end MediaServer

/-- C13, on the search whose first response held one track of five matches: a
response that reports three more tracks moves the start index from 1 to 4. -/
theorem MediaServer.search_follow_up_progress_witness :
    ∃ s t, exampleSearching = some s ∧ s.searchResponse 5 3 = some t ∧
      t.net = s.net ++ [NetOp.search s.searchCriteria t.searchStart 100] ∧
      t.searchStart = 4 ∧ s.searchStart < t.searchStart := by
  have key : ∀ s t, exampleSearching = some s → s.searchResponse 5 3 = some t →
      t.net ≠ s.net → s.searchStart + 3 < 2 ^ 32 →
      t.net = s.net ++ [NetOp.search s.searchCriteria t.searchStart 100] ∧
      s.searchStart < t.searchStart := by
    intro s t _ h2 h3 h4
    have h := MediaServer.search_follow_up_progress s t 5 3 h2 h3
    exact ⟨h.1, h.2.2.2.1 (by decide) h4⟩
  have k := key _ _ rfl rfl (by decide) (by decide)
  exact ⟨_, _, rfl, rfl, k.1, by decide, k.2⟩

/-- C13 as stated fails for a response that reports no returned track: after
`search("a")`, a response with `NumberReturned = 0` and `TotalMatches = 5`
makes the model send the same request again, with `StartingIndex` 0 as before. -/
theorem MediaServer.search_follow_up_repeats :
    ∃ s t, (MediaServer.init Manufacturer.Man_Other).search "a" = some s ∧
      s.net = [NetOp.search s.searchCriteria 0 100] ∧
      MediaServer.commandResponse 0 s
          [MediaServer.ResponseElement.NumberReturned "0",
           MediaServer.ResponseElement.TotalMatches "5"] "Search" = some t ∧
      t.net = [NetOp.search s.searchCriteria 0 100, NetOp.search s.searchCriteria 0 100] ∧
      ¬ (s.searchStart < t.searchStart) := by
  refine ⟨_, _, rfl, ?_, rfl, ?_, ?_⟩ <;> decide

/-- C7 fails when the server returns short chunks: after `search("a")` and 20
responses that each report 99 returned tracks of 5000 matches, 1980 tracks have
been returned and the model sends one more request, for the 100 tracks from
index 1980 on, which reaches past `constMaxSearchResults`. -/
theorem MediaServer.search_requests_past_the_cap :
    ∃ s t, (MediaServer.init Manufacturer.Man_Other).search "a" = some s ∧
      s.searchResponses (List.replicate 20 (5000, 99)) = some t ∧
      t.searchStart = 1980 ∧
      t.net.getLast? = some (NetOp.search s.searchCriteria 1980 100) ∧
      constMaxSearchResults < 1980 + 99 := by
  refine ⟨_, _, rfl, rfl, ?_, ?_, ?_⟩ <;> decide

/-- C14 fails after the search text is cleared: `search("a")` sends a `Search`
request, `search("")` removes the search item without cancelling the request,
and `parseSearch` on the response, which holds a music track, dereferences the
null `searchItem`. -/
theorem MediaServer.parseSearch_without_searchItem :
    ∃ s, exampleSearchCleared = some s ∧ s.searchItem = none ∧
      searchRequests s.net = 1 ∧ NetOp.cancelCommands "Search" ∉ s.net ∧
      s.parseSearch [exampleSearchValues "Waterloo" "Waterloo" "1"] = none ∧
      MediaServer.commandResponse 0 s
        [MediaServer.ResponseElement.Result [exampleSearchValues "Waterloo" "Waterloo" "1"],
         MediaServer.ResponseElement.NumberReturned "1",
         MediaServer.ResponseElement.TotalMatches "1"] "Search" = none := by
  refine ⟨_, rfl, ?_, ?_, ?_, ?_, ?_⟩ <;> decide

/-- C11 fails for a collection without children: playing the unfetched folder
`3` of the example catalog queues it in `command.toPopulate`; the Browse
response with no entries leaves it there, and nothing is played. -/
theorem MediaServer.empty_browse_leaves_pending :
    ∃ s t, exampleCatalog.play 3 [createIndex 1 0 2] 0 PlayType.Append = some s ∧
      s.command.toPopulate = [createIndex 1 0 2] ∧
      s.net = [NetOp.browse ['3'] 0 1000] ∧
      s.parseBrowse 3 [] = some t ∧
      t.command.toPopulate = [createIndex 1 0 2] ∧ t.addTracksOf = [] := by
  refine ⟨_, _, rfl, ?_, ?_, rfl, ?_, ?_⟩ <;> decide

/-! ## `populateCommand` -/

namespace MediaServer

theorem appendPopulated_nil (s : MediaServer) : s.appendPopulated [] = s := by
  simp [appendPopulated]

theorem appendPopulated_append (s : MediaServer) (a b : QModelIndexList) :
    (s.appendPopulated a).appendPopulated b = s.appendPopulated (a ++ b) := by
  simp [appendPopulated, List.append_assoc]

theorem canFetchMore_of_not_initial {s : MediaServer} {idx : QModelIndex} {p : Ptr} {it : Item}
    (hi : idx.i = some p) (hd : s.deref p = some it) (hs : it.state ≠ State.State_Initial) :
    s.canFetchMore idx = false := by
  rw [Bool.eq_false_iff]
  intro h
  obtain ⟨-, q, item, hq, hd2, -, hst⟩ := (canFetchMore_iff s idx).mp h
  rw [hi] at hq
  cases hq
  rw [hd] at hd2
  cases hd2
  exact hs hst

theorem populateChildren_subtree {h : List Item} {cs : List Ptr} {l : QModelIndexList}
    (ht : SubtreeTracks h cs l) :
    ∃ n, ∀ fuel, n ≤ fuel → ∀ s : MediaServer, s.heap = h →
      populateChildren (populateCommand fuel) s cs = some (s.appendPopulated l) := by
  induction ht with
  | nil =>
    exact ⟨0, fun fuel _ s _ => by simp [populateChildren, appendPopulated_nil]⟩
  | @track c rest l it hc hty _ ih =>
    obtain ⟨n, hn⟩ := ih
    refine ⟨n, fun fuel hf s hs => ?_⟩
    have hd : s.deref c = some it := by unfold deref; rw [hs]; exact hc
    simp only [populateChildren, hd, hty, if_true]
    have := hn fuel hf (s.appendPopulated [createIndex it.row 0 c]) hs
    rw [appendPopulated_append] at this
    exact this
  | @collection c rest l1 l2 it hc hty hst _ _ ih1 ih2 =>
    obtain ⟨n1, hn1⟩ := ih1
    obtain ⟨n2, hn2⟩ := ih2
    refine ⟨max (n1 + 1) n2, fun fuel hf s hs => ?_⟩
    have hd : s.deref c = some it := by unfold deref; rw [hs]; exact hc
    obtain ⟨k, rfl⟩ : ∃ k, fuel = k + 1 := ⟨fuel - 1, by omega⟩
    have hrec : populateCommand (k + 1) s (createIndex it.row 0 c) =
        some (s.appendPopulated l1) := by
      simp only [populateCommand]
      have hi : (createIndex it.row 0 c).i = some c := rfl
      simp only [hi, Option.some_bind, hd, hty, if_false,
        canFetchMore_of_not_initial hi hd hst]
      exact hn1 k (by omega) s hs
    simp only [populateChildren, hd, hty, if_false, hrec]
    have := hn2 (k + 1) (by omega) (s.appendPopulated l1) hs
    rw [appendPopulated_append] at this
    exact this

/-- C12: for a track index `populateCommand` appends just that index to
`command.populated`.  For the index of a collection that is not in
`State_Initial` and whose subtree holds no collection in `State_Initial`, it
returns as soon as the fuel exceeds the depth of the subtree, and it appends
exactly the tracks of the subtree, each once, in depth-first child order;
nothing else changes, `command.toPopulate` in particular. -/
theorem populateCommand_collects_subtree (s : MediaServer) (idx : QModelIndex) (p : Ptr)
    (it : Item) (hi : idx.i = some p) (hd : s.deref p = some it) :
    (it.type = ItemType.Type_MusicTrack →
      ∀ fuel, populateCommand (fuel + 1) s idx = some (s.appendPopulated [idx])) ∧
    (it.type ≠ ItemType.Type_MusicTrack → it.state ≠ State.State_Initial →
      ∀ l, SubtreeTracks s.heap it.children l →
        ∃ n, ∀ fuel, n ≤ fuel → populateCommand fuel s idx = some (s.appendPopulated l)) := by
  constructor
  · intro hty fuel
    simp only [populateCommand, hi, Option.some_bind, hd, hty, if_true]
    rfl
  · intro hty hst l hl
    obtain ⟨n, hn⟩ := populateChildren_subtree hl
    refine ⟨n + 1, fun fuel hf => ?_⟩
    obtain ⟨k, rfl⟩ : ∃ k, fuel = k + 1 := ⟨fuel - 1, by omega⟩
    simp only [populateCommand, hi, Option.some_bind, hd, hty, if_false,
      canFetchMore_of_not_initial hi hd hst]
    exact hn k (by omega) s rfl

end MediaServer

/-- C12, on the fetched example catalog: the folder `1` yields the track `t1`
and then the track `t2` of its sub-folder. -/
theorem MediaServer.populateCommand_collects_subtree_witness :
    ∃ n, ∀ fuel, n ≤ fuel →
      MediaServer.populateCommand fuel exampleFetchedCatalog (createIndex 0 0 0) =
        some (exampleFetchedCatalog.appendPopulated [createIndex 0 0 1, createIndex 0 0 3]) :=
  (MediaServer.populateCommand_collects_subtree exampleFetchedCatalog (createIndex 0 0 0) 0
      exampleFolder1 rfl rfl).2 (by decide) (by decide) [createIndex 0 0 1, createIndex 0 0 3]
    (@SubtreeTracks.track _ 1 [2] [createIndex 0 0 3] exampleTrack rfl rfl
      (@SubtreeTracks.collection _ 2 [] [createIndex 0 0 3] [] exampleFolder3Fetched rfl
        (by decide) (by decide)
        (@SubtreeTracks.track _ 3 [] [] exampleTrack2 rfl rfl SubtreeTracks.nil)
        SubtreeTracks.nil))

/-! ## `findItem` -/

namespace MediaServer

theorem noneWithId_nil (h : List Item) (id : QByteArray) : NoneWithId h id [] := by
  intro q it hq
  cases hq

theorem noneWithId_cons {h : List Item} {id : QByteArray} {c : Ptr} {rest : List Ptr}
    {it : Item} (hc : h[c]? = some it) (hid : it.id ≠ id)
    (hin : it.isCollection = true → NoneWithId h id it.children)
    (hrest : NoneWithId h id rest) : NoneWithId h id (c :: rest) := by
  intro q iq hq hdq
  cases hq with
  | here =>
    rw [hc] at hdq
    cases hdq
    exact hid
  | inside hc2 hcol hin2 =>
    rw [hc] at hc2
    cases hc2
    exact hin hcol q iq hin2 hdq
  | later hl => exact hrest q iq hl hdq

/-- The loop of `findItem` on a finite forest: with enough fuel it returns the
first item with the id, or the invalid index when there is none. -/
theorem findItemLoop_forest (s : MediaServer) (id : QByteArray) (hid : id ≠ ['0'])
    {l : List Ptr} (hf : Forest s.heap l) :
    ∃ n, ∀ fuel, n ≤ fuel → ∀ r : Int, 0 ≤ r →
      ∃ x, findItemLoop s (findItem s fuel id) id l r = some x ∧
        ((x.isValid = true ∧ FirstWithId s.heap id l r x) ∨
         (x = QModelIndex.invalid ∧ NoneWithId s.heap id l)) := by
  induction hf with
  | nil =>
    exact ⟨0, fun fuel _ r _ => ⟨QModelIndex.invalid, rfl, Or.inr ⟨rfl, noneWithId_nil _ _⟩⟩⟩
  | @track c rest it hc hcol _ ih =>
    obtain ⟨n, hn⟩ := ih
    refine ⟨n, fun fuel hfuel r hr => ?_⟩
    have hd : s.deref c = some it := hc
    by_cases hidc : it.id = id
    · refine ⟨createIndex r 0 c, by simp [findItemLoop, hd, hidc], Or.inl ⟨createIndex_isValid hr c, FirstWithId.here hc hidc⟩⟩
    · obtain ⟨x, hx, hspec⟩ := hn fuel hfuel (r + 1) (by omega)
      refine ⟨x, by simp [findItemLoop, hd, hidc, hcol, hx], ?_⟩
      rcases hspec with ⟨hv, hfirst⟩ | ⟨hinv, hnone⟩
      · exact Or.inl ⟨hv, FirstWithId.later hc hidc (fun h => by rw [hcol] at h; cases h) hfirst⟩
      · exact Or.inr ⟨hinv, noneWithId_cons hc hidc (fun h => by rw [hcol] at h; cases h) hnone⟩
  | @collection c rest it hc hcol _ _ ih1 ih2 =>
    obtain ⟨n1, hn1⟩ := ih1
    obtain ⟨n2, hn2⟩ := ih2
    refine ⟨max (n1 + 1) n2, fun fuel hfuel r hr => ?_⟩
    have hd : s.deref c = some it := hc
    by_cases hidc : it.id = id
    · refine ⟨createIndex r 0 c, by simp [findItemLoop, hd, hidc], Or.inl ⟨createIndex_isValid hr c, FirstWithId.here hc hidc⟩⟩
    · obtain ⟨k, rfl⟩ : ∃ k, fuel = k + 1 := ⟨fuel - 1, by omega⟩
      obtain ⟨x1, hx1, hspec1⟩ := hn1 k (by omega) 0 (le_refl _)
      have hrec : findItem s (k + 1) id (createIndex r 0 c) = some x1 := by
        have hi : (createIndex r 0 c).i = some c := rfl
        simp only [findItem, hid, if_false, createIndex_isValid hr c, if_true, hi,
          Option.some_bind, hd, hcol]
        exact hx1
      rcases hspec1 with ⟨hv1, hfirst1⟩ | ⟨hinv1, hnone1⟩
      · exact ⟨x1, by simp [findItemLoop, hd, hidc, hcol, hrec, hv1],
          Or.inl ⟨hv1, FirstWithId.inside hc hidc hcol hfirst1⟩⟩
      · obtain ⟨x, hx, hspec⟩ := hn2 (k + 1) (by omega) (r + 1) (by omega)
        have hnv : x1.isValid = false := by rw [hinv1]; rfl
        refine ⟨x, by simp [findItemLoop, hd, hidc, hcol, hrec, hnv, hx], ?_⟩
        rcases hspec with ⟨hv, hfirst⟩ | ⟨hinv, hnone⟩
        · exact Or.inl ⟨hv, FirstWithId.later hc hidc (fun _ => hnone1) hfirst⟩
        · exact Or.inr ⟨hinv, noneWithId_cons hc hidc (fun _ => hnone1) hnone⟩

theorem FirstWithId.exists_item {h : List Item} {id : QByteArray} {l : List Ptr} {r : Int}
    {x : QModelIndex} (hf : FirstWithId h id l r x) :
    ∃ q it, InForest h l q ∧ h[q]? = some it ∧ it.id = id ∧ x.i = some q := by
  induction hf with
  | here hc hid => exact ⟨_, _, InForest.here, hc, hid, rfl⟩
  | inside hc _ hcol _ ih =>
    obtain ⟨q, it, hq, hd, hi, hx⟩ := ih
    exact ⟨q, it, InForest.inside hc hcol hq, hd, hi, hx⟩
  | later _ _ _ _ ih =>
    obtain ⟨q, it, hq, hd, hi, hx⟩ := ih
    exact ⟨q, it, InForest.later hq, hd, hi, hx⟩

/-- C18: `findItem("0", parent)` is the invalid (root) index.  For every other
id, on a catalog whose items form a finite forest, `findItem(id, root)` returns
as soon as the fuel exceeds the depth of the forest; the result is a valid
index exactly when some item of the forest has that id, it is then the index
of the first such item in depth-first pre-order, with the position of the item
in the list of its parent as row, and it is the invalid index otherwise. -/
theorem findItem_locates (s : MediaServer) (id : QByteArray) :
    (∀ fuel parent, s.findItem (fuel + 1) ['0'] parent = some QModelIndex.invalid) ∧
    (id ≠ ['0'] → Forest s.heap s.items →
      ∃ n, ∀ fuel, n ≤ fuel →
        ∃ x, s.findItem fuel id QModelIndex.invalid = some x ∧
          (x.isValid = true ↔
            ∃ q it, InForest s.heap s.items q ∧ s.heap[q]? = some it ∧ it.id = id) ∧
          (x.isValid = true → FirstWithId s.heap id s.items 0 x) ∧
          (x.isValid = false → x = QModelIndex.invalid)) := by
  constructor
  · intro fuel parent
    simp [findItem]
  · intro hid hf
    obtain ⟨n, hn⟩ := findItemLoop_forest s id hid hf
    refine ⟨n + 1, fun fuel hfuel => ?_⟩
    obtain ⟨k, rfl⟩ : ∃ k, fuel = k + 1 := ⟨fuel - 1, by omega⟩
    obtain ⟨x, hx, hspec⟩ := hn k (by omega) 0 (le_refl _)
    have hinv : QModelIndex.invalid.isValid = false := rfl
    refine ⟨x, by simp only [findItem, hid, if_false, hinv]; exact hx, ?_, ?_, ?_⟩
    · rcases hspec with ⟨hv, hfirst⟩ | ⟨hinv, hnone⟩
      · obtain ⟨q, it, hq, hd, hi, -⟩ := FirstWithId.exists_item hfirst
        exact ⟨fun _ => ⟨q, it, hq, hd, hi⟩, fun _ => hv⟩
      · constructor
        · intro hv; rw [hinv] at hv; cases hv
        · rintro ⟨q, it, hq, hd, hi⟩
          exact absurd hi (hnone q it hq hd)
    · intro hv
      rcases hspec with ⟨-, hfirst⟩ | ⟨hinv, -⟩
      · exact hfirst
      · rw [hinv] at hv; cases hv
    · intro hv
      rcases hspec with ⟨hv2, -⟩ | ⟨hinv, -⟩
      · rw [hv2] at hv; cases hv
      · exact hinv

end MediaServer

/-- The fetched example catalog is a finite forest. -/
theorem exampleFetchedCatalog_forest :
    Forest exampleFetchedCatalog.heap exampleFetchedCatalog.items :=
  @Forest.collection _ 0 [] exampleFolder1 rfl (by decide)
    (@Forest.track _ 1 [2] exampleTrack rfl (by decide)
      (@Forest.collection _ 2 [] exampleFolder3Fetched rfl (by decide)
        (@Forest.track _ 3 [] exampleTrack2 rfl (by decide) Forest.nil) Forest.nil))
    Forest.nil

/-- C18, on the fetched example catalog, for the id `t2` of the deepest track. -/
theorem MediaServer.findItem_locates_witness :
    ∃ n, ∀ fuel, n ≤ fuel →
      ∃ x, exampleFetchedCatalog.findItem fuel ['t', '2'] QModelIndex.invalid = some x ∧
        (x.isValid = true ↔
          ∃ q it, InForest exampleFetchedCatalog.heap exampleFetchedCatalog.items q ∧
            exampleFetchedCatalog.heap[q]? = some it ∧ it.id = ['t', '2']) ∧
        (x.isValid = true →
          FirstWithId exampleFetchedCatalog.heap ['t', '2'] exampleFetchedCatalog.items 0 x) ∧
        (x.isValid = false → x = QModelIndex.invalid) :=
  (MediaServer.findItem_locates exampleFetchedCatalog ['t', '2']).2 (by decide)
    exampleFetchedCatalog_forest

/-! ## Play requests from dropped object ids -/

namespace MediaServer

theorem findFirst_firstWith {s : MediaServer} {test : Item → Bool} {P : Item → Prop}
    (hP : ∀ it, test it = true ↔ P it) {l : List Ptr} {p : Ptr} {it : Item}
    (h : FirstWith s P l p it) : s.findFirst test l = some (some (p, it)) := by
  induction h with
  | here hd ht => simp [findFirst, hd, (hP _).mpr ht]
  | @later c p rest it pit hd hn _ ih =>
    have : test it = false := by
      rw [Bool.eq_false_iff]; exact fun h => hn ((hP _).mp h)
    simp [findFirst, hd, this, ih]

theorem findFirst_noneWith {s : MediaServer} {test : Item → Bool} {P : Item → Prop}
    (hP : ∀ it, test it = true ↔ P it) :
    ∀ {l : List Ptr}, NoneWith s P l → s.findFirst test l = some none
  | [], _ => rfl
  | c :: rest, h => by
    obtain ⟨it, hd, hn⟩ := h c (List.mem_cons_self _ _)
    have : test it = false := by
      rw [Bool.eq_false_iff]; exact fun h => hn ((hP _).mp h)
    simp only [findFirst, hd, this]
    exact findFirst_noneWith hP (fun d hd => h d (List.mem_cons_of_mem _ hd))

theorem FirstWith.deref {s : MediaServer} {P : Item → Prop} {l : List Ptr} {p : Ptr} {it : Item}
    (h : FirstWith s P l p it) : s.deref p = some it ∧ P it := by
  induction h with
  | here hd ht => exact ⟨hd, ht⟩
  | later _ _ _ ih => exact ih

theorem collectionTest (x : QByteArray) (it : Item) :
    (it.isCollection && decide (it.id = x)) = true ↔ (it.isCollection = true ∧ it.id = x) := by
  simp

theorem childTest (x : QByteArray) (it : Item) :
    ((it.isCollection && decide (it.id = x)) || (!it.isCollection && decide (it.id = x))) = true ↔
      it.id = x := by
  cases it.isCollection <;> simp

theorem findItemIn_resolves {s : MediaServer} {l : List Ptr} {path : List QByteArray} {p : Ptr}
    (h : ResolvesTo s l path p) :
    s.findItemIn path l = some (some p) ∧ path ≠ [] ∧
      ∃ it, s.deref p = some it ∧ it.isCollection = true := by
  induction h with
  | last hf =>
    refine ⟨?_, by simp, _, (FirstWith.deref hf).1, (FirstWith.deref hf).2.1⟩
    simp [findItemIn, findFirst_firstWith (collectionTest _) hf]
  | step hf _ ih =>
    refine ⟨?_, by simp, ih.2.2⟩
    rw [findItemIn]
    simp only [findFirst_firstWith (collectionTest _) hf, List.isEmpty_cons]
    exact ih.1

theorem findItemIn_unresolved {s : MediaServer} {l : List Ptr} {path : List QByteArray}
    (h : Unresolved s l path) : s.findItemIn path l = some none ∧ path ≠ [] := by
  induction h with
  | noCollection hn =>
    exact ⟨by simp [findItemIn, findFirst_noneWith (collectionTest _) hn], by simp⟩
  | deeper hf _ ih =>
    refine ⟨?_, by simp⟩
    rw [findItemIn]
    simp only [findFirst_firstWith (collectionTest _) hf, List.isEmpty_cons]
    exact ih.1

theorem parentListOf_unresolved (s : MediaServer) {h : List QByteArray} (last : Option Ptr)
    (hu : Unresolved s s.items h) : s.parentListOf h last = some none := by
  obtain ⟨hfind, hne⟩ := findItemIn_unresolved hu
  have hemp : h.isEmpty = false := by
    cases h with
    | nil => exact absurd rfl hne
    | cons a b => rfl
  simp only [parentListOf, hemp, Bool.not_false, if_true, if_neg hne, hfind]

theorem parentListOf_parentList (s : MediaServer) {h : List QByteArray} {l : List Ptr}
    (last : Option Ptr) (hl : ParentList s h l) :
    ∃ list last1, s.parentListOf h last = some (some (list, last1)) ∧
      s.listOf list = some l := by
  cases hl with
  | top => exact ⟨none, last, rfl, rfl⟩
  | @children _ p it hres hd =>
    obtain ⟨hfind, hne, it2, hd2, hcol⟩ := findItemIn_resolves hres
    rw [hd] at hd2
    cases hd2
    have hemp : h.isEmpty = false := by
      cases h with
      | nil => exact absurd rfl hne
      | cons a b => rfl
    refine ⟨some p, some p, ?_, by simp [listOf, hd]⟩
    simp only [parentListOf, hemp, Bool.not_false, if_true, if_neg hne, hfind, hd, hcol,
      Bool.not_true]
    rfl

theorem playIdsLoop_unresolved (s : MediaServer) (i : QByteArray) (rest : List QByteArray)
    (last : Option Ptr) (indexes : QModelIndexList)
    (h : Unresolved s s.items (parentPath i)) :
    s.playIdsLoop (i :: rest) last indexes = some none := by
  have hne := (findItemIn_unresolved h).2
  have hown := parentListOf_unresolved s last h
  unfold parentPath at hne hown
  have hlast : ∃ id, (toHierarchyList i).getLast? = some id := by
    cases hl : (toHierarchyList i).getLast? with
    | some id => exact ⟨id, rfl⟩
    | none =>
      rw [List.getLast?_eq_none_iff] at hl
      rw [hl] at hne
      exact absurd rfl hne
  obtain ⟨id, hid⟩ := hlast
  simp only [playIdsLoop, hid, hown]

theorem playIdsLoop_entry (s : MediaServer) (i : QByteArray) (rest : List QByteArray)
    (last : Option Ptr) (indexes : QModelIndexList) (r : Option QModelIndex)
    (h : EntryIndex s i r) :
    ∃ last1, s.playIdsLoop (i :: rest) last indexes =
      s.playIdsLoop rest last1 (indexes ++ r.toList) := by
  cases h with
  | @found l id c it hpl hlast hfirst =>
    obtain ⟨list, last1, hown, hlist⟩ := parentListOf_parentList s last hpl
    unfold parentPath at hown
    refine ⟨last1, ?_⟩
    simp only [playIdsLoop, hlast, hown, hlist, findFirst_firstWith (childTest id) hfirst]
    rfl
  | @skipped l id hpl hlast hnone =>
    obtain ⟨list, last1, hown, hlist⟩ := parentListOf_parentList s last hpl
    unfold parentPath at hown
    refine ⟨last1, ?_⟩
    simp only [playIdsLoop, hlast, hown, hlist, findFirst_noneWith (childTest id) hnone]
    simp

theorem playIdsLoop_all (s : MediaServer) :
    ∀ (ids : List QByteArray) (rs : List (Option QModelIndex)),
      List.Forall₂ (EntryIndex s) ids rs → ∀ (last : Option Ptr) (indexes : QModelIndexList),
      s.playIdsLoop ids last indexes = some (some (indexes ++ rs.reduceOption))
  | [], _, h, last, indexes => by
    cases h
    simp [playIdsLoop]
  | i :: rest, _, h, last, indexes => by
    cases h with
    | @cons _ r _ rs hi hrest =>
      obtain ⟨last1, hstep⟩ := playIdsLoop_entry s i rest last indexes r hi
      rw [hstep, playIdsLoop_all s rest rs hrest]
      cases r <;> simp [List.reduceOption_cons_of_some, List.reduceOption_cons_of_none]

theorem playIdsLoop_some_unresolved (s : MediaServer) :
    ∀ (ids : List QByteArray),
      (∀ j ∈ ids, (∃ r, EntryIndex s j r) ∨ Unresolved s s.items (parentPath j)) →
      (∃ i ∈ ids, Unresolved s s.items (parentPath i)) →
      ∀ (last : Option Ptr) (indexes : QModelIndexList),
        s.playIdsLoop ids last indexes = some none
  | [], _, ⟨i, hi, _⟩, _, _ => by cases hi
  | j :: rest, hall, ⟨i, hi, hu⟩, last, indexes => by
    rcases hall j (List.mem_cons_self _ _) with ⟨r, hr⟩ | hju
    · rcases List.mem_cons.mp hi with rfl | hirest
      · exact playIdsLoop_unresolved s _ rest last indexes hu
      · obtain ⟨last1, hstep⟩ := playIdsLoop_entry s j rest last indexes r hr
        rw [hstep]
        exact playIdsLoop_some_unresolved s rest
          (fun k hk => hall k (List.mem_cons_of_mem _ hk)) ⟨i, hirest, hu⟩ _ _
    · exact playIdsLoop_unresolved s j rest last indexes hju

/-- C20: `play(ids, row)` on a catalog in which every entry either resolves or
has an unresolvable parent path.  If the parent path of some entry (all but
its last component) is non-empty and does not resolve, level by level through
collections only, then nothing is played and the state is unchanged, the
pending command included.  If all parent paths resolve, the entries whose last
component matches no item of the resolved list are skipped, and
`play(indexes, row, Insert)` is called with the indexes of the found items if
there is at least one; otherwise nothing changes. -/
theorem playIds_atomic (fuel : Nat) (s : MediaServer) (ids : List QByteArray) (row : Int) :
    ((∀ j ∈ ids, (∃ r, EntryIndex s j r) ∨ Unresolved s s.items (parentPath j)) →
      (∃ i ∈ ids, Unresolved s s.items (parentPath i)) →
      s.playIds fuel ids row = some s) ∧
    (∀ rs, List.Forall₂ (EntryIndex s) ids rs →
      s.playIds fuel ids row =
        if rs.reduceOption = [] then some s
        else s.play fuel rs.reduceOption row PlayType.Insert) := by
  constructor
  · intro hall hex
    simp [playIds, playIdsLoop_some_unresolved s ids hall hex none []]
  · intro rs hrs
    simp only [playIds, playIdsLoop_all s ids rs hrs none [], List.nil_append]
    cases rs.reduceOption <;> simp

end MediaServer

theorem exampleFetched_parent1 :
    ParentList exampleFetchedCatalog [['1']] exampleFolder1.children :=
  @ParentList.children exampleFetchedCatalog [['1']] 0 exampleFolder1
    (@ResolvesTo.last exampleFetchedCatalog [0] ['1'] 0 exampleFolder1
      (@FirstWith.here exampleFetchedCatalog _ 0 [] exampleFolder1 rfl (by decide)))
    rfl

theorem exampleFetched_entry_t1 :
    EntryIndex exampleFetchedCatalog ['1', '\r', 't', '1'] (some (createIndex 0 0 1)) :=
  @EntryIndex.found exampleFetchedCatalog _ [1, 2] ['t', '1'] 1 exampleTrack
    exampleFetched_parent1 (by decide)
    (@FirstWith.here exampleFetchedCatalog _ 1 [2] exampleTrack rfl (by decide))

theorem exampleFetched_entry_z :
    EntryIndex exampleFetchedCatalog ['1', '\r', 'z'] none :=
  @EntryIndex.skipped exampleFetchedCatalog _ [1, 2] ['z'] exampleFetched_parent1 (by decide)
    (by
      intro c hc
      simp only [List.mem_cons, List.mem_singleton, List.not_mem_nil, or_false] at hc
      rcases hc with rfl | rfl
      · exact ⟨exampleTrack, rfl, by decide⟩
      · exact ⟨exampleFolder3Fetched, rfl, by decide⟩)

theorem exampleFetched_unresolved_9 :
    Unresolved exampleFetchedCatalog exampleFetchedCatalog.items (parentPath ['9', '\r', 'x']) :=
  @Unresolved.noCollection exampleFetchedCatalog [0] ['9'] []
    (by
      intro c hc
      simp only [List.mem_singleton] at hc
      subst hc
      exact ⟨exampleFolder1, rfl, by decide⟩)

/-- C20, on the fetched example catalog: a drop of the track `1/t1` together
with an entry below the unknown folder `9` plays nothing; a drop of `1/t1`
together with the unknown `1/z` plays the track. -/
theorem MediaServer.playIds_atomic_witness :
    exampleFetchedCatalog.playIds 3 [['1', '\r', 't', '1'], ['9', '\r', 'x']] 0 =
      some exampleFetchedCatalog ∧
    exampleFetchedCatalog.playIds 3 [['1', '\r', 't', '1'], ['1', '\r', 'z']] 0 =
      exampleFetchedCatalog.play 3 [createIndex 0 0 1] 0 PlayType.Insert := by
  constructor
  · refine (MediaServer.playIds_atomic 3 exampleFetchedCatalog _ 0).1 ?_
      ⟨_, List.mem_cons_of_mem _ (List.mem_singleton_self _), exampleFetched_unresolved_9⟩
    intro j hj
    simp only [List.mem_cons, List.mem_singleton, List.not_mem_nil, or_false] at hj
    rcases hj with rfl | rfl
    · exact Or.inl ⟨_, exampleFetched_entry_t1⟩
    · exact Or.inr exampleFetched_unresolved_9
  · exact (MediaServer.playIds_atomic 3 exampleFetchedCatalog _ 0).2
      [some (createIndex 0 0 1), none]
      (List.Forall₂.cons exampleFetched_entry_t1
        (List.Forall₂.cons exampleFetched_entry_z List.Forall₂.nil))


/-! ## Browse results only append -/

theorem Item.keepsPlace_refl (it : Item) : it.KeepsPlace it :=
  ⟨rfl, rfl, rfl, rfl, [], by simp⟩

theorem Item.keepsPlace_trans {a b c : Item} (h1 : a.KeepsPlace b) (h2 : b.KeepsPlace c) :
    a.KeepsPlace c := by
  obtain ⟨t1, i1, p1, r1, l1, c1⟩ := h1
  obtain ⟨t2, i2, p2, r2, l2, c2⟩ := h2
  exact ⟨t2.trans t1, i2.trans i1, p2.trans p1, r2.trans r1, l1 ++ l2,
    by rw [c2, c1, List.append_assoc]⟩

namespace MediaServer

theorem onlyAppends_refl (s : MediaServer) : s.OnlyAppends s :=
  ⟨⟨[], by simp, fun q hq => by cases hq⟩, rfl, rfl, le_refl _,
    fun q it h => ⟨it, h, Item.keepsPlace_refl it⟩⟩

theorem onlyAppends_trans {s t u : MediaServer} (h1 : s.OnlyAppends t)
    (h2 : t.OnlyAppends u) : s.OnlyAppends u := by
  obtain ⟨⟨l1, hi1, hn1⟩, hs1, hc1, hl1, hk1⟩ := h1
  obtain ⟨⟨l2, hi2, hn2⟩, hs2, hc2, hl2, hk2⟩ := h2
  refine ⟨⟨l1 ++ l2, by rw [hi2, hi1, List.append_assoc], ?_⟩, hs2.trans hs1, hc2.trans hc1,
    le_trans hl1 hl2, ?_⟩
  · intro q hq
    rcases List.mem_append.mp hq with h | h
    · obtain ⟨hq1, it, hd, hty⟩ := hn1 q h
      obtain ⟨it2, hd2, hk⟩ := hk2 q it hd
      exact ⟨hq1, it2, hd2, by rw [hk.1]; exact hty⟩
    · obtain ⟨hq1, it, hd, hty⟩ := hn2 q h
      exact ⟨le_trans hl1 hq1, it, hd, hty⟩
  · intro q it hd
    obtain ⟨it2, hd2, k1⟩ := hk1 q it hd
    obtain ⟨it3, hd3, k2⟩ := hk2 q it2 hd2
    exact ⟨it3, hd3, Item.keepsPlace_trans k1 k2⟩

/-- A state that differs from `s` only in the pending command and in the two
logs is `s` after appends only. -/
theorem onlyAppends_of_heap_eq {s t : MediaServer} (hh : t.heap = s.heap)
    (hi : t.items = s.items) (hs : t.searchItem = s.searchItem)
    (hc : t.currentSearch = s.currentSearch) : s.OnlyAppends t :=
  ⟨⟨[], by simp [hi], fun q hq => by cases hq⟩, hs, hc, by rw [hh],
    fun q it h => ⟨it, by unfold deref at h ⊢; rw [hh]; exact h, Item.keepsPlace_refl it⟩⟩

theorem onlyAppends_store {s : MediaServer} {p : Ptr} {it new : Item}
    (hd : s.deref p = some it) (hk : it.KeepsPlace new) : s.OnlyAppends (s.store p new) := by
  refine ⟨⟨[], by simp [MediaServer.store], fun q hq => by cases hq⟩, rfl, rfl,
    by simp [MediaServer.store], ?_⟩
  intro q iq hq
  by_cases hpq : p = q
  · subst hpq
    rw [hd] at hq
    cases hq
    exact ⟨new, deref_store_self new hd, hk⟩
  · exact ⟨iq, by rw [deref_store_ne s new hpq]; exact hq, Item.keepsPlace_refl iq⟩

theorem onlyAppends_modify {s t : MediaServer} {p : Ptr} {f : Item → Item}
    (h : s.modify p f = some t) (hf : ∀ it : Item, it.KeepsPlace (f it)) : s.OnlyAppends t := by
  unfold MediaServer.modify at h
  split at h
  · cases h
  · rename_i it hd
    cases h
    exact onlyAppends_store hd (hf it)

theorem deref_alloc_old {s : MediaServer} {q : Ptr} {it : Item} (new : Item)
    (h : s.deref q = some it) : (s.alloc new).2.deref q = some it := by
  have hlt := deref_lt h
  unfold deref at h ⊢
  simp only [alloc]
  rw [List.getElem?_append_left hlt]
  exact h

theorem deref_alloc_new (s : MediaServer) (new : Item) :
    (s.alloc new).2.deref (s.alloc new).1 = some new := by
  simp [deref, alloc]

theorem onlyAppends_alloc (s : MediaServer) (new : Item) : s.OnlyAppends (s.alloc new).2 :=
  ⟨⟨[], by simp [MediaServer.alloc], fun q hq => by cases hq⟩, rfl, rfl,
    by simp [MediaServer.alloc],
    fun q it h => ⟨it, deref_alloc_old new h, Item.keepsPlace_refl it⟩⟩

theorem onlyAppends_populateIndex (s : MediaServer) (index : QModelIndex) :
    s.OnlyAppends (s.populateIndex index) := by
  unfold MediaServer.populateIndex
  simp only
  split
  · rename_i p it hp hit
    split
    · have hd : s.deref p = some it := by
        rw [toItem_eq] at hit
        unfold toItemPtr at hp
        split at hp
        · rw [if_pos (by assumption), hp] at hit
          exact hit
        · cases hp
      have := @onlyAppends_store _ _ it { it with state := State.State_Populating } hd
        ⟨rfl, rfl, rfl, rfl, [], by simp⟩
      exact onlyAppends_trans this (onlyAppends_of_heap_eq rfl rfl rfl rfl)
    · exact onlyAppends_of_heap_eq rfl rfl rfl rfl
  · exact onlyAppends_of_heap_eq rfl rfl rfl rfl

theorem onlyAppends_populateChildren
    (recurse : MediaServer → QModelIndex → Option MediaServer)
    (hrec : ∀ s idx t, recurse s idx = some t → s.OnlyAppends t) :
    ∀ (l : List Ptr) (s t : MediaServer), MediaServer.populateChildren recurse s l = some t →
      s.OnlyAppends t
  | [], s, t, h => by
    simp only [MediaServer.populateChildren] at h
    cases h; exact onlyAppends_refl _
  | ip :: rest, s, t, h => by
    simp only [MediaServer.populateChildren] at h
    split at h
    · cases h
    · split at h
      · have := onlyAppends_populateChildren recurse hrec rest _ _ h
        exact onlyAppends_trans (onlyAppends_of_heap_eq rfl rfl rfl rfl) this
      · split at h
        · cases h
        · rename_i s1 hs1
          exact onlyAppends_trans (hrec _ _ _ hs1) (onlyAppends_populateChildren recurse hrec rest _ _ h)

theorem onlyAppends_populateCommand :
    ∀ (fuel : Nat) (s : MediaServer) (idx : QModelIndex) (t : MediaServer),
      MediaServer.populateCommand fuel s idx = some t → s.OnlyAppends t
  | 0, s, idx, t, h => by simp [MediaServer.populateCommand] at h
  | fuel + 1, s, idx, t, h => by
    simp only [MediaServer.populateCommand] at h
    split at h
    · cases h
    · split at h
      · cases h
        exact onlyAppends_of_heap_eq rfl rfl rfl rfl
      · split at h
        · cases h
          exact onlyAppends_trans (onlyAppends_of_heap_eq rfl rfl rfl rfl) (onlyAppends_populateIndex _ _)
        · exact onlyAppends_populateChildren _
            (fun s idx t => onlyAppends_populateCommand fuel s idx t) _ _ _ h

theorem onlyAppends_playLoop (fuel : Nat) :
    ∀ (l : QModelIndexList) (s t : MediaServer), MediaServer.playLoop fuel s l = some t →
      s.OnlyAppends t
  | [], s, t, h => by
    simp only [MediaServer.playLoop] at h
    cases h; exact onlyAppends_refl _
  | idx :: rest, s, t, h => by
    simp only [MediaServer.playLoop] at h
    split at h
    · cases h
    · rename_i s1 hs1
      exact onlyAppends_trans (onlyAppends_populateCommand fuel _ _ _ hs1)
        (onlyAppends_playLoop fuel rest _ _ h)

theorem onlyAppends_checkCommand {fuel : Nat} {s t : MediaServer}
    (h : MediaServer.checkCommand fuel s = some t) : s.OnlyAppends t := by
  unfold MediaServer.checkCommand at h
  split at h
  · split at h
    · cases h
    · split at h
      · split at h
        · cases h
        · cases h
          exact onlyAppends_of_heap_eq rfl rfl rfl rfl
      · cases h
        exact onlyAppends_of_heap_eq rfl rfl rfl rfl
  · cases h
    exact onlyAppends_refl _

theorem onlyAppends_checkCommandFor {fuel : Nat} {s t : MediaServer} {idx : QModelIndex}
    (h : MediaServer.checkCommandFor fuel s idx = some t) : s.OnlyAppends t := by
  unfold MediaServer.checkCommandFor at h
  split at h
  · simp only at h
    split at h
    · cases h
    · rename_i s2 hs2
      have h1 := onlyAppends_populateCommand fuel _ _ _ hs2
      exact onlyAppends_trans (onlyAppends_trans (onlyAppends_of_heap_eq rfl rfl rfl rfl) h1)
        (onlyAppends_checkCommand h)
  · exact onlyAppends_checkCommand h

theorem onlyAppends_play {fuel : Nat} {s t : MediaServer} {idxs : QModelIndexList} {pos : Int}
    {type : PlayType} (h : s.play fuel idxs pos type = some t) : s.OnlyAppends t := by
  unfold MediaServer.play at h
  simp only at h
  split at h
  · cases h
  · rename_i m hm
    refine onlyAppends_trans (onlyAppends_trans ?_ (onlyAppends_playLoop fuel _ _ _ hm))
      (onlyAppends_checkCommand h)
    exact onlyAppends_of_heap_eq (by split <;> rfl) (by split <;> rfl) (by split <;> rfl)
      (by split <;> rfl)

theorem onlyAppends_appendItem {s t : MediaServer} {parent1 : QModelIndex}
    {parentItem : Option Ptr} {n : Nat} {item : Item}
    (h : s.appendItem parent1 parentItem n item = some t)
    (hty : item.type ≠ ItemType.Type_Search) : s.OnlyAppends t := by
  unfold MediaServer.appendItem at h
  simp only at h
  split at h
  · cases h
    refine ⟨⟨[s.heap.length], rfl, ?_⟩, rfl, rfl, by simp [MediaServer.alloc, MediaServer.emit],
      ?_⟩
    · intro q hq
      rw [List.mem_singleton] at hq
      subst hq
      exact ⟨le_refl _, item, by simp [deref, MediaServer.alloc, MediaServer.emit], hty⟩
    · intro q it hd
      refine ⟨it, ?_, Item.keepsPlace_refl it⟩
      have := deref_alloc_old (s := s.emit (Signal.rowsInserted parent1 n n)) item hd
      exact this
  · have h1 : s.OnlyAppends (s.emit (Signal.rowsInserted parent1 n n)) :=
      onlyAppends_of_heap_eq rfl rfl rfl rfl
    exact onlyAppends_trans (onlyAppends_trans h1 (onlyAppends_alloc _ item))
      (onlyAppends_modify h (fun it => ⟨rfl, rfl, rfl, rfl, [_], rfl⟩))

theorem fixFolder_fields (folder : Item) (man : Manufacturer) :
    (fixFolder folder man).type = folder.type ∧ (fixFolder folder man).row = folder.row ∧
    (fixFolder folder man).parent = folder.parent ∧ (fixFolder folder man).id = folder.id ∧
    (fixFolder folder man).children = folder.children := by
  unfold fixFolder
  split
  · split
    · exact ⟨rfl, rfl, rfl, rfl, rfl⟩
    · split <;> exact ⟨rfl, rfl, rfl, rfl, rfl⟩
  · exact ⟨rfl, rfl, rfl, rfl, rfl⟩

theorem mkTrack_fields {s : MediaServer} {i : QByteArray} {values : Values} {p : Option Ptr}
    {r : Int} {item : Item} (h : s.mkTrack i values p r = some item) :
    item.type = ItemType.Type_MusicTrack ∧ item.row = r ∧ item.parent = p ∧ item.id = i ∧
    item.children = [] ∧ item.track = toUInt (values.value "originalTrackNumber") ∧
    item.album = values.value "album" := by
  unfold MediaServer.mkTrack at h
  simp only at h
  split at h
  · cases h
    exact ⟨rfl, rfl, rfl, rfl, rfl, rfl, rfl⟩
  · split at h
    · cases h
    · split at h
      · cases h
      · cases h
        exact ⟨rfl, rfl, rfl, rfl, rfl, rfl, rfl⟩

theorem newItem_fields {s : MediaServer} {values : Values} {id : QByteArray}
    {parentItem : Option Ptr} {row : Int} {item : Item}
    (h : s.newItem values id parentItem row = some (some item)) :
    item.type ≠ ItemType.Type_Search ∧ item.row = row ∧ item.parent = parentItem ∧
    item.id = id ∧ item.children = [] := by
  unfold MediaServer.newItem at h
  simp only at h
  have folder : ∀ (title : QString) (it : Item),
      fixFolder (Item.collection ItemType.Type_Folder title id parentItem row) s.manufacturer = it →
      it.type ≠ ItemType.Type_Search ∧ it.row = row ∧ it.parent = parentItem ∧
      it.id = id ∧ it.children = [] := by
    intro title it hit
    obtain ⟨a, b, c, d, e⟩ := fixFolder_fields
      (Item.collection ItemType.Type_Folder title id parentItem row) s.manufacturer
    rw [hit] at a b c d e
    exact ⟨by rw [a]; simp [Item.collection], b, c, d, e⟩
  split at h
  · simp only [Option.some.injEq] at h
    exact folder _ _ h
  · split at h
    · cases h; exact ⟨by simp [Item.collection, Item.mkAlbum], rfl, rfl, rfl, rfl⟩
    · split at h
      · cases h; exact ⟨by simp [Item.collection, Item.mkAlbum], rfl, rfl, rfl, rfl⟩
      · split at h
        · cases h; exact ⟨by simp [Item.collection, Item.mkAlbum], rfl, rfl, rfl, rfl⟩
        · split at h
          · simp only [Option.map_eq_some'] at h
            obtain ⟨t, ht, hitem⟩ := h
            cases hitem
            obtain ⟨a, b, c, d, e, -, -⟩ := mkTrack_fields ht
            exact ⟨by rw [a]; decide, b, c, d, e⟩
          · split at h
            · cases h; exact ⟨by simp [Item.collection, Item.mkAlbum], rfl, rfl, rfl, rfl⟩
            · split at h
              · split at h
                · split at h
                  · simp only [Option.some.injEq] at h
                    exact folder _ _ h
                  · simp only [Option.some.injEq] at h
                    exact folder _ _ h
                · cases h
              · cases h

theorem onlyAppends_browseEntry {fuel : Nat} {s t : MediaServer} {parent p1 : QModelIndex}
    {values : Values} (h : MediaServer.browseEntry fuel s parent values = some (t, p1)) :
    s.OnlyAppends t := by
  unfold MediaServer.browseEntry at h
  simp only at h
  split at h
  · split at h
    · cases h
    · split at h
      · split at h
        · split at h
          · cases h
          · split at h
            · cases h
            · cases h; exact onlyAppends_refl _
            · rename_i item hitem
              split at h
              · cases h
              · rename_i t1 ht1
                cases h
                exact onlyAppends_appendItem ht1 (newItem_fields hitem).1
        · cases h; exact onlyAppends_refl _
      · cases h; exact onlyAppends_refl _
  · cases h; exact onlyAppends_refl _

theorem onlyAppends_parseBrowseLoop (fuel : Nat) :
    ∀ (entries : List Values) (s t : MediaServer) (parent p1 : QModelIndex),
      MediaServer.parseBrowseLoop fuel s parent entries = some (t, p1) → s.OnlyAppends t
  | [], s, t, parent, p1, h => by
    simp only [MediaServer.parseBrowseLoop] at h
    cases h; exact onlyAppends_refl _
  | values :: rest, s, t, parent, p1, h => by
    simp only [MediaServer.parseBrowseLoop] at h
    split at h
    · cases h
    · rename_i s1 parent1 hs1
      exact onlyAppends_trans (onlyAppends_browseEntry hs1)
        (onlyAppends_parseBrowseLoop fuel rest _ _ _ _ h)

theorem onlyAppends_parseBrowse {fuel : Nat} {s t : MediaServer} {entries : List Values}
    (h : s.parseBrowse fuel entries = some t) : s.OnlyAppends t := by
  unfold MediaServer.parseBrowse at h
  split at h
  · cases h
  · rename_i s1 parent hs1
    exact onlyAppends_trans (onlyAppends_parseBrowseLoop fuel _ _ _ _ _ hs1) (onlyAppends_checkCommandFor h)



theorem inferAlbumArtist_isSome (s : MediaServer) (albumArtist : QString) (par : Item)
    (hgp : ∀ gp, par.parent = some gp → (s.deref gp).isSome = true) :
    ∃ a, s.inferAlbumArtist albumArtist par = some a := by
  unfold inferAlbumArtist
  split
  · split
    · exact ⟨_, rfl⟩
    · split
      · split
        · exact ⟨_, rfl⟩
        · rename_i gp hgpp
          obtain ⟨g, hg⟩ := Option.isSome_iff_exists.mp (hgp gp hgpp)
          simp only [hg]
          split <;> exact ⟨_, rfl⟩
      · exact ⟨_, rfl⟩
  · exact ⟨_, rfl⟩

theorem mkTrack_isSome (s : MediaServer) (i : QByteArray) (values : Values) (p : Option Ptr)
    (r : Int)
    (hp : ∀ pp, p = some pp → ∃ par, s.deref pp = some par ∧
      ∀ gp, par.parent = some gp → (s.deref gp).isSome = true) :
    ∃ item, s.mkTrack i values p r = some item := by
  unfold mkTrack
  simp only
  cases p with
  | none => exact ⟨_, rfl⟩
  | some pp =>
    obtain ⟨par, hpar, hgp⟩ := hp pp rfl
    simp only [hpar]
    obtain ⟨a, ha⟩ := inferAlbumArtist_isSome s (Item.musicTrack values (some pp) r).albumArtist
      par hgp
    simp only [ha]
    exact ⟨_, rfl⟩

theorem newItem_isSome (s : MediaServer) (values : Values) (id : QByteArray)
    (parentItem : Option Ptr) (row : Int) (hr : readsCount values = true)
    (hp : ∀ pp, parentItem = some pp → ∃ par, s.deref pp = some par ∧
      ∀ gp, par.parent = some gp → (s.deref gp).isSome = true) :
    ∃ item, s.newItem values id parentItem row = some (some item) := by
  unfold readsCount at hr
  unfold newItem
  simp only at hr ⊢
  split
  · exact ⟨_, rfl⟩
  · split
    · exact ⟨_, rfl⟩
    · split
      · exact ⟨_, rfl⟩
      · split
        · exact ⟨_, rfl⟩
        · split
          · obtain ⟨item, hitem⟩ := mkTrack_isSome s id values parentItem row hp
            exact ⟨item, by rw [hitem]; rfl⟩
          · split
            · exact ⟨_, rfl⟩
            · rename_i h1 h2 h3 h4 h5 h6
              simp only [h1, h2, h3, h4, h5, h6, decide_False, Bool.false_or,
                Bool.and_eq_true, decide_eq_true_eq] at hr
              rw [if_pos hr.1, if_pos hr.2]
              split <;> exact ⟨_, rfl⟩

end MediaServer

/-! ## Filing the tracks of a search result -/
namespace MediaServer

theorem sameTrack_refl (a : Item) : a.SameTrack a := ⟨rfl, rfl, rfl, rfl⟩

theorem sameTrack_trans {a b c : Item} (h1 : a.SameTrack b) (h2 : b.SameTrack c) :
    a.SameTrack c :=
  ⟨h2.1.trans h1.1, h2.2.1.trans h1.2.1, h2.2.2.1.trans h1.2.2.1, h2.2.2.2.trans h1.2.2.2⟩

theorem keepsCells_refl (C : List Ptr) (s : MediaServer) : KeepsCells C s s :=
  ⟨le_refl _, fun _ it h => ⟨it, h, sameTrack_refl it, fun _ => ⟨rfl, rfl⟩⟩⟩

theorem keepsCells_trans {C1 C2 : List Ptr} {s t u : MediaServer} (h1 : KeepsCells C1 s t)
    (h2 : KeepsCells C2 t u) : KeepsCells (C1 ++ C2) s u := by
  refine ⟨h1.1.trans h2.1, fun q it h => ?_⟩
  obtain ⟨it2, hd2, hs2, hc2⟩ := h1.2 q it h
  obtain ⟨it3, hd3, hs3, hc3⟩ := h2.2 q it2 hd2
  refine ⟨it3, hd3, sameTrack_trans hs2 hs3, fun hq => ?_⟩
  simp only [List.mem_append, not_or] at hq
  obtain ⟨a1, a2⟩ := hc2 hq.1
  obtain ⟨b1, b2⟩ := hc3 hq.2
  exact ⟨b1.trans a1, b2.trans a2⟩

theorem keepsCells_mono {C D : List Ptr} {s t : MediaServer} (h : KeepsCells C s t)
    (hsub : ∀ q ∈ C, q ∈ D) : KeepsCells D s t := by
  refine ⟨h.1, fun q it hq => ?_⟩
  obtain ⟨it2, hd2, hs2, hc2⟩ := h.2 q it hq
  exact ⟨it2, hd2, hs2, fun hn => hc2 (fun hc => hn (hsub q hc))⟩

theorem keepsCells_of_heap_eq {s t : MediaServer} (h : t.heap = s.heap) : KeepsCells [] s t := by
  refine ⟨by rw [h], fun q it hq => ⟨it, ?_, sameTrack_refl it, fun _ => ⟨rfl, rfl⟩⟩⟩
  unfold deref at hq ⊢
  rw [h]
  exact hq

theorem keepsCells_store {s : MediaServer} {p : Ptr} {it new : Item}
    (hd : s.deref p = some it) (hk : it.SameTrack new) : KeepsCells [p] s (s.store p new) := by
  refine ⟨by simp [MediaServer.store], fun q iq hq => ?_⟩
  by_cases hpq : p = q
  · subst hpq
    rw [hd] at hq
    cases hq
    exact ⟨new, deref_store_self new hd, hk, fun hn => absurd (List.mem_singleton.mpr rfl) hn⟩
  · exact ⟨iq, by rw [deref_store_ne s new hpq]; exact hq, sameTrack_refl iq,
      fun _ => ⟨rfl, rfl⟩⟩

theorem keepsCells_store_light {s : MediaServer} {p : Ptr} {it new : Item}
    (hd : s.deref p = some it) (hk : it.SameTrack new) (hc : new.children = it.children)
    (hp : new.parent = it.parent) : KeepsCells [] s (s.store p new) := by
  refine ⟨by simp [MediaServer.store], fun q iq hq => ?_⟩
  by_cases hpq : p = q
  · subst hpq
    rw [hd] at hq
    cases hq
    exact ⟨new, deref_store_self new hd, hk, fun _ => ⟨hc, hp⟩⟩
  · exact ⟨iq, by rw [deref_store_ne s new hpq]; exact hq, sameTrack_refl iq,
      fun _ => ⟨rfl, rfl⟩⟩

theorem keepsCells_alloc (s : MediaServer) (new : Item) : KeepsCells [] s (s.alloc new).2 :=
  ⟨by simp [MediaServer.alloc],
    fun _ it h => ⟨it, deref_alloc_old new h, sameTrack_refl it, fun _ => ⟨rfl, rfl⟩⟩⟩

theorem modify_of_deref {s : MediaServer} {p : Ptr} {it : Item} (f : Item → Item)
    (hd : s.deref p = some it) : s.modify p f = some (s.store p (f it)) := by
  simp [MediaServer.modify, hd]

theorem keepsCells_live {C : List Ptr} {s t : MediaServer} (h : KeepsCells C s t) {q : Ptr}
    (hq : (s.deref q).isSome = true) : (t.deref q).isSome = true := by
  obtain ⟨it, hit⟩ := Option.isSome_iff_exists.mp hq
  obtain ⟨it2, hd2, -, -⟩ := h.2 q it hit
  simp [hd2]

theorem keepsCells_trackAt {C : List Ptr} {s t : MediaServer} (h : KeepsCells C s t) {q : Ptr}
    (hq : (s.deref q).isSome = true) : t.trackAt q = s.trackAt q := by
  obtain ⟨it, hit⟩ := Option.isSome_iff_exists.mp hq
  obtain ⟨it2, hd2, hs, -⟩ := h.2 q it hit
  simp [trackAt, hd2, hit, hs.2.2.2]

theorem trackAt_of_deref {s : MediaServer} {q : Ptr} {it : Item} (h : s.deref q = some it) :
    s.trackAt q = it.track := by
  simp [trackAt, h]

theorem renumber_keeps : ∀ (l : List Ptr) (s : MediaServer) (rr : Nat),
    (∀ c ∈ l, (s.deref c).isSome = true) →
    ∃ t, renumber s l rr = some t ∧ KeepsCells [] s t
  | [], s, rr, _ => ⟨s, rfl, keepsCells_refl _ _⟩
  | c :: rest, s, rr, hl => by
    obtain ⟨it, hit⟩ := Option.isSome_iff_exists.mp (hl c (List.mem_cons_self _ _))
    have hk : KeepsCells [] s (s.store c { it with row := rr }) :=
      keepsCells_store_light hit ⟨rfl, rfl, rfl, rfl⟩ rfl rfl
    obtain ⟨t, ht, hkt⟩ := renumber_keeps rest (s.store c { it with row := rr }) (rr + 1)
      (fun d hd => keepsCells_live hk (hl d (List.mem_cons_of_mem _ hd)))
    refine ⟨t, ?_, keepsCells_trans hk hkt⟩
    simp only [renumber, modify_of_deref _ hit]
    exact ht

theorem insertRow_spec (s : MediaServer) (n : Nat) : ∀ (l : List Ptr) (r0 : Nat),
    (∀ c ∈ l, (s.deref c).isSome = true) →
    (insertRow s n l r0 = some none ∧ ∀ c ∈ l, s.trackAt c ≤ n) ∨
    ∃ k c, l[k]? = some c ∧ insertRow s n l r0 = some (some (r0 + k)) ∧
      (∀ d ∈ l.take k, s.trackAt d ≤ n) ∧ n < s.trackAt c
  | [], r0, _ => Or.inl ⟨rfl, fun c hc => by cases hc⟩
  | c :: rest, r0, hl => by
    obtain ⟨it, hit⟩ := Option.isSome_iff_exists.mp (hl c (List.mem_cons_self _ _))
    by_cases hlt : n < it.track
    · refine Or.inr ⟨0, c, by simp, ?_, fun d hd => by simp at hd, ?_⟩
      · simp [insertRow, hit, hlt]
      · rw [trackAt_of_deref hit]; exact hlt
    · have hrest := insertRow_spec s n rest (r0 + 1)
        (fun d hd => hl d (List.mem_cons_of_mem _ hd))
      have hun : insertRow s n (c :: rest) r0 = insertRow s n rest (r0 + 1) := by
        simp [insertRow, hit, hlt]
      have hc : s.trackAt c ≤ n := by rw [trackAt_of_deref hit]; omega
      rcases hrest with ⟨h1, h2⟩ | ⟨k, d, hk, h1, h2, h3⟩
      · refine Or.inl ⟨hun.trans h1, fun e he => ?_⟩
        rcases List.mem_cons.mp he with rfl | he
        · exact hc
        · exact h2 e he
      · refine Or.inr ⟨k + 1, d, by simpa using hk, ?_, ?_, h3⟩
        · rw [hun, h1]; congr 2; omega
        · intro e he
          simp only [List.take_succ_cons, List.mem_cons] at he
          rcases he with rfl | he
          · exact hc
          · exact h2 e he

theorem appendsAtEnd_spec (s : MediaServer) (n : Nat) (l : List Ptr)
    (hl : ∀ c ∈ l, (s.deref c).isSome = true) :
    (appendsAtEnd s n l = some true ∧ ∀ c, l.getLast? = some c → s.trackAt c ≤ n) ∨
    (appendsAtEnd s n l = some false ∧ ∃ c, l.getLast? = some c ∧ n < s.trackAt c) := by
  unfold appendsAtEnd
  cases hlast : l.getLast? with
  | none => exact Or.inl ⟨rfl, fun c hc => by cases hc⟩
  | some c =>
    obtain ⟨it, hit⟩ := Option.isSome_iff_exists.mp (hl c (List.mem_of_getLast?_eq_some hlast))
    simp only [hit]
    by_cases h : n ≥ it.track
    · refine Or.inl ⟨by simp [h], fun d hd => ?_⟩
      cases hd
      rw [trackAt_of_deref hit]; exact h
    · refine Or.inr ⟨by simp [h], c, rfl, ?_⟩
      rw [trackAt_of_deref hit]; omega

theorem deref_store_name {s : MediaServer} {p u : Ptr} {a ui : Item} {x : QString}
    (ha : s.deref p = some a) (h : (s.store p { a with artist := x }).deref u = some ui) :
    ∃ ui0, s.deref u = some ui0 ∧ ui0.name = ui.name := by
  by_cases hpu : p = u
  · subst hpu
    rw [deref_store_self _ ha] at h
    cases h
    exact ⟨a, ha, rfl⟩
  · rw [deref_store_ne s _ hpu] at h
    exact ⟨ui, h, rfl⟩

theorem findAlbum_spec (track : Item) : ∀ (l : List Ptr) (s : MediaServer)
    (use0 : Option (Ptr × QModelIndex)), (∀ c ∈ l, (s.deref c).isSome = true) →
    ∃ t use, findAlbum track s l use0 = some (t, use) ∧ KeepsCells [] s t ∧
      (use = none → use0 = none ∧ t = s ∧
        ∀ c ∈ l, ∀ ci, s.deref c = some ci → ¬ ci.matchesTrack track) ∧
      (∀ u ix, use = some (u, ix) →
        use = use0 ∨ (u ∈ l ∧ ∃ ui, s.deref u = some ui ∧ ui.name = track.album))
  | [], s, use0, _ =>
    ⟨s, use0, rfl, keepsCells_refl _ _, fun h => ⟨h, rfl, fun c hc => by cases hc⟩,
      fun _ _ _ => Or.inl rfl⟩
  | c :: rest, s, use0, hl => by
    obtain ⟨a, ha⟩ := Option.isSome_iff_exists.mp (hl c (List.mem_cons_self _ _))
    have hrest : ∀ d ∈ rest, (s.deref d).isSome = true :=
      fun d hd => hl d (List.mem_cons_of_mem _ hd)
    by_cases hname : a.name = track.album
    · by_cases hart : a.artist = track.artistName
      · obtain ⟨t, use, he, hk, h1, h2⟩ := findAlbum_spec track rest s
          (some (c, createIndex a.row 0 c)) hrest
        refine ⟨t, use, ?_, hk, fun hn => ?_, fun u ix hu => ?_⟩
        · simp only [findAlbum, ha]
          rw [if_pos hname, if_pos hart]
          exact he
        · exact absurd (h1 hn).1 (by simp)
        · rcases h2 u ix hu with h | ⟨hm, hui⟩
          · rw [hu] at h
            cases h
            exact Or.inr ⟨List.mem_cons_self _ _, a, ha, hname⟩
          · exact Or.inr ⟨List.mem_cons_of_mem _ hm, hui⟩
      · by_cases hva : track.albumArtist = "" ∧ a.artUrl = track.artUrl
        · have hk0 : KeepsCells [] s (s.store c { a with artist := "Various Artists" }) :=
            keepsCells_store_light ha ⟨rfl, rfl, rfl, rfl⟩ rfl rfl
          obtain ⟨t, use, he, hk, h1, h2⟩ := findAlbum_spec track rest
            (s.store c { a with artist := "Various Artists" })
            (some (c, createIndex a.row 0 c)) (fun d hd => keepsCells_live hk0 (hrest d hd))
          refine ⟨t, use, ?_, keepsCells_trans hk0 hk, fun hn => ?_, fun u ix hu => ?_⟩
          · simp only [findAlbum, ha]
            rw [if_pos hname, if_neg hart, if_pos hva]
            exact he
          · exact absurd (h1 hn).1 (by simp)
          · rcases h2 u ix hu with h | ⟨hm, ui, hui, hn⟩
            · rw [hu] at h
              cases h
              exact Or.inr ⟨List.mem_cons_self _ _, a, ha, hname⟩
            · obtain ⟨ui0, h0, hn0⟩ := deref_store_name ha hui
              exact Or.inr ⟨List.mem_cons_of_mem _ hm, ui0, h0, hn0.trans hn⟩
        · obtain ⟨t, use, he, hk, h1, h2⟩ := findAlbum_spec track rest s use0 hrest
          refine ⟨t, use, ?_, hk, fun hn => ?_, fun u ix hu => ?_⟩
          · simp only [findAlbum, ha]
            rw [if_pos hname, if_neg hart, if_neg hva]
            exact he
          · obtain ⟨e1, e2, e3⟩ := h1 hn
            refine ⟨e1, e2, fun d hd di hdi => ?_⟩
            rcases List.mem_cons.mp hd with rfl | hd
            · rw [ha] at hdi
              cases hdi
              rintro ⟨-, h | h⟩
              · exact hart h
              · exact hva h
            · exact e3 d hd di hdi
          · rcases h2 u ix hu with h | ⟨hm, hui⟩
            · exact Or.inl h
            · exact Or.inr ⟨List.mem_cons_of_mem _ hm, hui⟩
    · obtain ⟨t, use, he, hk, h1, h2⟩ := findAlbum_spec track rest s use0 hrest
      refine ⟨t, use, ?_, hk, fun hn => ?_, fun u ix hu => ?_⟩
      · simp only [findAlbum, ha]
        rw [if_neg hname]
        exact he
      · obtain ⟨e1, e2, e3⟩ := h1 hn
        refine ⟨e1, e2, fun d hd di hdi => ?_⟩
        rcases List.mem_cons.mp hd with rfl | hd
        · rw [ha] at hdi
          cases hdi
          rintro ⟨h, -⟩
          exact hname h
        · exact e3 d hd di hdi
      · rcases h2 u ix hu with h | ⟨hm, hui⟩
        · exact Or.inl h
        · exact Or.inr ⟨List.mem_cons_of_mem _ hm, hui⟩

theorem searchAlbums_spec {s : MediaServer} (track : Item) {sp : Ptr} {si : Item}
    (hsp : s.searchItem = some sp) (hsi : s.deref sp = some si)
    (hl : ∀ c ∈ si.children, (s.deref c).isSome = true) :
    ∃ t use, s.searchAlbums track = some (t, use) ∧ KeepsCells [] s t ∧
      (use = none → t = s ∧
        ∀ c ∈ si.children, ∀ ci, s.deref c = some ci → ¬ ci.matchesTrack track) ∧
      (∀ u ix, use = some (u, ix) →
        u ∈ si.children ∧ ∃ ui, s.deref u = some ui ∧ ui.name = track.album) := by
  obtain ⟨t, use, he, hk, h1, h2⟩ := findAlbum_spec track si.children s none hl
  refine ⟨t, use, ?_, hk, fun hn => (h1 hn).2, fun u ix hu => ?_⟩
  · simp only [searchAlbums, hsp, Option.some_bind, hsi]
    exact he
  · rcases h2 u ix hu with h | h
    · rw [hu] at h
      cases h
    · exact h

theorem chooseAlbum_spec {s : MediaServer} (track : Item) {sp : Ptr} {si : Item}
    (album : Option (Ptr × QModelIndex))
    (hsp : s.searchItem = some sp) (hsi : s.deref sp = some si)
    (hl : ∀ c ∈ si.children, (s.deref c).isSome = true)
    (halbum : ∀ ap ai, album = some (ap, ai) → ap ∈ si.children) :
    ∃ t use, s.chooseAlbum track album = some (t, use) ∧ KeepsCells [] s t ∧
      (use = none → t = s ∧
        ∀ c ∈ si.children, ∀ ci, s.deref c = some ci → ¬ ci.matchesTrack track) ∧
      (∀ u ix, use = some (u, ix) →
        u ∈ si.children ∧ ∃ ui, s.deref u = some ui ∧ ui.name = track.album) := by
  cases album with
  | none => exact searchAlbums_spec track hsp hsi hl
  | some x =>
    obtain ⟨ap, ai⟩ := x
    have hmem := halbum ap ai rfl
    obtain ⟨a, ha⟩ := Option.isSome_iff_exists.mp (hl ap hmem)
    by_cases hc : a.name ≠ track.album ∨ a.artist ≠ track.artistName
    · obtain ⟨t, use, he, hrest⟩ := searchAlbums_spec track hsp hsi hl
      refine ⟨t, use, ?_, hrest⟩
      simp only [chooseAlbum, ha, if_pos hc]
      exact he
    · refine ⟨s, some (ap, ai), ?_, keepsCells_refl _ _, fun hn => (by cases hn),
        fun u ix hu => ?_⟩
      · simp only [chooseAlbum, ha, if_neg hc]
      · cases hu
        refine ⟨hmem, a, ha, ?_⟩
        by_contra hne
        exact hc (Or.inl hne)

theorem newAlbum_spec {s : MediaServer} (track : Item) {sp : Ptr} {si : Item}
    (hsp : s.searchItem = some sp) (hsi : s.deref sp = some si) :
    ∃ t ix, s.newAlbum track = some (t, s.heap.length, ix) ∧ KeepsCells [sp] s t ∧
      t.deref sp = some { si with children := si.children ++ [s.heap.length] } ∧
      ∃ u, t.deref s.heap.length = some u ∧ u.name = track.album ∧ u.children = [] := by
  have hlt := deref_lt hsi
  have hne : sp ≠ s.heap.length := Nat.ne_of_lt hlt
  have hold : ((s.emit (Signal.rowsInserted (createIndex si.row 0 sp) si.children.length
      si.children.length)).alloc
      { Item.mkAlbum track.album track.artistName track.artUrl [] (some sp)
          si.children.length with state := State.State_Populating }).2.deref sp = some si :=
    deref_alloc_old _ hsi
  refine ⟨((s.emit (Signal.rowsInserted (createIndex si.row 0 sp) si.children.length
      si.children.length)).alloc
      { Item.mkAlbum track.album track.artistName track.artUrl [] (some sp)
          si.children.length with state := State.State_Populating }).2.store sp
      { si with children := si.children ++ [s.heap.length] },
    createIndex si.children.length 0 s.heap.length, ?_, ?_, ?_, ?_⟩
  · simp only [newAlbum, hsp, hsi, modify_of_deref _ hold]
    rfl
  · have h1 := keepsCells_alloc (s.emit (Signal.rowsInserted (createIndex si.row 0 sp)
      si.children.length si.children.length))
      { Item.mkAlbum track.album track.artistName track.artUrl [] (some sp)
          si.children.length with state := State.State_Populating }
    have h0 : KeepsCells [] s (s.emit (Signal.rowsInserted (createIndex si.row 0 sp)
      si.children.length si.children.length)) := keepsCells_of_heap_eq rfl
    have h2 := @keepsCells_store _ _ _ { si with children := si.children ++ [s.heap.length] }
      hold ⟨rfl, rfl, rfl, rfl⟩
    exact keepsCells_trans (keepsCells_trans h0 h1) h2
  · exact deref_store_self _ hold
  · refine ⟨{ Item.mkAlbum track.album track.artistName track.artUrl [] (some sp)
        si.children.length with state := State.State_Populating }, ?_, rfl, rfl⟩
    rw [deref_store_ne _ _ hne]
    exact deref_alloc_new _ _

theorem pairwise_le_last {l : List Ptr} {f : Ptr → Nat}
    (h : (l.map f).Pairwise (fun m n => m ≤ n)) {c : Ptr} (hc : l.getLast? = some c) :
    ∀ d ∈ l, f d ≤ f c := by
  obtain ⟨ys, rfl⟩ := List.getLast?_eq_some_iff.mp hc
  intro d hd
  rw [List.map_append, List.pairwise_append] at h
  rcases List.mem_append.mp hd with hd | hd
  · exact h.2.2 (f d) (List.mem_map_of_mem f hd) (f c) (by simp)
  · simp only [List.mem_singleton] at hd
    rw [hd]

theorem pairwise_le_drop {l : List Ptr} {f : Ptr → Nat}
    (h : (l.map f).Pairwise (fun m n => m ≤ n)) {k : Nat} {c : Ptr} (hk : l[k]? = some c) :
    ∀ d ∈ l.drop k, f c ≤ f d := by
  have hlt : k < l.length := (List.getElem?_eq_some.mp hk).1
  have hdrop : l.drop k = c :: l.drop (k + 1) := by
    rw [List.drop_eq_getElem_cons hlt]
    congr 1
    exact (List.getElem?_eq_some.mp hk).2
  have h2 : ((l.drop k).map f).Pairwise (fun m n => m ≤ n) := by
    rw [List.map_drop]
    exact h.sublist (List.drop_sublist _ _)
  rw [hdrop, List.map_cons, List.pairwise_cons] at h2
  intro d hd
  rw [hdrop] at hd
  rcases List.mem_cons.mp hd with rfl | hd
  · exact le_refl _
  · exact h2.1 (f d) (List.mem_map_of_mem f hd)

theorem appendTrack_spec {s : MediaServer} {t use : Ptr} {trk u : Item} (ui : QModelIndex)
    (count : Nat) (ht : s.deref t = some trk) (hu : s.deref use = some u) (hne : use ≠ t) :
    ∃ s4, s.appendTrack t use ui count = some s4 ∧ KeepsCells [use] s s4 ∧
      s4.deref use = some { u with children := u.children ++ [t] } ∧
      s4.deref t = some { trk with row := count } := by
  have hne2 : t ≠ use := fun h => hne h.symm
  have d2u : ((s.store t { trk with row := count }).emit
      (Signal.rowsInserted ui count count)).deref use = some u := by
    rw [deref_emit, deref_store_ne s _ hne2]
    exact hu
  refine ⟨((s.store t { trk with row := count }).emit
      (Signal.rowsInserted ui count count)).store use
      { u with children := u.children ++ [t] }, ?_, ?_, deref_store_self _ d2u, ?_⟩
  · simp only [appendTrack, modify_of_deref _ ht, modify_of_deref _ d2u]
  · have k1 : KeepsCells [] s (s.store t { trk with row := count }) :=
      keepsCells_store_light ht ⟨rfl, rfl, rfl, rfl⟩ rfl rfl
    have k2 : KeepsCells [] (s.store t { trk with row := count })
        ((s.store t { trk with row := count }).emit (Signal.rowsInserted ui count count)) :=
      keepsCells_of_heap_eq rfl
    have k3 := @keepsCells_store _ _ _ { u with children := u.children ++ [t] } d2u
      ⟨rfl, rfl, rfl, rfl⟩
    exact keepsCells_mono (keepsCells_trans (keepsCells_trans k1 k2) k3) (by simp)
  · rw [deref_store_ne _ _ hne, deref_emit]
    exact deref_store_self _ ht

theorem insertTrack_spec {s : MediaServer} {t use : Ptr} {trk u : Item} (ui : QModelIndex)
    (r : Nat) (ht : s.deref t = some trk) (hu : s.deref use = some u) (hne : use ≠ t)
    (hl : ∀ c ∈ u.children, (s.deref c).isSome = true) :
    ∃ s4 u4 t4, s.insertTrack t use ui r = some s4 ∧ KeepsCells [use] s s4 ∧
      s4.deref use = some u4 ∧ u4.children = u.children.take r ++ t :: u.children.drop r ∧
      s4.deref t = some t4 ∧ t4.parent = trk.parent := by
  have hne2 : t ≠ use := fun h => hne h.symm
  have d2u : ((s.store t { trk with row := r }).emit
      (Signal.rowsInserted ui r r)).deref use = some u := by
    rw [deref_emit, deref_store_ne s _ hne2]
    exact hu
  have k1 : KeepsCells [] s (s.store t { trk with row := r }) :=
    keepsCells_store_light ht ⟨rfl, rfl, rfl, rfl⟩ rfl rfl
  have k2 : KeepsCells [] (s.store t { trk with row := r })
      ((s.store t { trk with row := r }).emit (Signal.rowsInserted ui r r)) :=
    keepsCells_of_heap_eq rfl
  have k3 := @keepsCells_store _ _ _
    { u with children := u.children.take r ++ t :: u.children.drop r } d2u ⟨rfl, rfl, rfl, rfl⟩
  have k13 := keepsCells_trans (keepsCells_trans k1 k2) k3
  have d3u := deref_store_self
    { u with children := u.children.take r ++ t :: u.children.drop r } d2u
  have d3t : (((s.store t { trk with row := r }).emit (Signal.rowsInserted ui r r)).store use
      { u with children := u.children.take r ++ t :: u.children.drop r }).deref t =
      some { trk with row := r } := by
    rw [deref_store_ne _ _ hne, deref_emit]
    exact deref_store_self _ ht
  have hlive : ∀ c ∈ (u.children.take r ++ t :: u.children.drop r).drop (r + 1),
      ((((s.store t { trk with row := r }).emit (Signal.rowsInserted ui r r)).store use
        { u with children := u.children.take r ++ t :: u.children.drop r }).deref c).isSome
        = true := by
    intro c hc
    have hc2 := List.mem_of_mem_drop hc
    apply keepsCells_live k13
    rcases List.mem_append.mp hc2 with h | h
    · exact hl c (List.mem_of_mem_take h)
    · rcases List.mem_cons.mp h with rfl | h
      · simp [ht]
      · exact hl c (List.mem_of_mem_drop h)
  obtain ⟨s4, hren, k4⟩ := renumber_keeps _ _ (r + 1) hlive
  obtain ⟨u4, d4u, -, hu4⟩ := k4.2 use _ d3u
  obtain ⟨t4, d4t, -, ht4⟩ := k4.2 t _ d3t
  refine ⟨s4, u4, t4, ?_, keepsCells_mono (keepsCells_trans k13 k4) (by simp), d4u,
    (hu4 (by simp)).1, d4t, (ht4 (by simp)).2⟩
  simp only [insertTrack, modify_of_deref _ ht, modify_of_deref _ d2u, d3u]
  exact hren

theorem fileTrack_spec {s : MediaServer} {t use : Ptr} {trk u : Item} (ui : QModelIndex)
    (ht : s.deref t = some trk) (hu : s.deref use = some u) (hne : use ≠ t)
    (hl : ∀ c ∈ u.children, (s.deref c).isSome = true)
    (hsorted : (u.children.map s.trackAt).Pairwise (fun m n => m ≤ n)) :
    ∃ s4 l1 l2 u4 t4, s.fileTrack t use ui = some s4 ∧ KeepsCells [t, use] s s4 ∧
      u.children = l1 ++ l2 ∧ s4.deref use = some u4 ∧ u4.children = l1 ++ t :: l2 ∧
      (∀ c ∈ l1, s.trackAt c ≤ trk.track) ∧ (∀ c ∈ l2, trk.track < s.trackAt c) ∧
      s4.deref t = some t4 ∧ t4.parent = some use := by
  have hne2 : t ≠ use := fun h => hne h.symm
  have k1 : KeepsCells [t] s (s.store t { trk with parent := some use }) :=
    keepsCells_store ht ⟨rfl, rfl, rfl, rfl⟩
  have d1t := deref_store_self { trk with parent := some use } ht
  have d1u : (s.store t { trk with parent := some use }).deref use = some u := by
    rw [deref_store_ne s _ hne2]
    exact hu
  have hl1 : ∀ c ∈ u.children,
      ((s.store t { trk with parent := some use }).deref c).isSome = true :=
    fun c hc => keepsCells_live k1 (hl c hc)
  have htr : ∀ c ∈ u.children,
      (s.store t { trk with parent := some use }).trackAt c = s.trackAt c :=
    fun c hc => keepsCells_trackAt k1 (hl c hc)
  have hsorted1 : (u.children.map (s.store t { trk with parent := some use }).trackAt).Pairwise
      (fun m n => m ≤ n) := by
    rw [List.map_congr_left htr]
    exact hsorted
  rcases appendsAtEnd_spec (s.store t { trk with parent := some use }) trk.track u.children hl1
    with ⟨happ, hlast⟩ | ⟨happ, c, hc, hlt⟩
  · obtain ⟨s4, he, k4, d4u, d4t⟩ := appendTrack_spec ui u.children.length d1t d1u hne
    refine ⟨s4, u.children, [], _, _, ?_, keepsCells_mono (keepsCells_trans k1 k4) (by simp),
      by simp, d4u, rfl, ?_, by simp, d4t, rfl⟩
    · simp only [fileTrack, modify_of_deref _ ht, d1t, d1u, happ]
      exact he
    · intro d hd
      cases hlast2 : u.children.getLast? with
      | none =>
        rw [List.getLast?_eq_none_iff] at hlast2
        rw [hlast2] at hd
        cases hd
      | some c =>
        have h1 := pairwise_le_last hsorted1 hlast2 d hd
        have h2 := hlast c hlast2
        rw [htr d hd] at h1
        exact le_trans h1 h2
  · rcases insertRow_spec (s.store t { trk with parent := some use }) trk.track u.children 0 hl1
      with ⟨-, hall⟩ | ⟨k, d, hk, hins, htake, hd⟩
    · exfalso
      have := hall c (List.mem_of_getLast?_eq_some hc)
      omega
    · rw [Nat.zero_add] at hins
      obtain ⟨s4, u4, t4, he, k4, d4u, hu4, d4t, ht4⟩ := insertTrack_spec ui k d1t d1u hne hl1
      refine ⟨s4, u.children.take k, u.children.drop k, u4, t4, ?_,
        keepsCells_mono (keepsCells_trans k1 k4) (by simp),
        (List.take_append_drop k _).symm, d4u, hu4, ?_, ?_, d4t, ht4⟩
      · simp only [fileTrack, modify_of_deref _ ht, d1t, d1u, happ, hins]
        exact he
      · intro e he
        rw [← htr e (List.mem_of_mem_take he)]
        exact htake e he
      · intro e he
        have h1 := pairwise_le_drop hsorted1 hk e he
        rw [← htr e (List.mem_of_mem_drop he)]
        omega

theorem fileAndClear_spec {s : MediaServer} {t use : Ptr} {trk u : Item} (ui : QModelIndex)
    (ht : s.deref t = some trk) (hu : s.deref use = some u) (hne : use ≠ t)
    (hl : ∀ c ∈ u.children, (s.deref c).isSome = true)
    (hsorted : (u.children.map s.trackAt).Pairwise (fun m n => m ≤ n)) :
    ∃ s4 s5 l1 l2 u5 t5, s.fileTrack t use ui = some s4 ∧
      s4.modify t (fun it => { it with artUrl := "" }) = some s5 ∧
      KeepsCells [t, use] s s5 ∧ u.children = l1 ++ l2 ∧ s5.deref use = some u5 ∧
      u5.children = l1 ++ t :: l2 ∧ u5.name = u.name ∧
      (∀ c ∈ l1, s.trackAt c ≤ trk.track) ∧ (∀ c ∈ l2, trk.track < s.trackAt c) ∧
      s5.deref t = some t5 ∧ t5.parent = some use ∧ trk.SameTrack t5 := by
  obtain ⟨s4, l1, l2, u4, t4, he, k4, hch, d4u, hu4, h1, h2, d4t, ht4⟩ :=
    fileTrack_spec ui ht hu hne hl hsorted
  have k5 : KeepsCells [] s4 (s4.store t { t4 with artUrl := "" }) :=
    keepsCells_store_light d4t ⟨rfl, rfl, rfl, rfl⟩ rfl rfl
  have d5u : (s4.store t { t4 with artUrl := "" }).deref use = some u4 := by
    rw [deref_store_ne s4 _ (fun h => hne h.symm)]
    exact d4u
  obtain ⟨x, hx, hsx, -⟩ := k4.2 use u hu
  rw [d4u] at hx
  cases hx
  obtain ⟨y, hy, hsy, -⟩ := k4.2 t trk ht
  rw [d4t] at hy
  cases hy
  exact ⟨s4, s4.store t { t4 with artUrl := "" }, l1, l2, u4, { t4 with artUrl := "" }, he,
    modify_of_deref _ d4t, keepsCells_mono (keepsCells_trans k4 k5) (by simp), hch, d5u, hu4,
    hsx.2.1, h1, h2, deref_store_self _ d4t, ht4, hsy⟩

theorem deref_of_le {s : MediaServer} {p : Ptr} (h : s.heap.length ≤ p) : s.deref p = none := by
  unfold deref
  exact List.getElem?_eq_none h

theorem searchTrack_spec {s : MediaServer} (values : Values)
    (album : Option (Ptr × QModelIndex)) {sp : Ptr} {si : Item}
    (hsp : s.searchItem = some sp) (hsi : s.deref sp = some si)
    (hwf : ∀ a ∈ si.children, a ≠ sp ∧ ∃ ai, s.deref a = some ai ∧
      (∀ c ∈ ai.children, (s.deref c).isSome = true) ∧
      (ai.children.map s.trackAt).Pairwise (fun m n => m ≤ n))
    (halbum : ∀ ap ai, album = some (ap, ai) → ap ∈ si.children) :
    ∃ track t up ix, s.mkTrack [] values none 0 = some track ∧
      s.searchTrack values album = some (t, up, ix) ∧ s.FiledUnder track t up := by
  obtain ⟨track, hmk⟩ : ∃ track, s.mkTrack [] values none 0 = some track := ⟨_, rfl⟩
  have k0 := keepsCells_alloc s track
  have hsp0 : (s.alloc track).2.searchItem = some sp := hsp
  have hsi0 : (s.alloc track).2.deref sp = some si := deref_alloc_old track hsi
  have d0t : (s.alloc track).2.deref s.heap.length = some track := deref_alloc_new s track
  have hsplt : sp < s.heap.length := deref_lt hsi
  have hl : ∀ c ∈ si.children, (s.deref c).isSome = true := fun c hc => by
    obtain ⟨-, ai, h, -⟩ := hwf c hc
    simp [h]
  have hl0 : ∀ c ∈ si.children, ((s.alloc track).2.deref c).isSome = true :=
    fun c hc => keepsCells_live k0 (hl c hc)
  obtain ⟨s2, use, he2, k2, hnone, hsome⟩ := chooseAlbum_spec track album hsp0 hsi0 hl0 halbum
  have k02 := keepsCells_trans k0 k2
  cases use with
  | some x =>
    obtain ⟨u, ix⟩ := x
    obtain ⟨hmem, ai, hui0, hname⟩ := hsome u ix rfl
    obtain ⟨hnesp, ai0, hai, hlive, hsort⟩ := hwf u hmem
    rw [deref_alloc_old track hai] at hui0
    cases hui0
    have hult : u < s.heap.length := deref_lt hai
    have hne : u ≠ s.heap.length := Nat.ne_of_lt hult
    obtain ⟨u2, d2u, hsame_u, hch_u⟩ := k02.2 u ai hai
    have hu2c : u2.children = ai.children := (hch_u (by simp)).1
    obtain ⟨t2, d2t, hsame_t, -⟩ := k2.2 _ track d0t
    have hl2 : ∀ c ∈ u2.children, (s2.deref c).isSome = true := by
      rw [hu2c]
      exact fun c hc => keepsCells_live k02 (hlive c hc)
    have hsort2 : (u2.children.map s2.trackAt).Pairwise (fun m n => m ≤ n) := by
      have hm : ai.children.map s2.trackAt = ai.children.map s.trackAt :=
        List.map_congr_left (fun c hc => keepsCells_trackAt k02 (hlive c hc))
      rw [hu2c, hm]
      exact hsort
    obtain ⟨s4, s5, l1, l2, u5, t5, he4, he5, k5, hch, d5u, hu5, hn5, h1, h2, d5t, hp5, hst5⟩ :=
      fileAndClear_spec ix d2t d2u hne hl2 hsort2
    have k := keepsCells_trans k02 k5
    obtain ⟨si5, d5sp, -, hsi5⟩ := k.2 sp si hsi
    have hsi5c : si5.children = si.children :=
      (hsi5 (by
        simp only [List.nil_append, List.mem_cons, List.mem_singleton, List.not_mem_nil,
          or_false, not_or]
        exact ⟨Nat.ne_of_lt hsplt, fun h => hnesp h.symm⟩)).1
    have heq : s.searchTrack values album = some (s5, u, ix) := by
      simp only [searchTrack, hmk, he2]
      rw [show (s.alloc track).1 = s.heap.length from rfl]
      simp only [he4, he5]
    have hch2 : ai.children = l1 ++ l2 := hu2c.symm.trans hch
    have hsub1 : ∀ c ∈ l1, c ∈ ai.children := fun c hc => by
      rw [hch2]; exact List.mem_append_left _ hc
    have hsub2 : ∀ c ∈ l2, c ∈ ai.children := fun c hc => by
      rw [hch2]; exact List.mem_append_right _ hc
    refine ⟨track, s5, u, ix, hmk, heq, sp, si, si5, u5, t5, l1, l2, hsp, hsi, ?_, d5sp,
      Or.inl ⟨hsi5c, hmem⟩, d5u, ?_, hu5, ?_, ?_, ?_, ?_, d5t, hp5,
      sameTrack_trans hsame_t hst5, keepsCells_mono k (by simp)⟩
    · exact (congrArg MediaServer.searchItem (HeapAndSignalsOnly.searchTrack heq)).trans hsp
    · rw [hn5, hsame_u.2.1]
      exact hname
    · intro uu huu
      rw [hai] at huu
      cases huu
      exact hch2
    · intro hn
      rw [hai] at hn
      cases hn
    · intro c hc
      rw [← keepsCells_trackAt k02 (hlive c (hsub1 c hc)), ← hsame_t.2.2.2]
      exact h1 c hc
    · intro c hc
      rw [← keepsCells_trackAt k02 (hlive c (hsub2 c hc)), ← hsame_t.2.2.2]
      exact h2 c hc
  | none =>
    obtain ⟨hs2, hnomatch⟩ := hnone rfl
    subst hs2
    obtain ⟨s3, ix, he3, k3, d3sp, u3, d3u, hn3, hc3⟩ := newAlbum_spec track hsp0 hsi0
    have hlen : (s.alloc track).2.heap.length = s.heap.length + 1 := by simp [alloc]
    have hne : (s.alloc track).2.heap.length ≠ s.heap.length := by rw [hlen]; omega
    obtain ⟨t3, d3t, hsame_t, -⟩ := k3.2 _ track d0t
    have hl3 : ∀ c ∈ u3.children, (s3.deref c).isSome = true := by
      rw [hc3]
      exact fun c hc => by cases hc
    have hsort3 : (u3.children.map s3.trackAt).Pairwise (fun m n => m ≤ n) := by
      rw [hc3]
      exact List.Pairwise.nil
    obtain ⟨s4, s5, l1, l2, u5, t5, he4, he5, k5, hch, d5u, hu5, hn5, h1, h2, d5t, hp5, hst5⟩ :=
      fileAndClear_spec ix d3t d3u hne hl3 hsort3
    have k := keepsCells_trans (keepsCells_trans k0 k3) k5
    obtain ⟨si5, d5sp, -, hsi5⟩ := k5.2 sp _ d3sp
    have hsi5c : si5.children = si.children ++ [(s.alloc track).2.heap.length] :=
      (hsi5 (by
        simp only [List.mem_cons, List.mem_singleton, List.not_mem_nil, or_false, not_or]
        exact ⟨Nat.ne_of_lt hsplt, by
          rw [hlen]
          exact Nat.ne_of_lt (Nat.lt_succ_of_lt hsplt)⟩)).1
    have heq : s.searchTrack values album =
        some (s5, (s.alloc track).2.heap.length, ix) := by
      simp only [searchTrack, hmk, he2, he3]
      rw [show (s.alloc track).1 = s.heap.length from rfl]
      simp only [he4, he5]
    have hnil : l1 ++ l2 = [] := by rw [← hch, hc3]
    have hnone : s.deref (s.alloc track).2.heap.length = none :=
      deref_of_le (by rw [hlen]; omega)
    have hl1 : l1 = [] := (List.append_eq_nil.mp hnil).1
    have hl2 : l2 = [] := (List.append_eq_nil.mp hnil).2
    refine ⟨track, s5, _, ix, hmk, heq, sp, si, si5, u5, t5, l1, l2, hsp, hsi, ?_, d5sp,
      Or.inr ⟨hsi5c, hnone, ?_⟩, d5u, ?_, hu5, ?_, fun _ => hnil, ?_, ?_, d5t, hp5,
      sameTrack_trans hsame_t hst5, keepsCells_mono k (by simp)⟩
    · exact (congrArg MediaServer.searchItem (HeapAndSignalsOnly.searchTrack heq)).trans hsp
    · intro c hc ci hci
      exact hnomatch c hc ci (deref_alloc_old track hci)
    · rw [hn5]
      exact hn3
    · intro uu huu
      rw [hnone] at huu
      cases huu
    · intro c hc
      rw [hl1] at hc
      cases hc
    · intro c hc
      rw [hl2] at hc
      cases hc

theorem pairwise_insert {l1 l2 : List Ptr} {f : Ptr → Nat} {x : Ptr}
    (h : ((l1 ++ l2).map f).Pairwise (fun m n => m ≤ n)) (h1 : ∀ c ∈ l1, f c ≤ f x)
    (h2 : ∀ c ∈ l2, f x < f c) : ((l1 ++ x :: l2).map f).Pairwise (fun m n => m ≤ n) := by
  rw [List.map_append, List.pairwise_append] at h
  obtain ⟨p1, p2, p12⟩ := h
  rw [List.map_append, List.map_cons, List.pairwise_append, List.pairwise_cons]
  refine ⟨p1, ⟨fun b hb => ?_, p2⟩, fun a ha b hb => ?_⟩
  · obtain ⟨c, hc, rfl⟩ := List.mem_map.mp hb
    exact le_of_lt (h2 c hc)
  · obtain ⟨c, hc, rfl⟩ := List.mem_map.mp ha
    rcases List.mem_cons.mp hb with rfl | hb
    · exact h1 c hc
    · exact p12 (f c) (List.mem_map_of_mem f hc) b hb

theorem filedUnder_mem {s t : MediaServer} {track : Item} {up : Ptr}
    (h : s.FiledUnder track t up) :
    ∀ sp si, t.searchItem = some sp → t.deref sp = some si → up ∈ si.children := by
  obtain ⟨sp, si, si5, u5, t5, l1, l2, -, -, htsp, d5sp, hcase, -⟩ := h
  intro sp2 si2 h1 h2
  rw [htsp] at h1
  cases h1
  rw [d5sp] at h2
  cases h2
  rcases hcase with ⟨hc, hm⟩ | ⟨hc, -⟩
  · rw [hc]; exact hm
  · rw [hc]; simp

theorem filedUnder_sorted {s t : MediaServer} {track : Item} {up : Ptr}
    (hs : s.SearchSorted) (h : s.FiledUnder track t up) : t.SearchSorted := by
  obtain ⟨sp, si, si5, u5, t5, l1, l2, hsp, hsi, htsp, d5sp, hcase, d5u, -, hu5, hold, hnew,
    h1, h2, d5t, -, hst, k⟩ := h
  obtain ⟨sp0, si0, hsp0, hsi0, hwf⟩ := hs
  rw [hsp] at hsp0
  cases hsp0
  rw [hsi] at hsi0
  cases hsi0
  have hsplt : sp < s.heap.length := deref_lt hsi
  have htt : t.trackAt s.heap.length = track.track := by
    rw [trackAt_of_deref d5t]
    exact hst.2.2.2
  refine ⟨sp, si5, htsp, d5sp, fun a ha => ?_⟩
  by_cases hau : a = up
  · subst hau
    -- the album that received the track
    have hfacts : a ≠ sp ∧ (∀ c ∈ l1 ++ l2, (s.deref c).isSome = true) ∧
        ((l1 ++ l2).map s.trackAt).Pairwise (fun m n => m ≤ n) := by
      rcases hcase with ⟨-, hm⟩ | ⟨-, hn, -⟩
      · obtain ⟨hne, ai, hai, hlive, hsort⟩ := hwf a hm
        rw [← hold ai hai]
        exact ⟨hne, hlive, hsort⟩
      · refine ⟨fun h => ?_, ?_, ?_⟩
        · rw [h, hsi] at hn
          cases hn
        · rw [hnew hn]
          exact fun c hc => by cases hc
        · rw [hnew hn]
          exact List.Pairwise.nil
    obtain ⟨hne, hlive, hsort⟩ := hfacts
    have htr : ∀ c ∈ l1 ++ l2, t.trackAt c = s.trackAt c :=
      fun c hc => keepsCells_trackAt k (hlive c hc)
    refine ⟨hne, u5, d5u, ?_, ?_⟩
    · intro c hc
      rw [hu5] at hc
      rcases List.mem_append.mp hc with hc | hc
      · exact keepsCells_live k (hlive c (List.mem_append_left _ hc))
      · rcases List.mem_cons.mp hc with rfl | hc
        · simp [d5t]
        · exact keepsCells_live k (hlive c (List.mem_append_right _ hc))
    · rw [hu5]
      apply pairwise_insert
      · rw [List.map_congr_left htr]
        exact hsort
      · intro c hc
        rw [htt, htr c (List.mem_append_left _ hc)]
        exact h1 c hc
      · intro c hc
        rw [htt, htr c (List.mem_append_right _ hc)]
        exact h2 c hc
  · have hmem : a ∈ si.children := by
      rcases hcase with ⟨hc, -⟩ | ⟨hc, -⟩
      · rw [hc] at ha; exact ha
      · rw [hc] at ha
        rcases List.mem_append.mp ha with ha | ha
        · exact ha
        · exact absurd (List.mem_singleton.mp ha) hau
    obtain ⟨hne, ai, hai, hlive, hsort⟩ := hwf a hmem
    obtain ⟨ai2, hai2, -, hch⟩ := k.2 a ai hai
    have hnot : a ∉ [sp, s.heap.length, up] := by
      simp only [List.mem_cons, List.mem_singleton, List.not_mem_nil, or_false, not_or]
      exact ⟨hne, Nat.ne_of_lt (deref_lt hai), hau⟩
    have hc2 := (hch hnot).1
    refine ⟨hne, ai2, hai2, ?_, ?_⟩
    · rw [hc2]
      exact fun c hc => keepsCells_live k (hlive c hc)
    · have hm : ai.children.map t.trackAt = ai.children.map s.trackAt :=
        List.map_congr_left (fun c hc => keepsCells_trackAt k (hlive c hc))
      rw [hc2, hm]
      exact hsort

theorem parseSearchLoop_sorted : ∀ (entries : List Values) (s : MediaServer)
    (album : Option (Ptr × QModelIndex)), s.SearchSorted →
    (∀ ap ai, album = some (ap, ai) → ∀ sp si, s.searchItem = some sp →
      s.deref sp = some si → ap ∈ si.children) →
    ∃ t, parseSearchLoop s entries album = some t ∧ t.SearchSorted
  | [], s, _, hs, _ => ⟨s, rfl, hs⟩
  | values :: rest, s, album, hs, halbum => by
    by_cases hc : values.value "class" = "object.item.audioItem.musicTrack"
    · obtain ⟨sp, si, hsp, hsi, hwf⟩ := hs
      obtain ⟨track, t, up, ix, -, heq, hfiled⟩ := searchTrack_spec values album hsp hsi hwf
        (fun ap ai h => halbum ap ai h sp si hsp hsi)
      obtain ⟨u, hu, husorted⟩ := parseSearchLoop_sorted rest t (some (up, ix))
        (filedUnder_sorted ⟨sp, si, hsp, hsi, hwf⟩ hfiled)
        (fun ap ai h => by
          cases h
          exact filedUnder_mem hfiled)
      refine ⟨u, ?_, husorted⟩
      simp only [parseSearchLoop, if_pos hc, heq]
      exact hu
    · obtain ⟨u, hu, husorted⟩ := parseSearchLoop_sorted rest s album hs halbum
      refine ⟨u, ?_, husorted⟩
      simp only [parseSearchLoop, if_neg hc]
      exact hu

theorem search_sorted {s t : MediaServer} {text : QString} (h : s.search text = some t)
    (hne : trimmed text ≠ "") (hcur : s.currentSearch ≠ trimmed text) : t.SearchSorted := by
  unfold search at h
  simp only [if_neg hcur] at h
  split at h
  · cases h
  · rename_i s1 hs1
    have h1 := removeSearchItem_currentSearch hs1
    simp only at h1
    rw [if_pos (by rw [h1]; exact hne)] at h
    cases h
    refine ⟨s1.heap.length, Item.collection ItemType.Type_Search ("Search: " ++ s1.currentSearch)
      [] none s1.items.length, rfl, ?_, fun a ha => by cases ha⟩
    simp [searchAt, deref, send, emit, alloc]

theorem filedUnder_placed {s t : MediaServer} {track : Item} {up : Ptr}
    (hs : s.SearchSorted) (h : s.FiledUnder track t up) :
    ∃ u5 t5 l1 l2, t.deref up = some u5 ∧ t.deref s.heap.length = some t5 ∧
      track.SameTrack t5 ∧ t5.parent = some up ∧ u5.name = track.album ∧
      u5.children = l1 ++ s.heap.length :: l2 ∧
      (∀ u, s.deref up = some u → u.children = l1 ++ l2) ∧
      (s.deref up = none → l1 ++ l2 = []) ∧
      (∀ c ∈ l1, t.trackAt c ≤ t5.track) ∧ (∀ c ∈ l2, t5.track < t.trackAt c) ∧
      s.heap.length ∉ l1 ++ l2 := by
  obtain ⟨sp, si, si5, u5, t5, l1, l2, hsp, hsi, htsp, d5sp, hcase, d5u, hname, hu5, hold,
    hnew, h1, h2, d5t, hpar, hst, k⟩ := h
  obtain ⟨sp0, si0, hsp0, hsi0, hwf⟩ := hs
  rw [hsp] at hsp0
  cases hsp0
  rw [hsi] at hsi0
  cases hsi0
  have hlive : ∀ c ∈ l1 ++ l2, (s.deref c).isSome = true := by
    rcases hcase with ⟨-, hm⟩ | ⟨-, hn, -⟩
    · obtain ⟨-, ai, hai, hl, -⟩ := hwf up hm
      rw [← hold ai hai]
      exact hl
    · rw [hnew hn]
      exact fun c hc => by cases hc
  have htr : ∀ c ∈ l1 ++ l2, t.trackAt c = s.trackAt c :=
    fun c hc => keepsCells_trackAt k (hlive c hc)
  refine ⟨u5, t5, l1, l2, d5u, d5t, hst, hpar, hname, hu5, hold, hnew, ?_, ?_, ?_⟩
  · intro c hc
    rw [htr c (List.mem_append_left _ hc), hst.2.2.2]
    exact h1 c hc
  · intro c hc
    rw [htr c (List.mem_append_right _ hc), hst.2.2.2]
    exact h2 c hc
  · intro hmem
    obtain ⟨it, hit⟩ := Option.isSome_iff_exists.mp (hlive _ hmem)
    exact absurd (deref_lt hit) (Nat.lt_irrefl _)

theorem filedUnder_others {s t : MediaServer} {track : Item} {up : Ptr}
    (hs : s.SearchSorted) (h : s.FiledUnder track t up) :
    ∀ sp si5, t.searchItem = some sp → t.deref sp = some si5 →
      ∀ a ∈ si5.children, a ≠ up → ∀ ai, t.deref a = some ai → s.heap.length ∉ ai.children := by
  obtain ⟨sp, si, si5, u5, t5, l1, l2, hsp, hsi, htsp, d5sp, hcase, -, -, -, -, -, -, -, -, -,
    -, k⟩ := h
  obtain ⟨sp0, si0, hsp0, hsi0, hwf⟩ := hs
  rw [hsp] at hsp0
  cases hsp0
  rw [hsi] at hsi0
  cases hsi0
  intro sp2 si2 e1 e2 a ha hau ai2 hai2 hmem
  rw [htsp] at e1
  cases e1
  rw [d5sp] at e2
  cases e2
  have hm : a ∈ si.children := by
    rcases hcase with ⟨hc, -⟩ | ⟨hc, -⟩
    · rw [hc] at ha; exact ha
    · rw [hc] at ha
      rcases List.mem_append.mp ha with ha | ha
      · exact ha
      · exact absurd (List.mem_singleton.mp ha) hau
  obtain ⟨hne, ai, hai, hlive, -⟩ := hwf a hm
  obtain ⟨x, hx, -, hch⟩ := k.2 a ai hai
  rw [hai2] at hx
  cases hx
  have hnot : a ∉ [sp, s.heap.length, up] := by
    simp only [List.mem_cons, List.mem_singleton, List.not_mem_nil, or_false, not_or]
    exact ⟨hne, Nat.ne_of_lt (deref_lt hai), hau⟩
  rw [(hch hnot).1] at hmem
  obtain ⟨it, hit⟩ := Option.isSome_iff_exists.mp (hlive _ hmem)
  exact absurd (deref_lt hit) (Nat.lt_irrefl _)

/-- C16: search results keep the track order.  A search that is started leaves
the search results in order (there are none yet); parsing a `Search` result in
a state whose search results are in order returns, and leaves the children of
every album under the search item sorted by track number, non-decreasing; and
every single insertion does: the new track (the cell `s.heap.length`) is put
into the children `l1 ++ l2` of its album between `l1`, whose track numbers are
at most its own, and `l2`, whose track numbers are larger, so that it stands
behind the tracks with the same number. -/
theorem parseSearch_keeps_track_order :
    (∀ (s t : MediaServer) (text : QString), s.search text = some t → trimmed text ≠ "" →
      s.currentSearch ≠ trimmed text → t.SearchSorted) ∧
    (∀ (s : MediaServer) (entries : List Values), s.SearchSorted →
      ∃ t, s.parseSearch entries = some t ∧ t.SearchSorted) ∧
    (∀ (s : MediaServer) (values : Values) (album : Option (Ptr × QModelIndex)),
      s.SearchSorted →
      (∀ ap ai, album = some (ap, ai) → ∀ sp si, s.searchItem = some sp →
        s.deref sp = some si → ap ∈ si.children) →
      ∃ t up ix u5 t5 l1 l2, s.searchTrack values album = some (t, up, ix) ∧ t.SearchSorted ∧
        t.deref up = some u5 ∧ t.deref s.heap.length = some t5 ∧
        t5.track = toUInt (values.value "originalTrackNumber") ∧
        u5.children = l1 ++ s.heap.length :: l2 ∧
        (∀ u, s.deref up = some u → u.children = l1 ++ l2) ∧
        (s.deref up = none → l1 ++ l2 = []) ∧
        (∀ c ∈ l1, t.trackAt c ≤ t5.track) ∧ (∀ c ∈ l2, t5.track < t.trackAt c)) := by
  refine ⟨fun s t text h hne hcur => search_sorted h hne hcur,
    fun s entries hs => parseSearchLoop_sorted entries s none hs (fun ap ai h => by cases h),
    fun s values album hs halbum => ?_⟩
  obtain ⟨sp, si, hsp, hsi, hwf⟩ := hs
  obtain ⟨track, t, up, ix, hmk, heq, hfiled⟩ := searchTrack_spec values album hsp hsi hwf
    (fun ap ai h => halbum ap ai h sp si hsp hsi)
  have hs : s.SearchSorted := ⟨sp, si, hsp, hsi, hwf⟩
  obtain ⟨u5, t5, l1, l2, d5u, d5t, hst, -, -, hu5, hold, hnew, h1, h2, -⟩ :=
    filedUnder_placed hs hfiled
  have htrack : track.track = toUInt (values.value "originalTrackNumber") := by
    rw [← Option.some.inj hmk]
    rfl
  exact ⟨t, up, ix, u5, t5, l1, l2, heq, filedUnder_sorted hs hfiled, d5u, d5t,
    hst.2.2.2.trans htrack, hu5, hold, hnew, h1, h2⟩

/-- C17: every music track of a `Search` response is filed exactly once.  In
a state whose search results are in order, with `album` the album remembered
from the previous track of the response (an album under the search item, if
any), the loop body for a music track entry returns, and the loop goes on with
the rest of the entries; the new track (the cell `s.heap.length`) occurs once
in the children of the album `up` under the search item and in the children of
no other album under it; the name of `up` is the album name of the track and
the parent of the track is `up`; and `up` is a new album, appended as the last
one, only when no album under the search item matched the track. -/
theorem searchTrack_files_once (s : MediaServer) (values : Values)
    (album : Option (Ptr × QModelIndex)) (hs : s.SearchSorted)
    (halbum : ∀ ap ai, album = some (ap, ai) → ∀ sp si, s.searchItem = some sp →
      s.deref sp = some si → ap ∈ si.children) :
    ∃ track t up ix sp si si5 u5 t5,
      s.mkTrack [] values none 0 = some track ∧
      s.searchTrack values album = some (t, up, ix) ∧
      (∀ rest, values.value "class" = "object.item.audioItem.musicTrack" →
        parseSearchLoop s (values :: rest) album = parseSearchLoop t rest (some (up, ix))) ∧
      s.searchItem = some sp ∧ s.deref sp = some si ∧
      t.searchItem = some sp ∧ t.deref sp = some si5 ∧
      up ∈ si5.children ∧ t.deref up = some u5 ∧ u5.children.count s.heap.length = 1 ∧
      (∀ a ∈ si5.children, a ≠ up → ∀ ai, t.deref a = some ai →
        s.heap.length ∉ ai.children) ∧
      t.deref s.heap.length = some t5 ∧ t5.type = ItemType.Type_MusicTrack ∧
      t5.album = values.value "album" ∧ u5.name = t5.album ∧ t5.parent = some up ∧
      (si5.children = si.children ∨
        (si5.children = si.children ++ [up] ∧ s.deref up = none ∧
          ∀ c ∈ si.children, ∀ ci, s.deref c = some ci → ¬ ci.matchesTrack track)) := by
  obtain ⟨sp, si, hsp, hsi, hwf⟩ := hs
  obtain ⟨track, t, up, ix, hmk, heq, hfiled⟩ := searchTrack_spec values album hsp hsi hwf
    (fun ap ai h => halbum ap ai h sp si hsp hsi)
  have hs : s.SearchSorted := ⟨sp, si, hsp, hsi, hwf⟩
  obtain ⟨u5, t5, l1, l2, d5u, d5t, hst, hpar, hname, hu5, -, -, -, -, hfresh⟩ :=
    filedUnder_placed hs hfiled
  have hothers := filedUnder_others hs hfiled
  have hmem := filedUnder_mem hfiled
  obtain ⟨sp2, si2, si5, -, -, -, -, hsp2, hsi2, htsp, d5sp, hcase, -⟩ := hfiled
  rw [hsp] at hsp2
  cases hsp2
  rw [hsi] at hsi2
  cases hsi2
  have htype : track.type = ItemType.Type_MusicTrack := by
    rw [← Option.some.inj hmk]
    rfl
  have halb : track.album = values.value "album" := by
    rw [← Option.some.inj hmk]
    rfl
  refine ⟨track, t, up, ix, sp, si, si5, u5, t5, hmk, heq, ?_, hsp, hsi, htsp, d5sp,
    hmem sp si5 htsp d5sp, d5u, ?_, hothers sp si5 htsp d5sp, d5t, hst.1.trans htype,
    hst.2.2.1.trans halb, hname.trans hst.2.2.1.symm, hpar, ?_⟩
  · intro rest hc
    simp only [parseSearchLoop, if_pos hc, heq]
  · rw [hu5, List.count_append, List.count_cons_self,
      List.count_eq_zero_of_not_mem (fun h => hfresh (List.mem_append_left _ h)),
      List.count_eq_zero_of_not_mem (fun h => hfresh (List.mem_append_right _ h))]
  · rcases hcase with ⟨hc, -⟩ | ⟨hc, hn, hno⟩
    · exact Or.inl hc
    · exact Or.inr ⟨hc, hn, hno⟩

/-- Witness of C16: a search for `a` has the tracks `B` (number 2), `C`
(number 2) and `D` (number 3) in the album `Waterloo`, in this order; the
track `E` with the number 2 is then inserted behind `B` and `C`, which have
the same number, and in front of `D`. -/
theorem parseSearch_keeps_track_order_witness :
    ∃ s0 s t up ix, (MediaServer.init Manufacturer.Man_Other).search "a" = some s0 ∧
      s0.parseSearch [exampleSearchValues "B" "Waterloo" "2",
        exampleSearchValues "C" "Waterloo" "2", exampleSearchValues "D" "Waterloo" "3"] =
        some s ∧
      s.searchTrack (exampleSearchValues "E" "Waterloo" "2") none = some (t, up, ix) ∧
      s.SearchSorted ∧ t.SearchSorted ∧
      (s.deref up).map (fun u => u.children) = some [1, 3, 4] ∧
      (t.deref up).map (fun u => u.children) = some [1, 3, 5, 4] ∧
      [1, 3, 5, 4].map t.trackAt = [2, 2, 2, 3] := by
  have key : ∀ s0 s t up ix, (MediaServer.init Manufacturer.Man_Other).search "a" = some s0 →
      s0.parseSearch [exampleSearchValues "B" "Waterloo" "2",
        exampleSearchValues "C" "Waterloo" "2", exampleSearchValues "D" "Waterloo" "3"] =
        some s →
      s.searchTrack (exampleSearchValues "E" "Waterloo" "2") none = some (t, up, ix) →
      s.SearchSorted ∧ t.SearchSorted := by
    intro s0 s t up ix h0 h1 h2
    have hs0 := parseSearch_keeps_track_order.1 _ s0 "a" h0 (by decide) (by decide)
    obtain ⟨s', e1, hs⟩ := parseSearch_keeps_track_order.2.1 s0 _ hs0
    rw [h1] at e1
    cases e1
    obtain ⟨t', up', ix', _, _, _, _, e2, ht, _⟩ := parseSearch_keeps_track_order.2.2 s
      (exampleSearchValues "E" "Waterloo" "2") none hs (fun ap ai h => by cases h)
    rw [h2] at e2
    cases e2
    exact ⟨hs, ht⟩
  exact ⟨_, _, _, _, _, rfl, rfl, rfl, (key _ _ _ _ _ rfl rfl rfl).1,
    (key _ _ _ _ _ rfl rfl rfl).2, by decide, by decide, by decide⟩

/-- Witness of C17: the first music track of the first response of a search
is filed once, under a new album with the album name of the track. -/
theorem searchTrack_files_once_witness :
    ∃ s, (MediaServer.init Manufacturer.Man_Other).search "a" = some s ∧ s.SearchSorted ∧
      ∃ t up ix u5, s.searchTrack (exampleSearchValues "Waterloo" "Waterloo" "1") none =
        some (t, up, ix) ∧ t.deref up = some u5 ∧ u5.children.count s.heap.length = 1 ∧
        u5.name = "Waterloo" := by
  have key : ∀ s, (MediaServer.init Manufacturer.Man_Other).search "a" = some s →
      s.SearchSorted ∧ ∃ t up ix u5,
        s.searchTrack (exampleSearchValues "Waterloo" "Waterloo" "1") none =
          some (t, up, ix) ∧ t.deref up = some u5 ∧ u5.children.count s.heap.length = 1 ∧
          u5.name = "Waterloo" := fun s h => by
    have hs := search_sorted h (by decide) (by decide)
    refine ⟨hs, ?_⟩
    obtain ⟨track, t, up, ix, sp, si, si5, u5, t5, _, heq, _, _, _, _, _, _, d5u, hcount, _, _,
      _, halb, hname, _⟩ :=
      searchTrack_files_once s (exampleSearchValues "Waterloo" "Waterloo" "1") none hs
        (fun ap ai h => by cases h)
    exact ⟨t, up, ix, u5, heq, d5u, hcount, hname.trans (halb.trans (by decide))⟩
  exact ⟨_, rfl, key _ rfl⟩

end MediaServer

/-! ## At most one search item -/
namespace MediaServer

theorem keepsTypes_refl (s : MediaServer) : s.KeepsTypes s :=
  ⟨le_refl _, fun _ it h => ⟨it, h, rfl⟩⟩

theorem keepsTypes_trans {s t u : MediaServer} (h1 : s.KeepsTypes t) (h2 : t.KeepsTypes u) :
    s.KeepsTypes u := by
  refine ⟨h1.1.trans h2.1, fun q it h => ?_⟩
  obtain ⟨it2, hd2, ht2⟩ := h1.2 q it h
  obtain ⟨it3, hd3, ht3⟩ := h2.2 q it2 hd2
  exact ⟨it3, hd3, ht3.trans ht2⟩

theorem keepsTypes_of_heap_eq {s t : MediaServer} (h : t.heap = s.heap) : s.KeepsTypes t := by
  refine ⟨by rw [h], fun q it hq => ⟨it, ?_, rfl⟩⟩
  unfold deref at hq ⊢
  rw [h]
  exact hq

theorem keepsTypes_alloc (s : MediaServer) (new : Item) : s.KeepsTypes (s.alloc new).2 :=
  ⟨by simp [MediaServer.alloc], fun _ it h => ⟨it, deref_alloc_old new h, rfl⟩⟩

theorem keepsTypes_modify {s t : MediaServer} {p : Ptr} {f : Item → Item}
    (h : s.modify p f = some t) (hf : ∀ it : Item, (f it).type = it.type) :
    s.KeepsTypes t := by
  unfold MediaServer.modify at h
  split at h
  · cases h
  · rename_i it hd
    cases h
    refine ⟨by simp [MediaServer.store], fun q iq hq => ?_⟩
    by_cases hpq : p = q
    · subst hpq
      rw [hd] at hq
      have := Option.some.inj hq
      subst this
      exact ⟨f it, deref_store_self _ hd, hf it⟩
    · exact ⟨iq, by rw [deref_store_ne s _ hpq]; exact hq, rfl⟩

theorem keepsTypes_emit (s : MediaServer) (sig : Signal) : s.KeepsTypes (s.emit sig) :=
  keepsTypes_of_heap_eq rfl

theorem keepsTypes_of_keepsCells {C : List Ptr} {s t : MediaServer} (h : KeepsCells C s t) :
    s.KeepsTypes t := by
  refine ⟨h.1, fun q it hq => ?_⟩
  obtain ⟨it2, hd, hs, -⟩ := h.2 q it hq
  exact ⟨it2, hd, hs.1⟩

theorem keepsTypes_of_onlyAppends {s t : MediaServer} (h : s.OnlyAppends t) :
    s.KeepsTypes t := by
  refine ⟨h.2.2.2.1, fun q it hq => ?_⟩
  obtain ⟨it2, hd, hk⟩ := h.2.2.2.2 q it hq
  exact ⟨it2, hd, hk.1⟩

theorem keepsTypes_findAlbum (track : Item) :
    ∀ (children : List Ptr) (s t : MediaServer) (use r : Option (Ptr × QModelIndex)),
      MediaServer.findAlbum track s children use = some (t, r) → s.KeepsTypes t
  | [], s, t, use, r, h => by
    simp only [MediaServer.findAlbum] at h
    cases h; exact keepsTypes_refl _
  | c :: rest, s, t, use, r, h => by
    simp only [MediaServer.findAlbum] at h
    split at h
    · cases h
    · rename_i a ha
      split at h
      · split at h
        · exact keepsTypes_findAlbum track rest _ _ _ _ h
        · split at h
          · exact keepsTypes_trans
              (keepsTypes_of_keepsCells (@keepsCells_store_light s c a
                { a with artist := "Various Artists" } ha ⟨rfl, rfl, rfl, rfl⟩ rfl rfl))
              (keepsTypes_findAlbum track rest _ _ _ _ h)
          · exact keepsTypes_findAlbum track rest _ _ _ _ h
      · exact keepsTypes_findAlbum track rest _ _ _ _ h

theorem keepsTypes_renumber :
    ∀ (l : List Ptr) (s t : MediaServer) (rr : Nat),
      MediaServer.renumber s l rr = some t → s.KeepsTypes t
  | [], s, t, rr, h => by
    simp only [MediaServer.renumber] at h
    cases h; exact keepsTypes_refl _
  | c :: rest, s, t, rr, h => by
    simp only [MediaServer.renumber] at h
    split at h
    · cases h
    · rename_i s1 hs1
      exact keepsTypes_trans (keepsTypes_modify hs1 (fun _ => rfl))
        (keepsTypes_renumber rest _ _ _ h)

theorem keepsTypes_appendTrack {s t : MediaServer} {tp use : Ptr}
    {useIndex : QModelIndex} {count : Nat} (h : s.appendTrack tp use useIndex count = some t) :
    s.KeepsTypes t := by
  unfold MediaServer.appendTrack at h
  split at h
  · cases h
  · rename_i s2 hs2
    exact keepsTypes_trans (keepsTypes_modify hs2 (fun _ => rfl))
      (keepsTypes_trans (keepsTypes_emit _ _) (keepsTypes_modify h (fun _ => rfl)))

theorem keepsTypes_insertTrack {s t : MediaServer} {tp use : Ptr}
    {useIndex : QModelIndex} {r : Nat} (h : s.insertTrack tp use useIndex r = some t) :
    s.KeepsTypes t := by
  unfold MediaServer.insertTrack at h
  split at h
  · cases h
  · rename_i s2 hs2
    split at h
    · cases h
    · rename_i s4 hs4
      split at h
      · cases h
      · exact keepsTypes_trans (keepsTypes_modify hs2 (fun _ => rfl))
          (keepsTypes_trans (keepsTypes_emit _ _)
            (keepsTypes_trans (keepsTypes_modify hs4 (fun _ => rfl))
              (keepsTypes_renumber _ _ _ _ h)))

theorem keepsTypes_fileTrack {s t : MediaServer} {tp use : Ptr} {useIndex : QModelIndex}
    (h : s.fileTrack tp use useIndex = some t) : s.KeepsTypes t := by
  unfold MediaServer.fileTrack at h
  split at h
  · cases h
  · rename_i s1 hs1
    have h1 := keepsTypes_modify hs1 (fun _ => rfl)
    split at h
    · split at h
      · cases h
      · exact keepsTypes_trans h1 (keepsTypes_appendTrack h)
      · split at h
        · cases h
        · cases h; exact h1
        · exact keepsTypes_trans h1 (keepsTypes_insertTrack h)
    · cases h

theorem keepsTypes_searchAlbums {s t : MediaServer} {track : Item}
    {r : Option (Ptr × QModelIndex)} (h : s.searchAlbums track = some (t, r)) :
    s.KeepsTypes t := by
  unfold MediaServer.searchAlbums at h
  split at h
  · cases h
  · exact keepsTypes_findAlbum track _ _ _ _ _ h

theorem keepsTypes_chooseAlbum {s t : MediaServer} {track : Item}
    {album r : Option (Ptr × QModelIndex)} (h : s.chooseAlbum track album = some (t, r)) :
    s.KeepsTypes t := by
  unfold MediaServer.chooseAlbum at h
  split at h
  · exact keepsTypes_searchAlbums h
  · split at h
    · cases h
    · split at h
      · exact keepsTypes_searchAlbums h
      · cases h; exact keepsTypes_refl _

theorem keepsTypes_newAlbum {s t : MediaServer} {track : Item}
    {r : Ptr × QModelIndex} (h : s.newAlbum track = some (t, r)) :
    s.KeepsTypes t := by
  unfold MediaServer.newAlbum at h
  split at h
  · cases h
  · split at h
    · cases h
    · simp only at h
      split at h
      · cases h
      · rename_i s3 hs3
        cases h
        exact keepsTypes_trans (keepsTypes_emit _ _)
          (keepsTypes_trans (keepsTypes_alloc _ _) (keepsTypes_modify hs3 (fun _ => rfl)))

theorem keepsTypes_searchTrack {s t : MediaServer} {values : Values}
    {album : Option (Ptr × QModelIndex)} {r : Ptr × QModelIndex}
    (h : s.searchTrack values album = some (t, r)) : s.KeepsTypes t := by
  unfold MediaServer.searchTrack at h
  split at h
  · cases h
  · rename_i track _
    simp only at h
    split at h
    · cases h
    · rename_i s2 use hch
      have h1 := keepsTypes_trans (keepsTypes_alloc s track) (keepsTypes_chooseAlbum hch)
      split at h
      · cases h
      · rename_i s3 up ui hmade
        have h2 : s2.KeepsTypes s3 := by
          cases use with
          | some u => simp only at hmade; cases hmade; exact keepsTypes_refl _
          | none => exact keepsTypes_newAlbum hmade
        split at h
        · cases h
        · rename_i s4 hs4
          split at h
          · cases h
          · rename_i s5 hs5
            cases h
            exact keepsTypes_trans h1 (keepsTypes_trans h2
              (keepsTypes_trans (keepsTypes_fileTrack hs4)
                (keepsTypes_modify hs5 (fun _ => rfl))))

theorem keepsTypes_parseSearchLoop :
    ∀ (entries : List Values) (s t : MediaServer) (album : Option (Ptr × QModelIndex)),
      MediaServer.parseSearchLoop s entries album = some t → s.KeepsTypes t
  | [], s, t, album, h => by
    simp only [MediaServer.parseSearchLoop] at h
    cases h; exact keepsTypes_refl _
  | values :: rest, s, t, album, h => by
    simp only [MediaServer.parseSearchLoop] at h
    split at h
    · split at h
      · cases h
      · rename_i s1 use hs1
        exact keepsTypes_trans (keepsTypes_searchTrack hs1)
          (keepsTypes_parseSearchLoop rest _ _ _ h)
    · exact keepsTypes_parseSearchLoop rest _ _ _ h

theorem keepsTypes_markPopulated :
    ∀ (l : List Ptr) (s t : MediaServer), markPopulated s l = some t → s.KeepsTypes t
  | [], s, t, h => by
    simp only [markPopulated] at h
    cases h; exact keepsTypes_refl _
  | c :: rest, s, t, h => by
    simp only [markPopulated] at h
    split at h
    · cases h
    · rename_i s1 hs1
      exact keepsTypes_trans (keepsTypes_modify hs1 (fun _ => rfl))
        (keepsTypes_markPopulated rest _ _ h)

theorem isSearchEntry_of_keepsTypes {s t : MediaServer} (h : s.KeepsTypes t) {q : Ptr}
    (hq : (s.deref q).isSome = true) : t.isSearchEntry q = s.isSearchEntry q := by
  obtain ⟨it, hit⟩ := Option.isSome_iff_exists.mp hq
  obtain ⟨it2, hd2, ht2⟩ := h.2 q it hit
  simp [isSearchEntry, hit, hd2, ht2]

theorem keepsTypes_live {s t : MediaServer} (h : s.KeepsTypes t) {q : Ptr}
    (hq : (s.deref q).isSome = true) : (t.deref q).isSome = true := by
  obtain ⟨it, hit⟩ := Option.isSome_iff_exists.mp hq
  obtain ⟨it2, hd2, -⟩ := h.2 q it hit
  simp [hd2]

theorem oneSearchItem_of_stable {s t : MediaServer} (hs : s.OneSearchItem)
    (hk : s.KeepsTypes t) (hi : t.items = s.items) (hsi : t.searchItem = s.searchItem)
    (hc : t.currentSearch = s.currentSearch) : t.OneSearchItem := by
  obtain ⟨h1, h2, h3⟩ := hs
  refine ⟨?_, ?_, ?_⟩
  · rw [hi, hsi, ← h1]
    exact List.filter_congr (fun q hq => isSearchEntry_of_keepsTypes hk (h2 q hq))
  · rw [hi]
    exact fun q hq => keepsTypes_live hk (h2 q hq)
  · rw [hc, hsi]
    exact h3

theorem oneSearchItem_of_frame {s t : MediaServer} (hs : s.OneSearchItem)
    (hk : s.KeepsTypes t) (hf : s.HeapAndSignalsOnly t) : t.OneSearchItem :=
  oneSearchItem_of_stable hs hk (by unfold HeapAndSignalsOnly at hf; rw [hf])
    (by unfold HeapAndSignalsOnly at hf; rw [hf]) (by unfold HeapAndSignalsOnly at hf; rw [hf])

theorem oneSearchItem_of_onlyAppends {s t : MediaServer} (hs : s.OneSearchItem)
    (h : s.OnlyAppends t) : t.OneSearchItem := by
  have hk := keepsTypes_of_onlyAppends h
  obtain ⟨⟨l, hl, hnew⟩, hsi, hc, -, -⟩ := h
  obtain ⟨h1, h2, h3⟩ := hs
  have hnil : l.filter t.isSearchEntry = [] := by
    rw [List.filter_eq_nil_iff]
    intro q hq
    obtain ⟨-, it, hit, hty⟩ := hnew q hq
    simp [isSearchEntry, hit, hty]
  refine ⟨?_, ?_, ?_⟩
  · rw [hl, List.filter_append, hnil, List.append_nil, hsi, ← h1]
    exact List.filter_congr (fun q hq => isSearchEntry_of_keepsTypes hk (h2 q hq))
  · rw [hl]
    intro q hq
    rcases List.mem_append.mp hq with hq | hq
    · exact keepsTypes_live hk (h2 q hq)
    · obtain ⟨-, it, hit, -⟩ := hnew q hq
      simp [hit]
  · rw [hc, hsi]
    exact h3

theorem removeSearchItem_spec {s : MediaServer}
    (hs1 : s.items.filter s.isSearchEntry = s.searchItem.toList)
    (hs2 : ∀ q ∈ s.items, (s.deref q).isSome = true) :
    ∃ t, s.removeSearchItem = some t ∧ t.heap = s.heap ∧ t.searchItem = none ∧
      t.currentSearch = s.currentSearch ∧ t.items.filter t.isSearchEntry = [] ∧
      ∀ q ∈ t.items, (t.deref q).isSome = true := by
  cases hsi : s.searchItem with
  | none =>
    rw [hsi] at hs1
    exact ⟨s, by simp [removeSearchItem, hsi], rfl, hsi, rfl, hs1, hs2⟩
  | some p =>
    rw [hsi] at hs1
    have hp : p ∈ s.items.filter s.isSearchEntry := by rw [hs1]; simp
    obtain ⟨hpi, -⟩ := List.mem_filter.mp hp
    obtain ⟨it, hit⟩ := Option.isSome_iff_exists.mp (hs2 p hpi)
    refine ⟨{ (s.emit (Signal.rowsRemoved QModelIndex.invalid it.row it.row)) with
      items := s.items.filter (fun q => q ≠ p), searchItem := none }, ?_, rfl, rfl, rfl, ?_, ?_⟩
    · simp [removeSearchItem, hsi, hit]
    · show (s.items.filter (fun q => q ≠ p)).filter s.isSearchEntry = []
      rw [List.filter_filter]
      have : s.items.filter (fun a => s.isSearchEntry a && decide (a ≠ p)) =
          (s.items.filter s.isSearchEntry).filter (fun a => decide (a ≠ p)) := by
        rw [List.filter_filter]
        exact List.filter_congr (fun a _ => Bool.and_comm _ _)
      rw [this, hs1]
      simp
    · intro q hq
      exact hs2 q (List.mem_filter.mp hq).1

theorem search_spec {s : MediaServer} (hs : s.OneSearchItem) (text : QString) :
    ∃ t, s.search text = some t ∧ t.OneSearchItem ∧
      (trimmed text ≠ "" → trimmed text ≠ s.currentSearch →
        ∃ p, t.searchItem = some p ∧ t.items.getLast? = some p) ∧
      (trimmed text = "" → t.searchItem = none) := by
  by_cases hcur : s.currentSearch = trimmed text
  · refine ⟨s, by simp [search, hcur], hs, fun _ h => absurd hcur.symm h, fun h => ?_⟩
    exact hs.2.2 (hcur.trans h)
  · obtain ⟨h1, h2, -⟩ := hs
    obtain ⟨s1, hrem, hheap, hsi1, hcur1, hfil1, hlive1⟩ :=
      @removeSearchItem_spec { s with currentSearch := trimmed text } h1 h2
    have hcur1b : s1.currentSearch = trimmed text := hcur1
    by_cases hne : trimmed text = ""
    · refine ⟨s1, ?_, ⟨by rw [hfil1, hsi1]; rfl, hlive1, fun _ => hsi1⟩,
        fun h => absurd hne h, fun _ => hsi1⟩
      simp only [search, if_neg hcur, hrem]
      rw [if_neg (by rw [hcur1b]; exact fun h => h hne)]
    · obtain ⟨T, hT⟩ : ∃ T : MediaServer, T =
          ({ ({ ((s1.emit (Signal.rowsInserted QModelIndex.invalid s1.items.length
          s1.items.length)).alloc (Item.collection ItemType.Type_Search
            ("Search: " ++ s1.currentSearch) [] none s1.items.length)).2 with
          searchItem := some s1.heap.length,
          items := s1.items ++ [s1.heap.length] } : MediaServer).emit
            (Signal.searching true) with searchTimer := some true } : MediaServer).searchAt 0 :=
        ⟨_, rfl⟩
      have hTheap : T.heap = s1.heap ++ [Item.collection ItemType.Type_Search
          ("Search: " ++ s1.currentSearch) [] none s1.items.length] := by rw [hT]; rfl
      have hTitems : T.items = s1.items ++ [s1.heap.length] := by rw [hT]; rfl
      have hTsi : T.searchItem = some s1.heap.length := by rw [hT]; rfl
      have hTcur : T.currentSearch = s1.currentSearch := by rw [hT]; rfl
      have hk : s1.KeepsTypes T :=
        keepsTypes_trans (keepsTypes_alloc s1 (Item.collection ItemType.Type_Search
          ("Search: " ++ s1.currentSearch) [] none s1.items.length))
          (keepsTypes_of_heap_eq (by rw [hTheap]; rfl))
      have hnew : T.deref s1.heap.length = some (Item.collection ItemType.Type_Search
          ("Search: " ++ s1.currentSearch) [] none s1.items.length) := by
        unfold deref
        rw [hTheap]
        simp
      refine ⟨T, ?_, ⟨?_, ?_, ?_⟩, fun _ _ => ⟨s1.heap.length, hTsi, ?_⟩,
        fun h => absurd h hne⟩
      · simp only [search, if_neg hcur, hrem]
        rw [if_pos (by rw [hcur1b]; exact hne), hT]
        rfl
      · rw [hTitems, hTsi, List.filter_append]
        have e1 : s1.items.filter T.isSearchEntry = [] := by
          rw [← hfil1]
          exact List.filter_congr (fun q hq => isSearchEntry_of_keepsTypes hk (hlive1 q hq))
        rw [e1]
        simp [isSearchEntry, hnew, Item.collection]
      · rw [hTitems]
        intro q hq
        rcases List.mem_append.mp hq with hq | hq
        · exact keepsTypes_live hk (hlive1 q hq)
        · rw [List.mem_singleton.mp hq]
          simp [hnew]
      · intro h
        rw [hTcur, hcur1b] at h
        exact absurd h hne
      · rw [hTitems]
        simp

theorem searchResponse_oneSearchItem {s t : MediaServer} {total returned : Nat}
    (hs : s.OneSearchItem) (h : s.searchResponse total returned = some t) :
    t.OneSearchItem := by
  unfold searchResponse at h
  by_cases h0 : total = 0 ∧ returned = 0
  · rw [if_pos h0] at h
    simp only at h
    obtain ⟨s2, hrem, -, hsi, -, hfil, hlive⟩ :=
      @removeSearchItem_spec ((s.emit (Signal.searching false)).emit
        (Signal.info "No songs found!" 5)) hs.1 hs.2.1
    rw [hrem] at h
    cases h
    exact ⟨by rw [show s2.stopTimer.searchItem = s2.searchItem from rfl, hsi]; exact hfil,
      hlive, fun _ => hsi⟩
  · rw [if_neg h0] at h
    split at h
    · cases h
      exact oneSearchItem_of_stable hs (keepsTypes_of_heap_eq rfl) rfl rfl rfl
    · simp only at h
      split at h
      · cases h
      · rename_i s1 hmarked
        cases h
        have hs1 : s1.OneSearchItem := by
          split at hmarked
          · cases hmarked
            exact hs
          · split at hmarked
            · cases hmarked
            · exact oneSearchItem_of_frame hs (keepsTypes_markPopulated _ _ _ hmarked)
                (markPopulated_frame _ _ _ hmarked)
        refine oneSearchItem_of_stable hs1 (keepsTypes_of_heap_eq ?_) ?_ ?_ ?_ <;>
          (split <;> rfl)

theorem readResponse_oneSearchItem (fuel : Nat) (type : String) :
    ∀ (reader : List ResponseElement) (s t : MediaServer)
      (total returned total1 returned1 : Nat), s.OneSearchItem →
      readResponse fuel type s reader total returned = some (t, total1, returned1) →
      t.OneSearchItem
  | [], s, t, total, returned, total1, returned1, hs, h => by
    simp only [readResponse] at h
    cases h
    exact hs
  | ResponseElement.Result entries :: rest, s, t, total, returned, total1, returned1, hs, h => by
    simp only [readResponse] at h
    by_cases hb : type = "Browse"
    · rw [if_pos hb] at h
      split at h
      · cases h
      · rename_i s1 hs1
        exact readResponse_oneSearchItem fuel type rest s1 t _ _ _ _
          (oneSearchItem_of_onlyAppends hs (onlyAppends_parseBrowse hs1)) h
    · rw [if_neg hb] at h
      by_cases hse : type = "Search"
      · rw [if_pos hse] at h
        split at h
        · cases h
        · rename_i s1 hs1
          exact readResponse_oneSearchItem fuel type rest s1 t _ _ _ _
            (oneSearchItem_of_frame hs (keepsTypes_parseSearchLoop _ _ _ _ hs1)
              (HeapAndSignalsOnly.parseSearch hs1)) h
      · rw [if_neg hse] at h
        exact readResponse_oneSearchItem fuel type rest s t _ _ _ _ hs h
  | ResponseElement.NumberReturned text :: rest, s, t, total, returned, total1, returned1, hs,
      h => by
    simp only [readResponse] at h
    exact readResponse_oneSearchItem fuel type rest s t _ _ _ _ hs h
  | ResponseElement.TotalMatches text :: rest, s, t, total, returned, total1, returned1, hs,
      h => by
    simp only [readResponse] at h
    exact readResponse_oneSearchItem fuel type rest s t _ _ _ _ hs h
  | ResponseElement.SearchCaps text :: rest, s, t, total, returned, total1, returned1, hs,
      h => by
    simp only [readResponse] at h
    exact readResponse_oneSearchItem fuel type rest s t _ _ _ _ hs h

theorem commandResponse_oneSearchItem {fuel : Nat} {s t : MediaServer}
    {reader : List ResponseElement} {type : String} (hs : s.OneSearchItem)
    (h : s.commandResponse fuel reader type = some t) : t.OneSearchItem := by
  unfold commandResponse at h
  by_cases hg : type = "GetSearchCapabilities"
  · rw [if_pos hg] at h
    split at h
    · cases h
      exact oneSearchItem_of_stable hs (keepsTypes_of_heap_eq rfl) rfl rfl rfl
    · cases h
      exact hs
  · rw [if_neg hg] at h
    split at h
    · cases h
    · rename_i s1 total returned hread
      have hs1 := readResponse_oneSearchItem fuel type reader s s1 _ _ _ _ hs hread
      by_cases hse : type = "Search"
      · rw [if_pos hse] at h
        exact searchResponse_oneSearchItem hs1 h
      · rw [if_neg hse] at h
        cases h
        exact hs1

theorem playIds_oneSearchItem {fuel : Nat} {s t : MediaServer} {ids : List QByteArray}
    {row : Int} (hs : s.OneSearchItem) (h : s.playIds fuel ids row = some t) :
    t.OneSearchItem := by
  unfold playIds at h
  split at h
  · cases h
  · cases h
    exact hs
  · split at h
    · exact oneSearchItem_of_onlyAppends hs (onlyAppends_play h)
    · cases h
      exact hs

theorem populate_oneSearchItem {s : MediaServer} (hs : s.OneSearchItem) :
    s.populate.OneSearchItem := by
  unfold populate
  split
  · exact oneSearchItem_of_onlyAppends
      (oneSearchItem_of_stable hs (keepsTypes_of_heap_eq rfl) rfl rfl rfl)
      (onlyAppends_populateIndex _ _)
  · exact hs

end MediaServer

/-! ## `sortIndexes` and tree order -/

theorem Index.rowsLoop_invalid (s : MediaServer) (fuel : Nat) {x : QModelIndex}
    (hx : x.isValid = false) (acc : List Int) : Index.rowsLoop s fuel x acc = some acc := by
  cases fuel <;> simp [Index.rowsLoop, hx]

theorem Index.rowsLoop_rowPath {s : MediaServer} {x : QModelIndex} {rows : List Int}
    (h : RowPath s x rows) :
    ∀ (fuel : Nat) (acc : List Int), rows.length ≤ fuel →
      Index.rowsLoop s fuel x acc = some (rows ++ acc) := by
  induction h with
  | invalid hx =>
    intro fuel acc _
    exact Index.rowsLoop_invalid s fuel hx acc
  | @null x hx hi =>
    intro fuel acc hf
    cases fuel with
    | zero => simp at hf
    | succ f =>
      have hp : s.parent x = some QModelIndex.invalid := by
        simp [MediaServer.parent, hx, MediaServer.toItemPtr, hi]
      simp only [Index.rowsLoop, hx, if_true, hp]
      exact Index.rowsLoop_invalid s f (by decide) _
  | @top x p it hx hi hd hpar =>
    intro fuel acc hf
    cases fuel with
    | zero => simp at hf
    | succ f =>
      have hp : s.parent x = some QModelIndex.invalid := by
        simp [MediaServer.parent, hx, MediaServer.toItemPtr, hi, hd, hpar]
      simp only [Index.rowsLoop, hx, if_true, hp]
      exact Index.rowsLoop_invalid s f (by decide) _
  | @child x p pp it par rows hx hi hd hpar hdp _ ih =>
    intro fuel acc hf
    cases fuel with
    | zero => simp at hf
    | succ f =>
      have hp : s.parent x = some (createIndex par.row 0 pp) := by
        simp [MediaServer.parent, hx, MediaServer.toItemPtr, hi, hd, hpar, hdp]
      simp only [Index.rowsLoop, hx, if_true, hp]
      rw [ih f (x.r :: acc) (by simp at hf; omega)]
      simp

theorem RowPath.unique {s : MediaServer} {x : QModelIndex} {r1 r2 : List Int}
    (h1 : RowPath s x r1) (h2 : RowPath s x r2) : r1 = r2 := by
  have e1 := Index.rowsLoop_rowPath h1 (max r1.length r2.length) [] (le_max_left _ _)
  have e2 := Index.rowsLoop_rowPath h2 (max r1.length r2.length) [] (le_max_right _ _)
  rw [e1] at e2
  simpa using e2

theorem getElem?_row {s : MediaServer} {l : List Ptr} (h : s.RowsOfList l) {k : Nat} {p : Ptr}
    (hk : l[k]? = some p) : ∃ it, s.deref p = some it ∧ it.row = (k : Int) := by
  have hm : (k, p) ∈ l.enum := List.mk_mem_enum_iff_getElem?.mpr hk
  have := h (k, p) hm
  simp only [Option.map_eq_some'] at this
  obtain ⟨it, hit, hr⟩ := this
  exact ⟨it, hit, hr⟩

theorem PosPath.rowPath {s : MediaServer} (hrows : s.RowsMatch) (hpar : s.ParentsMatch)
    {l : List Ptr} {p : Ptr} {path : List Int} (h : PosPath s l p path) :
    ∀ (ctx : Option Ptr) (pre : List Int), s.RowsOfList l →
      (∀ q ∈ l, (s.deref q).map (fun it => it.parent) = some ctx) →
      (ctx = none → pre = []) →
      (∀ c, ctx = some c → ∃ itc, s.deref c = some itc ∧
        RowPath s (createIndex itc.row 0 c) pre) →
      ∃ it, s.deref p = some it ∧ RowPath s (createIndex it.row 0 p) (pre ++ path) := by
  have step : ∀ (l : List Ptr) (k : Nat) (q : Ptr) (ctx : Option Ptr) (pre : List Int),
      l[k]? = some q → s.RowsOfList l →
      (∀ q ∈ l, (s.deref q).map (fun it => it.parent) = some ctx) →
      (ctx = none → pre = []) →
      (∀ c, ctx = some c → ∃ itc, s.deref c = some itc ∧
        RowPath s (createIndex itc.row 0 c) pre) →
      ∃ it, s.deref q = some it ∧ RowPath s (createIndex it.row 0 q) (pre ++ [(k : Int)]) := by
    intro l k q ctx pre hk hl hp h0 hc
    obtain ⟨it, hit, hr⟩ := getElem?_row hl hk
    have hparent := hp q (List.getElem?_mem hk)
    rw [hit] at hparent
    simp only [Option.map_some', Option.some.injEq] at hparent
    have hv : (createIndex it.row 0 q).isValid = true :=
      createIndex_isValid (by rw [hr]; exact Int.natCast_nonneg k) q
    refine ⟨it, hit, ?_⟩
    cases ctx with
    | none =>
      rw [h0 rfl, List.nil_append]
      have := @RowPath.top s (createIndex it.row 0 q) q it hv rfl hit hparent
      rw [← hr]
      exact this
    | some c =>
      obtain ⟨itc, hitc, hrp⟩ := hc c rfl
      have := @RowPath.child s (createIndex it.row 0 q) q c it itc pre hv rfl hit hparent hitc hrp
      rw [← hr]
      exact this
  induction h with
  | @here l k p hk =>
    intro ctx pre hl hp h0 hc
    exact step l k p ctx pre hk hl hp h0 hc
  | @inside l k c p it path hk hd hcol _ ih =>
    intro ctx pre hl hp h0 hc
    obtain ⟨itc, hitc, hrp⟩ := step l k c ctx pre hk hl hp h0 hc
    rw [hd] at hitc
    cases hitc
    have hmem : it ∈ s.heap := List.getElem?_mem hd
    have hen : (c, it) ∈ s.heap.enum := List.mk_mem_enum_iff_getElem?.mpr hd
    obtain ⟨it2, hit2, hr2⟩ := ih (some c) (pre ++ [(k : Int)]) (hrows.2 it hmem hcol)
      (fun q hq => hpar.2 (c, it) hen hcol q hq) (fun h => by cases h)
      (fun c2 h2 => by cases h2; exact ⟨it, hd, hrp⟩)
    refine ⟨it2, hit2, ?_⟩
    rw [List.append_assoc] at hr2
    exact hr2

/-- C5 (amended): when every column-0 entry has a root-to-item row path of
at most `fuel` rows, `sortIndexes` returns a permutation of exactly the input
indexes whose column is 0 (same multiplicities, the others dropped), arranged
in non-decreasing lexicographic order of their root-to-item row paths; the
empty list gives the empty list.  When the stored rows are the positions
(`RowsMatch`), the parent pointers follow the tree and every column-0 entry is
the index `createIndex(item->row, 0, item)` of an item, this is depth-first
tree order: the non-decreasing lexicographic order of the position paths. -/
theorem sortIndexes_sorted_perm (fuel : Nat) (s : MediaServer) (list : QModelIndexList)
    (h : ∀ i ∈ list, i.c = 0 → ∃ rows, RowPath s i rows ∧ rows.length ≤ fuel) :
    ∃ sorted, sortIndexes fuel s list = some sorted ∧
      sorted.Perm (list.filter (fun i => decide (i.c = 0))) ∧
      sorted.Pairwise (fun x y => ∀ px py, RowPath s x px → RowPath s y py →
        ¬ List.Lex (· < ·) py px) ∧
      (list = [] → sorted = []) ∧
      (s.RowsMatch → s.ParentsMatch →
        (∀ x ∈ list, x.c = 0 → ∃ p it, s.deref p = some it ∧ x = createIndex it.row 0 p) →
        sorted.Pairwise (fun x y => ∀ p q px py, x.i = some p → y.i = some q →
          PosPath s s.items p px → PosPath s s.items q py → ¬ List.Lex (· < ·) py px)) := by
  have hctor : ∀ i ∈ list, i.c = 0 → (Index.ctor fuel s i).isSome = true := by
    intro i hi hc
    obtain ⟨rows, hr, hlen⟩ := h i hi hc
    simp [Index.ctor, Index.rowsLoop_rowPath hr fuel [] hlen]
  obtain ⟨l, hl⟩ := sortIndexes.toSort_isSome fuel s list hctor
  obtain ⟨hmap, hct⟩ := sortIndexes.toSort_spec fuel s list l hl
  have hperm : ((qSort l).map (fun a => a.idx)).Perm
      (list.filter (fun i => decide (i.c = 0))) := by
    rw [← hmap]
    exact (qSort_perm l).map _
  have hmem : ∀ x ∈ (qSort l).map (fun a => a.idx), x ∈ list ∧ x.c = 0 := by
    intro x hx
    have := hperm.mem_iff.mp hx
    simpa using this
  have hsorted : ((qSort l).map (fun a => a.idx)).Pairwise (fun x y => ∀ px py,
      RowPath s x px → RowPath s y py → ¬ List.Lex (· < ·) py px) := by
    rw [List.pairwise_map]
    refine List.Pairwise.imp_of_mem ?_ (qSort_sorted l)
    intro a b ha hb hab px py hpx hpy
    obtain ⟨-, ha2, ha3⟩ := Index.ctor_spec (hct a ((qSort_perm l).mem_iff.mp ha))
    obtain ⟨-, hb2, hb3⟩ := Index.ctor_spec (hct b ((qSort_perm l).mem_iff.mp hb))
    have hma := hmem a.idx (List.mem_map_of_mem _ ha)
    have hmb := hmem b.idx (List.mem_map_of_mem _ hb)
    obtain ⟨ra, hra, hla⟩ := h a.idx hma.1 hma.2
    obtain ⟨rb, hrb, hlb⟩ := h b.idx hmb.1 hmb.2
    have ea := Index.rowsLoop_rowPath hra fuel [] hla
    have eb := Index.rowsLoop_rowPath hrb fuel [] hlb
    rw [ha2] at ea
    rw [hb2] at eb
    simp only [List.append_nil, Option.some.injEq] at ea eb
    rw [RowPath.unique hpx hra, RowPath.unique hpy hrb, ← ea, ← eb,
      ← Index.less_iff_lex b a hb3 ha3]
    simp [hab]
  have hdepth : s.RowsMatch → s.ParentsMatch →
      (∀ x ∈ list, x.c = 0 → ∃ p it, s.deref p = some it ∧ x = createIndex it.row 0 p) →
      ((qSort l).map (fun a => a.idx)).Pairwise (fun x y => ∀ p q px py, x.i = some p →
        y.i = some q → PosPath s s.items p px → PosPath s s.items q py →
        ¬ List.Lex (· < ·) py px) := by
    intro hrows hpar hview
    refine List.Pairwise.imp_of_mem ?_ hsorted
    intro x y hx hy hxy p q px py hxp hyq hpx hpy
    have key : ∀ z ∈ (qSort l).map (fun a => a.idx), ∀ r pz, z.i = some r →
        PosPath s s.items r pz → RowPath s z pz := by
      intro z hz r pz hzr hpz
      obtain ⟨r2, it, hit, hze⟩ := hview z (hmem z hz).1 (hmem z hz).2
      rw [hze] at hzr
      cases hzr
      obtain ⟨it2, hit2, hrp⟩ := PosPath.rowPath hrows hpar hpz none [] hrows.1
        (fun q hq => hpar.1 q hq) (fun _ => rfl) (fun c hc => by cases hc)
      rw [hit] at hit2
      cases hit2
      rw [hze]
      simpa using hrp
    exact hxy px py (key x hx p px hxp hpx) (key y hy q py hyq hpy)
  unfold sortIndexes
  cases list with
  | nil =>
    refine ⟨[], by simp, by simp, by simp, fun _ => rfl, fun _ _ _ => by simp⟩
  | cons i rest =>
    refine ⟨(qSort l).map (fun a => a.idx), ?_, hperm, hsorted, fun h0 => (by cases h0), hdepth⟩
    simp [hl]

/-- Witness of C5 on the example catalog: four indexes, one of them in
column 1. -/
theorem sortIndexes_sorted_perm_witness :
    ∃ sorted, sortIndexes 3 exampleCatalog
        [createIndex 1 0 2, createIndex 0 1 1, createIndex 0 0 1, createIndex 0 0 0] =
        some sorted ∧
      sorted.Perm (([createIndex 1 0 2, createIndex 0 1 1, createIndex 0 0 1,
        createIndex 0 0 0] : QModelIndexList).filter (fun i => decide (i.c = 0))) ∧
      sorted.Pairwise (fun x y => ∀ px py, RowPath exampleCatalog x px →
        RowPath exampleCatalog y py → ¬ List.Lex (· < ·) py px) ∧
      sorted.Pairwise (fun x y => ∀ p q px py, x.i = some p → y.i = some q →
        PosPath exampleCatalog exampleCatalog.items p px →
        PosPath exampleCatalog exampleCatalog.items q py → ¬ List.Lex (· < ·) py px) := by
  have htop : RowPath exampleCatalog (createIndex 0 0 0) [0] :=
    @RowPath.top exampleCatalog (createIndex 0 0 0) 0 exampleFolder1 (by decide) rfl rfl rfl
  obtain ⟨sorted, h1, h2, h3, -, h5⟩ := sortIndexes_sorted_perm 3 exampleCatalog
    [createIndex 1 0 2, createIndex 0 1 1, createIndex 0 0 1, createIndex 0 0 0]
    (by
      intro i hi hc
      simp only [List.mem_cons, List.mem_singleton, List.not_mem_nil, or_false] at hi
      rcases hi with rfl | rfl | rfl | rfl
      · exact ⟨[0] ++ [1], @RowPath.child exampleCatalog (createIndex 1 0 2) 2 0 exampleFolder3
          exampleFolder1 [0] (by decide) rfl rfl rfl rfl htop, by decide⟩
      · exact absurd hc (by decide)
      · exact ⟨[0] ++ [0], @RowPath.child exampleCatalog (createIndex 0 0 1) 1 0 exampleTrack
          exampleFolder1 [0] (by decide) rfl rfl rfl rfl htop, by decide⟩
      · exact ⟨[0], htop, by decide⟩)
  refine ⟨sorted, h1, h2, h3, h5 (by decide) (by decide) ?_⟩
  intro x hx hc
  simp only [List.mem_cons, List.mem_singleton, List.not_mem_nil, or_false] at hx
  rcases hx with rfl | rfl | rfl | rfl
  · exact ⟨2, exampleFolder3, rfl, rfl⟩
  · exact absurd hc (by decide)
  · exact ⟨1, exampleTrack, rfl, rfl⟩
  · exact ⟨0, exampleFolder1, rfl, rfl⟩

/-- C5 as stated fails on stale rows: in the catalog `exampleStaleRows` the
track `X` of the search results stands behind the tracks `T1` and `T2` of the
folder `Music` in depth-first tree order (position paths `[1, 0, 0]` against
`[0, 0]` and `[0, 1]`), but `sortIndexes` puts it between them, because the
folder and the search item both have the stored row 1.  And the order follows
the row that an index carries, not the place of its item: on the example
catalog, whose rows are the positions, an index with row 0 for the folder `3`
is put before an index with row 1 for the track `t1`, which stands before the
folder in the tree. -/
theorem sortIndexes_not_tree_order :
    (∃ s, exampleStaleRows = some s ∧ s.items = [1, 2] ∧
      (s.deref 3).map (fun it => (it.name, it.row, it.parent)) = some ("T1", 0, some 1) ∧
      (s.deref 4).map (fun it => (it.name, it.row, it.parent)) = some ("T2", 1, some 1) ∧
      (s.deref 5).map (fun it => (it.name, it.row, it.parent)) = some ("X", 0, some 6) ∧
      sortIndexes 5 s [createIndex 1 0 4, createIndex 0 0 5, createIndex 0 0 3] =
        some [createIndex 0 0 3, createIndex 0 0 5, createIndex 1 0 4] ∧
      PosPath s s.items 4 [0, 1] ∧ PosPath s s.items 5 [1, 0, 0] ∧
      List.Lex (· < ·) ([0, 1] : List Int) [1, 0, 0]) ∧
    (exampleCatalog.RowsMatch ∧ exampleCatalog.ParentsMatch ∧
      sortIndexes 3 exampleCatalog [createIndex 1 0 1, createIndex 0 0 2] =
        some [createIndex 0 0 2, createIndex 1 0 1] ∧
      PosPath exampleCatalog exampleCatalog.items 1 [0, 0] ∧
      PosPath exampleCatalog exampleCatalog.items 2 [0, 1] ∧
      List.Lex (· < ·) ([0, 0] : List Int) [0, 1]) := by
  refine ⟨⟨_, rfl, by decide, by decide, by decide, by decide, by decide, ?_, ?_, by decide⟩,
    by decide, by decide, by decide, ?_, ?_, by decide⟩
  · exact @PosPath.inside _ _ 0 1 4 _ [1] rfl rfl (by decide) (@PosPath.here _ _ 1 4 rfl)
  · exact @PosPath.inside _ _ 1 2 5 _ [0, 0] rfl rfl (by decide)
      (@PosPath.inside _ _ 0 6 5 _ [0] rfl rfl (by decide) (@PosPath.here _ _ 0 5 rfl))
  · exact @PosPath.inside _ _ 0 0 1 _ [0] rfl rfl (by decide) (@PosPath.here _ _ 0 1 rfl)
  · exact @PosPath.inside _ _ 0 0 2 _ [1] rfl rfl (by decide) (@PosPath.here _ _ 1 2 rfl)

/-! ## Expansion before playback -/

namespace MediaServer

theorem populateIndex_command (s : MediaServer) (idx : QModelIndex) :
    (s.populateIndex idx).command = s.command := by
  unfold populateIndex
  simp only
  split
  · split <;> rfl
  · rfl

theorem populateChildren_grows
    (recurse : MediaServer → QModelIndex → Option MediaServer)
    (hrec : ∀ s idx t, recurse s idx = some t →
      ∃ a b, t.command.populated = s.command.populated ++ a ∧
        t.command.toPopulate = s.command.toPopulate ++ b ∧ (b = [] → t.heap = s.heap)) :
    ∀ (l : List Ptr) (s t : MediaServer), populateChildren recurse s l = some t →
      ∃ a b, t.command.populated = s.command.populated ++ a ∧
        t.command.toPopulate = s.command.toPopulate ++ b ∧ (b = [] → t.heap = s.heap)
  | [], s, t, h => by
    simp only [populateChildren] at h
    cases h
    exact ⟨[], [], by simp, by simp, fun _ => rfl⟩
  | ip :: rest, s, t, h => by
    simp only [populateChildren] at h
    split at h
    · cases h
    · split at h
      · obtain ⟨a, b, h1, h2, h3⟩ := populateChildren_grows recurse hrec rest _ _ h
        exact ⟨_ :: a, b, by simpa using h1, h2, h3⟩
      · split at h
        · cases h
        · rename_i s1 hs1
          obtain ⟨a1, b1, g1, g2, g3⟩ := hrec _ _ _ hs1
          obtain ⟨a, b, h1, h2, h3⟩ := populateChildren_grows recurse hrec rest _ _ h
          refine ⟨a1 ++ a, b1 ++ b, by rw [h1, g1, List.append_assoc],
            by rw [h2, g2, List.append_assoc], fun hb => ?_⟩
          have hb1 : b1 = [] := (List.append_eq_nil.mp hb).1
          have hb2 : b = [] := (List.append_eq_nil.mp hb).2
          rw [h3 hb2, g3 hb1]

theorem populateCommand_grows :
    ∀ (fuel : Nat) (s : MediaServer) (idx : QModelIndex) (t : MediaServer),
      populateCommand fuel s idx = some t →
      ∃ a b, t.command.populated = s.command.populated ++ a ∧
        t.command.toPopulate = s.command.toPopulate ++ b ∧ (b = [] → t.heap = s.heap)
  | 0, s, idx, t, h => by simp [populateCommand] at h
  | fuel + 1, s, idx, t, h => by
    simp only [populateCommand] at h
    split at h
    · cases h
    · split at h
      · cases h
        exact ⟨[idx], [], rfl, by simp, fun _ => rfl⟩
      · split at h
        · cases h
          refine ⟨[], [idx], ?_, ?_, fun hb => by cases hb⟩
          · simp [fetchMore, populateIndex_command]
          · simp [fetchMore, populateIndex_command]
        · exact populateChildren_grows _ (fun s idx t => populateCommand_grows fuel s idx t) _ _ _ h

theorem playLoop_grows (fuel : Nat) :
    ∀ (l : QModelIndexList) (s t : MediaServer), playLoop fuel s l = some t →
      ∃ a b, t.command.populated = s.command.populated ++ a ∧
        t.command.toPopulate = s.command.toPopulate ++ b ∧ (b = [] → t.heap = s.heap)
  | [], s, t, h => by
    simp only [playLoop] at h
    cases h
    exact ⟨[], [], by simp, by simp, fun _ => rfl⟩
  | idx :: rest, s, t, h => by
    simp only [playLoop] at h
    split at h
    · cases h
    · rename_i s1 hs1
      obtain ⟨a1, b1, g1, g2, g3⟩ := populateCommand_grows fuel _ _ _ hs1
      obtain ⟨a, b, h1, h2, h3⟩ := playLoop_grows fuel rest _ _ h
      refine ⟨a1 ++ a, b1 ++ b, by rw [h1, g1, List.append_assoc],
        by rw [h2, g2, List.append_assoc], fun hb => ?_⟩
      have hb1 : b1 = [] := (List.append_eq_nil.mp hb).1
      have hb2 : b = [] := (List.append_eq_nil.mp hb).2
      rw [h3 hb2, g3 hb1]

theorem isCollection_true_iff (it : Item) :
    it.isCollection = true ↔ it.type ≠ ItemType.Type_MusicTrack := by
  simp [Item.isCollection]

theorem sortIndexes_mem {fuel : Nat} {s : MediaServer} {l sorted : QModelIndexList}
    (h : sortIndexes fuel s l = some sorted) {x : QModelIndex} (hx : x ∈ l) (hc : x.c = 0) :
    x ∈ sorted := by
  unfold sortIndexes at h
  split at h
  · cases h; exact hx
  · split at h
    · cases h
    · rename_i toSort hts
      cases h
      obtain ⟨hmap, -⟩ := sortIndexes.toSort_spec fuel s l toSort hts
      have hperm : ((qSort toSort).map (fun a => a.idx)).Perm (toSort.map (fun a => a.idx)) :=
        (qSort_perm toSort).map _
      rw [hperm.mem_iff, hmap]
      simp [hx, hc]

theorem copyTracks_mem {s : MediaServer} :
    ∀ {l : QModelIndexList} {tracks : List Item}, copyTracks s l = some tracks →
      ∀ {x : QModelIndex} {q : Ptr} {it : Item}, x ∈ l → x.i = some q → s.deref q = some it →
        ∃ trk ∈ tracks, { trk with artUrl := it.artUrl } = it
  | [], _, _, x, _, _, hx, _, _ => by cases hx
  | y :: rest, tracks, h, x, q, it, hx, hi, hd => by
    simp only [copyTracks] at h
    split at h
    · cases h
    · rename_i trk htrk
      split at h
      · rename_i t l hw hl
        cases h
        rcases List.mem_cons.mp hx with rfl | hrest
        · rw [hi] at htrk
          simp only [Option.some_bind, hd] at htrk
          cases htrk
          refine ⟨t, List.mem_cons_self _ _, ?_⟩
          split at hw
          · split at hw
            · cases hw; rfl
            · split at hw
              · cases hw
              · split at hw
                · cases hw; rfl
                · cases hw; rfl
          · cases hw; rfl
        · obtain ⟨trk2, hm, he⟩ := copyTracks_mem hl hrest hi hd
          exact ⟨trk2, List.mem_cons_of_mem _ hm, he⟩
      · cases h

theorem checkCommand_emits {fuel : Nat} {m t : MediaServer} (h : checkCommand fuel m = some t)
    (hemit : t.addTracksOf ≠ m.addTracksOf) :
    ∃ sorted tracks, sortIndexes fuel m m.command.populated = some sorted ∧
      copyTracks m sorted = some tracks ∧
      t.emitted = m.emitted ++ [Signal.addTracks ⟨tracks, m.command.pos, m.command.type⟩] ∧
      t.heap = m.heap := by
  unfold checkCommand at h
  split at h
  · split at h
    · cases h
    · rename_i sorted hs
      split at h
      · split at h
        · cases h
        · rename_i tracks htr
          cases h
          exact ⟨sorted, tracks, hs, htr, rfl, rfl⟩
      · cases h
        exact absurd rfl hemit
  · cases h
    exact absurd rfl hemit

theorem walked_refl (s : MediaServer) : s.Walked s :=
  ⟨fun _ h => h, fun _ h => h, rfl, fun _ it h => ⟨it.state, h, Or.inl rfl⟩⟩

theorem walked_trans {s t u : MediaServer} (h1 : s.Walked t) (h2 : t.Walked u) :
    s.Walked u := by
  refine ⟨fun x hx => h2.1 x (h1.1 x hx), fun x hx => h2.2.1 x (h1.2.1 x hx),
    h2.2.2.1.trans h1.2.2.1, fun q it hq => ?_⟩
  obtain ⟨st1, hd1, hs1⟩ := h1.2.2.2 q it hq
  obtain ⟨st2, hd2, hs2⟩ := h2.2.2.2 q _ hd1
  refine ⟨st2, hd2, ?_⟩
  rcases hs2 with h | h
  · rcases hs1 with h' | h'
    · exact Or.inl (h.trans h')
    · exact Or.inr (h.trans h')
  · exact Or.inr h

theorem walked_of_heap_eq {s t : MediaServer} (hh : t.heap = s.heap)
    (hp : ∀ x ∈ s.command.populated, x ∈ t.command.populated)
    (hq : ∀ x ∈ s.command.toPopulate, x ∈ t.command.toPopulate) : s.Walked t := by
  refine ⟨hp, hq, by rw [hh], fun q it h => ⟨it.state, ?_, Or.inl rfl⟩⟩
  unfold deref at h ⊢
  rw [hh]
  exact h

theorem walked_populateIndex (s : MediaServer) (index : QModelIndex) :
    s.Walked (s.populateIndex index) := by
  unfold MediaServer.populateIndex
  simp only
  split
  · rename_i p it hp hit
    split
    · have hd : s.deref p = some it := by
        rw [toItem_eq] at hit
        unfold toItemPtr at hp
        split at hp
        · rw [if_pos (by assumption), hp] at hit
          exact hit
        · cases hp
      refine ⟨fun _ h => h, fun _ h => h, by simp [send, emit, store], fun q iq hq => ?_⟩
      by_cases hpq : p = q
      · subst hpq
        rw [hd] at hq
        have := Option.some.inj hq
        subst this
        exact ⟨State.State_Populating, by
          rw [deref_send, deref_emit]; exact deref_store_self _ hd, Or.inr rfl⟩
      · exact ⟨iq.state, by
          rw [deref_send, deref_emit, deref_store_ne s _ hpq]; exact hq, Or.inl rfl⟩
    · exact walked_of_heap_eq rfl (fun _ h => h) (fun _ h => h)
  · exact walked_of_heap_eq rfl (fun _ h => h) (fun _ h => h)

theorem walked_populateChildren
    (recurse : MediaServer → QModelIndex → Option MediaServer)
    (hrec : ∀ s idx t, recurse s idx = some t → s.Walked t) :
    ∀ (l : List Ptr) (s t : MediaServer), MediaServer.populateChildren recurse s l = some t →
      s.Walked t
  | [], s, t, h => by
    simp only [MediaServer.populateChildren] at h
    cases h; exact walked_refl _
  | ip :: rest, s, t, h => by
    simp only [MediaServer.populateChildren] at h
    split at h
    · cases h
    · split at h
      · have := walked_populateChildren recurse hrec rest _ _ h
        refine walked_trans ?_ this
        exact walked_of_heap_eq rfl (fun x hx => List.mem_append_left _ hx) (fun _ hx => hx)
      · split at h
        · cases h
        · rename_i s1 hs1
          exact walked_trans (hrec _ _ _ hs1) (walked_populateChildren recurse hrec rest _ _ h)

theorem walked_populateCommand :
    ∀ (fuel : Nat) (s : MediaServer) (idx : QModelIndex) (t : MediaServer),
      MediaServer.populateCommand fuel s idx = some t → s.Walked t
  | 0, s, idx, t, h => by simp [MediaServer.populateCommand] at h
  | fuel + 1, s, idx, t, h => by
    simp only [MediaServer.populateCommand] at h
    split at h
    · cases h
    · split at h
      · cases h
        exact walked_of_heap_eq rfl (fun x hx => List.mem_append_left _ hx) (fun _ hx => hx)
      · split at h
        · cases h
          show s.Walked (MediaServer.populateIndex _ idx)
          refine walked_trans ?_ (walked_populateIndex _ idx)
          exact walked_of_heap_eq rfl (fun _ hx => hx) (fun x hx => List.mem_append_left _ hx)
        · exact walked_populateChildren _
            (fun s idx t => walked_populateCommand fuel s idx t) _ _ _ h

theorem walked_playLoop (fuel : Nat) :
    ∀ (l : QModelIndexList) (s t : MediaServer), MediaServer.playLoop fuel s l = some t →
      s.Walked t
  | [], s, t, h => by
    simp only [MediaServer.playLoop] at h
    cases h; exact walked_refl _
  | idx :: rest, s, t, h => by
    simp only [MediaServer.playLoop] at h
    split at h
    · cases h
    · rename_i s1 hs1
      exact walked_trans (walked_populateCommand fuel _ _ _ hs1) (walked_playLoop fuel rest _ _ h)

theorem walked_deref_back {s t : MediaServer} (h : s.Walked t) {q : Ptr} {it2 : Item}
    (hq : t.deref q = some it2) :
    ∃ it, s.deref q = some it ∧ it2 = { it with state := it2.state } ∧
      (it2.state = it.state ∨ it2.state = State.State_Populating) := by
  have hlt : q < s.heap.length := by rw [← h.2.2.1]; exact deref_lt hq
  have hs : ∃ it, s.deref q = some it := ⟨s.heap[q], by simp [deref, hlt]⟩
  obtain ⟨it, hit⟩ := hs
  obtain ⟨st, hd, hst⟩ := h.2.2.2 q it hit
  rw [hq] at hd
  have := Option.some.inj hd
  subst this
  exact ⟨it, hit, rfl, hst⟩

theorem wellFormed_walked {s t : MediaServer} (h : s.Walked t) (hw : s.WellFormed) :
    t.WellFormed := by
  intro it2 hmem
  obtain ⟨q, hq⟩ := List.getElem?_of_mem hmem
  obtain ⟨it, hit, he, -⟩ := walked_deref_back h (q := q) hq
  have := hw it (List.getElem?_mem hit)
  rw [he, h.2.2.1]
  exact this

theorem queued_walked {s t : MediaServer} (h : s.Walked t) {q : Ptr} (hq : s.Queued q) :
    t.Queued q := by
  obtain ⟨idx, hmem, hi⟩ := hq
  exact ⟨idx, h.2.1 idx hmem, hi⟩

theorem coveredAt_walked {s t : MediaServer} (h : s.Walked t) {q : Ptr}
    (hc : s.CoveredAt q) : t.CoveredAt q := by
  intro it2 hq
  obtain ⟨it, hit, he, hst⟩ := walked_deref_back h hq
  obtain ⟨c1, c2⟩ := hc it hit
  have hcol : it2.isCollection = it.isCollection := by rw [he]; rfl
  refine ⟨fun hn => ?_, fun hy => ?_⟩
  · obtain ⟨idx, hm, hi⟩ := c1 (hcol ▸ hn)
    exact ⟨idx, h.1 idx hm, hi⟩
  · have := c2 (hcol ▸ hy)
    rcases hst with e | e
    · rw [e]; exact this
    · rw [e]; decide

/-- A path that is open in the later state was open in the earlier one. -/
theorem openIn_back {h h2 : List Item} {B B2 : Ptr → Prop} (P : Ptr → Prop)
    (hcell : ∀ c it2, P c → h2[c]? = some it2 → it2.isCollection = true → ¬ B2 c →
      ∃ it, h[c]? = some it ∧ it.isCollection = true ∧ ¬ B c ∧ it.children = it2.children ∧
        ∀ d ∈ it.children, P d) :
    ∀ {l : List Ptr} {q : Ptr}, OpenIn h2 B2 l q → (∀ c ∈ l, P c) → OpenIn h B l q ∧ P q := by
  intro l q ho
  induction ho with
  | here => exact fun hl => ⟨OpenIn.here, hl _ (List.mem_cons_self _ _)⟩
  | @inside c q rest it2 hc hcol hb _ ih =>
    intro hl
    obtain ⟨it, hit, hcol1, hb1, hch, hp⟩ := hcell c it2 (hl c (List.mem_cons_self _ _)) hc hcol hb
    obtain ⟨ho, hq⟩ := ih (by rw [← hch]; exact hp)
    exact ⟨OpenIn.inside hit hcol1 hb1 (by rw [hch]; exact ho), hq⟩
  | later _ ih =>
    intro hl
    obtain ⟨ho, hq⟩ := ih (fun c hc => hl c (List.mem_cons_of_mem _ hc))
    exact ⟨OpenIn.later ho, hq⟩

theorem openIn_walked {s t : MediaServer} (h : s.Walked t) {l : List Ptr} {q : Ptr}
    (ho : OpenIn t.heap t.Queued l q) : OpenIn s.heap s.Queued l q := by
  refine (openIn_back (fun _ => True) ?_ ho (fun _ _ => trivial)).1
  intro c it2 _ hc hcol hb
  obtain ⟨it, hit, he, -⟩ := walked_deref_back h (q := c) hc
  refine ⟨it, hit, ?_, fun hq => hb (queued_walked h hq), ?_, fun _ _ => trivial⟩
  · rw [he] at hcol; exact hcol
  · rw [he]

theorem coversList_walked {s t : MediaServer} (h : s.Walked t) {l : List Ptr}
    (hc : s.CoversList l) : t.CoversList l :=
  fun q ho => coveredAt_walked h (hc q (openIn_walked h ho))

theorem populateChildren_queue
    (recurse : MediaServer → QModelIndex → Option MediaServer)
    (hrec : ∀ s idx t, recurse s idx = some t → idx.c = 0 →
      (∀ x ∈ s.command.toPopulate, x.isValid = true ∧ x.c = 0) →
      ∀ x ∈ t.command.toPopulate, x.isValid = true ∧ x.c = 0) :
    ∀ (l : List Ptr) (s t : MediaServer), MediaServer.populateChildren recurse s l = some t →
      (∀ x ∈ s.command.toPopulate, x.isValid = true ∧ x.c = 0) →
      ∀ x ∈ t.command.toPopulate, x.isValid = true ∧ x.c = 0
  | [], s, t, h, hq => by
    simp only [MediaServer.populateChildren] at h
    cases h; exact hq
  | ip :: rest, s, t, h, hq => by
    simp only [MediaServer.populateChildren] at h
    split at h
    · cases h
    · split at h
      · exact populateChildren_queue recurse hrec rest _ _ h hq
      · split at h
        · cases h
        · rename_i s1 hs1
          exact populateChildren_queue recurse hrec rest _ _ h (hrec _ _ _ hs1 rfl hq)

theorem populateCommand_queue :
    ∀ (fuel : Nat) (s : MediaServer) (idx : QModelIndex) (t : MediaServer),
      MediaServer.populateCommand fuel s idx = some t → idx.c = 0 →
      (∀ x ∈ s.command.toPopulate, x.isValid = true ∧ x.c = 0) →
      ∀ x ∈ t.command.toPopulate, x.isValid = true ∧ x.c = 0
  | 0, s, idx, t, h, _, _ => by simp [MediaServer.populateCommand] at h
  | fuel + 1, s, idx, t, h, hc, hq => by
    simp only [MediaServer.populateCommand] at h
    split at h
    · cases h
    · split at h
      · cases h
        exact hq
      · split at h
        · rename_i hcf
          cases h
          intro x hx
          simp only [fetchMore, populateIndex_command, List.mem_append, List.mem_singleton] at hx
          rcases hx with hx | rfl
          · exact hq x hx
          · exact ⟨((canFetchMore_iff s x).mp hcf).1, hc⟩
        · exact populateChildren_queue _
            (fun s idx t => populateCommand_queue fuel s idx t) _ _ _ h hq

theorem playLoop_queue (fuel : Nat) :
    ∀ (l : QModelIndexList) (s t : MediaServer), MediaServer.playLoop fuel s l = some t →
      (∀ idx ∈ l, idx.c = 0) →
      (∀ x ∈ s.command.toPopulate, x.isValid = true ∧ x.c = 0) →
      ∀ x ∈ t.command.toPopulate, x.isValid = true ∧ x.c = 0
  | [], s, t, h, _, hq => by
    simp only [MediaServer.playLoop] at h
    cases h; exact hq
  | idx :: rest, s, t, h, hc, hq => by
    simp only [MediaServer.playLoop] at h
    split at h
    · cases h
    · rename_i s1 hs1
      exact playLoop_queue fuel rest _ _ h (fun i hi => hc i (List.mem_cons_of_mem _ hi))
        (populateCommand_queue fuel _ _ _ hs1 (hc idx (List.mem_cons_self _ _)) hq)

theorem coversList_nil (s : MediaServer) : s.CoversList [] := by
  intro q ho
  cases ho

theorem coversList_cons {s : MediaServer} {c : Ptr} {rest : List Ptr}
    (h1 : s.CoversList [c]) (h2 : s.CoversList rest) : s.CoversList (c :: rest) := by
  intro q ho
  cases ho with
  | here => exact h1 c OpenIn.here
  | inside hc hcol hb hin => exact h1 q (OpenIn.inside hc hcol hb hin)
  | later hl => exact h2 q hl

/-- A track covers its one-item list when an index of it in column 0 is in
`command.populated`. -/
theorem coversList_track {s : MediaServer} {c : Ptr} {itc : Item} {x : QModelIndex}
    (hd : s.deref c = some itc) (hty : itc.type = ItemType.Type_MusicTrack)
    (hx : x ∈ s.command.populated) (hi : x.i = some c) (hc : x.c = 0) : s.CoversList [c] := by
  intro q ho
  have hqc : q = c := by
    cases ho with
    | here => rfl
    | inside hc2 hcol _ _ =>
      have : s.deref c = some _ := hc2
      rw [hd] at this
      cases this
      rw [isCollection_true_iff] at hcol
      exact absurd hty hcol
    | later hl => cases hl
  subst hqc
  intro it hit
  rw [hd] at hit
  cases hit
  refine ⟨fun _ => ⟨x, hx, hi, hc⟩, fun hcol => ?_⟩
  rw [isCollection_true_iff] at hcol
  exact absurd hty hcol

theorem populateChildren_covers (fuel : Nat)
    (ih : ∀ (s : MediaServer) (idx : QModelIndex) (t : MediaServer) (p : Ptr),
      MediaServer.populateCommand fuel s idx = some t → s.WellFormed → idx.isValid = true →
      idx.c = 0 → idx.i = some p → t.CoversList [p]) :
    ∀ (l : List Ptr) (s t : MediaServer),
      MediaServer.populateChildren (MediaServer.populateCommand fuel) s l = some t →
      s.WellFormed → t.CoversList l
  | [], s, t, _, _ => coversList_nil t
  | c :: rest, s, t, h, hw => by
    have hall := h
    simp only [MediaServer.populateChildren] at h
    split at h
    · cases h
    · rename_i itc hdc
      split at h
      · rename_i hty
        have hwalk := walked_populateChildren _
          (fun s idx t => walked_populateCommand fuel s idx t) rest _ _ h
        have hrest := populateChildren_covers fuel ih rest _ t h hw
        obtain ⟨st, hdt, -⟩ := hwalk.2.2.2 c itc hdc
        exact coversList_cons (coversList_track (x := createIndex itc.row 0 c) hdt hty
          (hwalk.1 _ (by simp)) rfl rfl) hrest
      · split at h
        · cases h
        · rename_i s1 hs1
          have hwalk1 := walked_populateCommand fuel _ _ _ hs1
          have hwalk := walked_populateChildren _
            (fun s idx t => walked_populateCommand fuel s idx t) rest _ _ h
          have hv : (createIndex itc.row 0 c).isValid = true :=
            createIndex_isValid (hw itc (List.getElem?_mem hdc)).1 c
          have h1 := ih s _ s1 c hs1 hw hv rfl rfl
          exact coversList_cons (coversList_walked hwalk h1)
            (populateChildren_covers fuel ih rest s1 t h (wellFormed_walked hwalk1 hw))

theorem populateCommand_covers :
    ∀ (fuel : Nat) (s : MediaServer) (idx : QModelIndex) (t : MediaServer) (p : Ptr),
      MediaServer.populateCommand fuel s idx = some t → s.WellFormed → idx.isValid = true →
      idx.c = 0 → idx.i = some p → t.CoversList [p]
  | 0, s, idx, t, p, h, _, _, _, _ => by simp [MediaServer.populateCommand] at h
  | fuel + 1, s, idx, t, p, h, hw, hv, hc, hi => by
    have hall := h
    simp only [MediaServer.populateCommand, hi, Option.some_bind] at h
    split at h
    · cases h
    · rename_i item hdp
      split at h
      · rename_i hty
        cases h
        exact coversList_track (x := idx) (s := { s with command := _ }) hdp hty (by simp) hi hc
      · rename_i hty
        have hcol : item.isCollection = true := (isCollection_true_iff _).mpr hty
        split at h
        · cases h
          intro q ho
          have hqd : Queued (MediaServer.fetchMore
              { s with command := { s.command with toPopulate := s.command.toPopulate ++ [idx] } }
              idx) p :=
            ⟨idx, by simp [fetchMore, populateIndex_command], hi⟩
          cases ho with
          | here =>
            intro it hit
            have := populateIndex_state
              { s with command := { s.command with toPopulate := s.command.toPopulate ++ [idx] } }
              idx p item hv hi hdp hcol
            rw [show MediaServer.fetchMore _ idx = MediaServer.populateIndex _ idx from rfl,
              this] at hit
            cases hit
            refine ⟨fun hn => ?_, fun _ => by simp⟩
            have hn2 : item.isCollection = false := hn
            rw [hcol] at hn2
            cases hn2
          | inside _ _ hb _ => exact absurd hqd hb
          | later hl => cases hl
        · rename_i hcf
          have hst : item.state ≠ State.State_Initial := by
            intro hs0
            exact hcf ((canFetchMore_iff s idx).mpr ⟨hv, p, item, hi, hdp, hcol, hs0⟩)
          have hwalk := walked_populateChildren _
            (fun s idx t => walked_populateCommand fuel s idx t) _ _ _ h
          obtain ⟨st, hdt, hstt⟩ := hwalk.2.2.2 p item hdp
          have hch := populateChildren_covers fuel
            (fun s idx t p => populateCommand_covers fuel s idx t p) item.children s t h hw
          intro q ho
          cases ho with
          | here =>
            intro it hit
            rw [hdt] at hit
            cases hit
            refine ⟨fun hn => ?_, fun _ => ?_⟩
            · have hn2 : item.isCollection = false := hn
              rw [hcol] at hn2
              cases hn2
            · show st ≠ State.State_Initial
              rcases hstt with e | e
              · rw [e]; exact hst
              · rw [e]; decide
          | inside hc2 _ _ hin =>
            have : t.deref p = some _ := hc2
            rw [hdt] at this
            cases this
            exact hch q hin
          | later hl => cases hl

theorem playLoop_covers (fuel : Nat) :
    ∀ (l : QModelIndexList) (s t : MediaServer), MediaServer.playLoop fuel s l = some t →
      s.WellFormed → (∀ idx ∈ l, idx.isValid = true ∧ idx.c = 0) →
      ∀ idx ∈ l, ∀ p, idx.i = some p → p < t.heap.length ∧ t.CoversList [p]
  | [], s, t, _, _, _ => fun idx hidx => by cases hidx
  | i :: rest, s, t, h, hw, hv => by
    simp only [MediaServer.playLoop] at h
    split at h
    · cases h
    · rename_i s1 hs1
      have hwalk1 := walked_populateCommand fuel _ _ _ hs1
      have hwalk := walked_playLoop fuel rest _ _ h
      have hrest := playLoop_covers fuel rest s1 t h (wellFormed_walked hwalk1 hw)
        (fun idx hidx => hv idx (List.mem_cons_of_mem _ hidx))
      intro idx hidx p hip
      rcases List.mem_cons.mp hidx with rfl | hr
      · have hc := populateCommand_covers fuel s idx s1 p hs1 hw
          (hv idx (List.mem_cons_self _ _)).1 (hv idx (List.mem_cons_self _ _)).2 hip
        refine ⟨?_, coversList_walked hwalk hc⟩
        cases fuel with
        | zero => simp [MediaServer.populateCommand] at hs1
        | succ f =>
          simp only [MediaServer.populateCommand, hip, Option.some_bind] at hs1
          split at hs1
          · cases hs1
          · rename_i item hdp
            rw [hwalk.2.2.1, hwalk1.2.2.1]
            exact deref_lt hdp
      · exact hrest idx hr p hip

theorem grown_refl (s : MediaServer) : s.Grown s :=
  ⟨rfl, le_refl _, fun q it h => ⟨[], by simpa using h, fun c hc => by cases hc⟩,
    fun q it hq h => absurd (deref_lt h) (Nat.not_lt.mpr hq)⟩

theorem grown_trans {s t u : MediaServer} (h1 : s.Grown t) (h2 : t.Grown u) : s.Grown u := by
  obtain ⟨c1, l1, o1, n1⟩ := h1
  obtain ⟨c2, l2, o2, n2⟩ := h2
  refine ⟨c2.trans c1, le_trans l1 l2, fun q it hq => ?_, fun q it hq hd => ?_⟩
  · obtain ⟨a, ha, hla⟩ := o1 q it hq
    obtain ⟨b, hb, hlb⟩ := o2 q _ ha
    refine ⟨a ++ b, by rw [hb]; simp, fun c hc => ?_⟩
    rcases List.mem_append.mp hc with h | h
    · exact lt_of_lt_of_le (hla c h) l2
    · exact hlb c h
  · by_cases hqt : q < t.heap.length
    · have ht : ∃ it0, t.deref q = some it0 := ⟨t.heap[q], by simp [deref, hqt]⟩
      obtain ⟨it0, hit0⟩ := ht
      obtain ⟨r0, k0⟩ := n1 q it0 hq hit0
      obtain ⟨b, hb, hlb⟩ := o2 q it0 hit0
      rw [hd] at hb
      cases hb
      refine ⟨r0, fun c hc => ?_⟩
      rcases List.mem_append.mp hc with h | h
      · exact lt_of_lt_of_le (k0 c h) l2
      · exact hlb c h
    · exact n2 q it (Nat.le_of_not_lt hqt) hd

theorem grown_appendItem {s t : MediaServer} {parent1 : QModelIndex}
    {parentItem : Option Ptr} {n : Nat} {item : Item}
    (h : s.appendItem parent1 parentItem n item = some t)
    (hrow : 0 ≤ item.row) (hch : item.children = []) : s.Grown t := by
  unfold MediaServer.appendItem at h
  simp only at h
  split at h
  · cases h
    refine ⟨rfl, by simp [alloc, emit], fun q it hq => ⟨[], ?_, fun c hc => by cases hc⟩,
      fun q it hq hd => ?_⟩
    · have := deref_alloc_old (s := s.emit (Signal.rowsInserted parent1 n n)) item hq
      simpa using this
    · have hlt := deref_lt hd
      have hq2 : q = s.heap.length := by
        simp only [alloc, emit, List.length_append, List.length_singleton] at hlt
        exact Nat.le_antisymm (Nat.le_of_lt_succ hlt) hq
      subst hq2
      have hnew := deref_alloc_new (s.emit (Signal.rowsInserted parent1 n n)) item
      have hd2 : ((s.emit (Signal.rowsInserted parent1 n n)).alloc item).2.deref s.heap.length
          = some it := hd
      rw [show ((s.emit (Signal.rowsInserted parent1 n n)).alloc item).1 = s.heap.length
        from rfl, hd2] at hnew
      cases hnew
      exact ⟨hrow, fun c hc => by rw [hch] at hc; cases hc⟩
  · rename_i pp
    unfold MediaServer.modify at h
    split at h
    · cases h
    · rename_i itp hdp
      cases h
      have hlen : (((s.emit (Signal.rowsInserted parent1 n n)).alloc item).2.store pp
          { itp with children := itp.children ++
            [((s.emit (Signal.rowsInserted parent1 n n)).alloc item).1] }).heap.length
          = s.heap.length + 1 := by
        simp [store, alloc, emit]
      refine ⟨rfl, by rw [hlen]; exact Nat.le_succ _, fun q it hq => ?_, fun q it hq hd => ?_⟩
      · have hold := deref_alloc_old (s := s.emit (Signal.rowsInserted parent1 n n)) item hq
        by_cases hpq : pp = q
        · subst hpq
          rw [hdp] at hold
          cases hold
          refine ⟨[s.heap.length], deref_store_self _ hdp, fun c hc => ?_⟩
          rw [List.mem_singleton] at hc
          rw [hc, hlen]
          exact Nat.lt_succ_self _
        · refine ⟨[], ?_, fun c hc => by cases hc⟩
          rw [deref_store_ne _ _ hpq, hold]
          simp
      · have hlt := deref_lt hd
        rw [hlen] at hlt
        have hq2 : q = s.heap.length := Nat.le_antisymm (Nat.le_of_lt_succ hlt) hq
        subst hq2
        have hnew := deref_alloc_new (s.emit (Signal.rowsInserted parent1 n n)) item
        rw [show ((s.emit (Signal.rowsInserted parent1 n n)).alloc item).1 = s.heap.length
          from rfl] at hnew
        by_cases hpq : pp = s.heap.length
        · subst hpq
          rw [hdp] at hnew
          cases hnew
          rw [deref_store_self _ hdp] at hd
          cases hd
          refine ⟨hrow, fun c hc => ?_⟩
          simp only [hch, List.nil_append, List.mem_singleton] at hc
          rw [hc, hlen]
          exact Nat.lt_succ_self _
        · rw [deref_store_ne _ _ hpq, hnew] at hd
          cases hd
          exact ⟨hrow, fun c hc => by rw [hch] at hc; cases hc⟩

theorem grown_browseEntry {fuel : Nat} {s t : MediaServer} {parent p1 : QModelIndex}
    {values : Values} (h : MediaServer.browseEntry fuel s parent values = some (t, p1)) :
    s.Grown t := by
  unfold MediaServer.browseEntry at h
  simp only at h
  split at h
  · split at h
    · cases h
    · split at h
      · split at h
        · split at h
          · cases h
          · split at h
            · cases h
            · cases h; exact grown_refl _
            · rename_i item hitem
              split at h
              · cases h
              · rename_i t1 ht1
                cases h
                obtain ⟨-, hr, -, -, hc⟩ := newItem_fields hitem
                exact grown_appendItem ht1 (by rw [hr]; exact Int.ofNat_nonneg _) hc
        · cases h; exact grown_refl _
      · cases h; exact grown_refl _
  · cases h; exact grown_refl _

theorem grown_parseBrowseLoop (fuel : Nat) :
    ∀ (entries : List Values) (s t : MediaServer) (parent p1 : QModelIndex),
      MediaServer.parseBrowseLoop fuel s parent entries = some (t, p1) → s.Grown t
  | [], s, t, parent, p1, h => by
    simp only [MediaServer.parseBrowseLoop] at h
    cases h; exact grown_refl _
  | values :: rest, s, t, parent, p1, h => by
    simp only [MediaServer.parseBrowseLoop] at h
    split at h
    · cases h
    · rename_i s1 parent1 hs1
      exact grown_trans (grown_browseEntry hs1) (grown_parseBrowseLoop fuel rest _ _ _ _ h)

theorem wellFormed_grown {s t : MediaServer} (h : s.Grown t) (hw : s.WellFormed) :
    t.WellFormed := by
  obtain ⟨-, hl, ho, hn⟩ := h
  intro it2 hmem
  obtain ⟨q, hq⟩ := List.getElem?_of_mem hmem
  have hq2 : t.deref q = some it2 := hq
  by_cases hqs : q < s.heap.length
  · have hs : ∃ it, s.deref q = some it := ⟨s.heap[q], by simp [deref, hqs]⟩
    obtain ⟨it, hit⟩ := hs
    obtain ⟨l, hd, hlive⟩ := ho q it hit
    rw [hq2] at hd
    cases hd
    obtain ⟨r, k⟩ := hw it (List.getElem?_mem hit)
    refine ⟨r, fun c hc => ?_⟩
    rcases List.mem_append.mp hc with h | h
    · exact lt_of_lt_of_le (k c h) hl
    · exact hlive c h
  · exact hn q it2 (Nat.le_of_not_lt hqs) hq2

/-- A path that avoids `B` avoids `E` as well, or passes an item of `E`. -/
theorem openIn_split {h : List Item} {B : Ptr → Prop} (E : Ptr → Prop) :
    ∀ {l : List Ptr} {q : Ptr}, OpenIn h B l q →
      OpenIn h (fun c => B c ∨ E c) l q ∨ ∃ X, E X ∧ OpenIn h B [X] q := by
  intro l q ho
  induction ho with
  | here => exact Or.inl OpenIn.here
  | @inside c q rest it hc hcol hb hin ih =>
    by_cases hE : E c
    · exact Or.inr ⟨c, hE, OpenIn.inside hc hcol hb hin⟩
    · rcases ih with h1 | h2
      · exact Or.inl (OpenIn.inside hc hcol (fun hbe => hbe.elim hb hE) h1)
      · exact Or.inr h2
  | later _ ih =>
    rcases ih with h1 | h2
    · exact Or.inl (OpenIn.later h1)
    · exact Or.inr h2

theorem openIn_of_inForest {h : List Item} {B : Ptr → Prop} (hB : ∀ c, ¬ B c) :
    ∀ {l : List Ptr} {q : Ptr}, InForest h l q → OpenIn h B l q := by
  intro l q hf
  induction hf with
  | here => exact OpenIn.here
  | inside hc hcol _ ih => exact OpenIn.inside hc hcol (hB _) ih
  | later _ ih => exact OpenIn.later ih

theorem inForest_of_mem {h : List Item} : ∀ {l : List Ptr} {d : Ptr}, d ∈ l → InForest h l d
  | c :: rest, d, hd => by
    rcases List.mem_cons.mp hd with rfl | hr
    · exact InForest.here
    · exact InForest.later (inForest_of_mem hr)

theorem inForest_trans {h : List Item} {l : List Ptr} {c q : Ptr} {it : Item}
    (hf : InForest h l c) (hc : h[c]? = some it) (hcol : it.isCollection = true)
    (hq : InForest h it.children q) : InForest h l q := by
  induction hf with
  | here => exact InForest.inside hc hcol hq
  | inside hc2 hcol2 _ ih => exact InForest.inside hc2 hcol2 (ih hc)
  | later _ ih => exact InForest.later (ih hc)

/-- One step of a run keeps the subtree of `p` covered: the items of `s` keep
their kind and leave `State_Initial` at most, `command.populated` only grows, an
item that is no longer waited for is in `E`, the subtrees of the items in `E`
are covered, and the items of the subtree that are not waited for keep their
children. -/
theorem coversList_step {s u : MediaServer} {p : Ptr} (E : Ptr → Prop)
    (hw : s.WellFormed) (hp : p < s.heap.length)
    (hcell : ∀ c it, s.deref c = some it → ∃ it2, u.deref c = some it2 ∧
      it2.isCollection = it.isCollection ∧
      (it2.state = it.state ∨ it2.state = State.State_Populating))
    (hpop : ∀ x ∈ s.command.populated, x ∈ u.command.populated)
    (hq : ∀ c, s.Queued c → u.Queued c ∨ E c)
    (hch : ∀ c it, s.deref c = some it → InForest s.heap [p] c → ¬ s.Queued c →
      (u.deref c).map (fun i => i.children) = some it.children)
    (hE : ∀ c, E c → u.CoversList [c])
    (hs : s.CoversList [p]) : u.CoversList [p] := by
  intro q ho
  rcases openIn_split E ho with h1 | ⟨X, hX, h2⟩
  · have back := openIn_back (h := s.heap) (B := s.Queued)
      (fun c => c < s.heap.length ∧ InForest s.heap [p] c) ?_ h1 ?_
    · obtain ⟨hos, hlt, -⟩ := back
      have hcov := hs q hos
      intro it2 hd2
      have hsq : ∃ it, s.deref q = some it := ⟨s.heap[q], by simp [deref, hlt]⟩
      obtain ⟨it, hit⟩ := hsq
      obtain ⟨it3, hd3, hcol3, hst3⟩ := hcell q it hit
      rw [hd2] at hd3
      cases hd3
      obtain ⟨k1, k2⟩ := hcov it hit
      refine ⟨fun hn => ?_, fun hy => ?_⟩
      · obtain ⟨x, hx, hxi⟩ := k1 (hcol3 ▸ hn)
        exact ⟨x, hpop x hx, hxi⟩
      · have := k2 (hcol3 ▸ hy)
        rcases hst3 with e | e
        · rw [e]; exact this
        · rw [e]; decide
    · intro c it2 hP hc2 hcol2 hb2
      obtain ⟨hlt, hin⟩ := hP
      have hsc : ∃ it, s.deref c = some it := ⟨s.heap[c], by simp [deref, hlt]⟩
      obtain ⟨it, hit⟩ := hsc
      obtain ⟨it3, hd3, hcol3, -⟩ := hcell c it hit
      have hc2' : u.deref c = some it2 := hc2
      rw [hc2'] at hd3
      cases hd3
      have hnq : ¬ s.Queued c := fun hqc => hb2 (hq c hqc)
      have hchildren := hch c it hit hin hnq
      rw [hc2'] at hchildren
      simp only [Option.map_some', Option.some.injEq] at hchildren
      have hcol : it.isCollection = true := by rw [← hcol3]; exact hcol2
      refine ⟨it, hit, hcol, hnq, hchildren.symm, fun d hd => ⟨?_, ?_⟩⟩
      · exact (hw it (List.getElem?_mem hit)).2 d hd
      · exact inForest_trans hin hit hcol (inForest_of_mem hd)
    · intro c hc
      rw [List.mem_singleton] at hc
      subst hc
      exact ⟨hp, InForest.here⟩
  · exact hE X hX q h2

theorem checkCommand_heap {fuel : Nat} {m t : MediaServer}
    (h : MediaServer.checkCommand fuel m = some t) : t.heap = m.heap := by
  unfold MediaServer.checkCommand at h
  split at h
  · split at h
    · cases h
    · split at h
      · split at h
        · cases h
        · cases h; rfl
      · cases h; rfl
  · cases h; rfl

theorem playInv_walked {s t : MediaServer} {idxs : QModelIndexList} (h : s.Walked t)
    (hc : t.command.toPopulate = s.command.toPopulate) (hinv : s.PlayInv idxs) :
    t.PlayInv idxs := by
  obtain ⟨hw, hq, hcov⟩ := hinv
  refine ⟨wellFormed_walked h hw, fun x hx => hq x (hc ▸ hx), fun idx hidx p hp => ?_⟩
  obtain ⟨hlt, hc1⟩ := hcov idx hidx p hp
  exact ⟨by rw [h.2.2.1]; exact hlt, coversList_walked h hc1⟩

/-- The state in which `play` runs its final check. -/
theorem play_inv {fuel : Nat} {s t : MediaServer} {idxs : QModelIndexList} {pos : Int}
    {type : PlayType} (hw : s.WellFormed)
    (hidx : ∀ idx ∈ idxs, idx.isValid = true ∧ idx.c = 0)
    (h : s.play fuel idxs pos type = some t) :
    ∃ m, MediaServer.checkCommand fuel m = some t ∧ m.PlayInv idxs ∧
      m.addTracksOf = s.addTracksOf := by
  have key : ∀ s1 m : MediaServer, s1.heap = s.heap → s1.command.toPopulate = [] →
      s1.addTracksOf = s.addTracksOf → MediaServer.playLoop fuel s1 idxs = some m →
      MediaServer.checkCommand fuel m = some t →
      ∃ m, MediaServer.checkCommand fuel m = some t ∧ m.PlayInv idxs ∧
        m.addTracksOf = s.addTracksOf := by
    intro s1 m h0heap h0tp h0at hm h
    have hw1 : s1.WellFormed := by
      unfold WellFormed
      rw [h0heap]
      exact hw
    have hwalk := walked_playLoop fuel idxs s1 m hm
    refine ⟨m, h, ⟨wellFormed_walked hwalk hw1, ?_, ?_⟩, ?_⟩
    · exact playLoop_queue fuel idxs s1 m hm (fun i hi => (hidx i hi).2)
        (fun x hx => by rw [h0tp] at hx; cases hx)
    · exact playLoop_covers fuel idxs s1 m hm hw1 hidx
    · rw [addTracksOf_playLoop fuel _ _ _ hm]
      exact h0at
  unfold MediaServer.play at h
  simp only at h
  split at h
  · cases h
  · rename_i m hm
    refine key _ m ?_ ?_ ?_ hm h
    · split <;> rfl
    · cases htp : s.command.toPopulate with
      | nil => simp [htp]
      | cons a l => simp [PendingCommand.reset]
    · split <;> rfl

/-- The state in which `parseBrowse` runs its final check. -/
theorem parseBrowse_inv {fuel : Nat} {s t : MediaServer} {idxs : QModelIndexList}
    {entries : List Values} (hinv : s.PlayInv idxs)
    (h : s.parseBrowse fuel entries = some t) (ha : s.AnswersQueued t idxs) :
    ∃ m, MediaServer.checkCommand fuel m = some t ∧ m.PlayInv idxs ∧
      m.addTracksOf = s.addTracksOf := by
  obtain ⟨hw, hqok, hcov⟩ := hinv
  unfold MediaServer.parseBrowse at h
  split at h
  · cases h
  · rename_i s1 parent hs1
    have hg := grown_parseBrowseLoop fuel _ _ _ _ _ hs1
    have hat1 := addTracksOf_parseBrowseLoop fuel _ _ _ _ _ hs1
    have hw1 : s1.WellFormed := wellFormed_grown hg hw
    obtain ⟨hcmd, hlen, hold, -⟩ := hg
    unfold MediaServer.checkCommandFor at h
    split at h
    · rename_i hin
      simp only at h
      split at h
      · cases h
      · rename_i s2 hs2
        have hth := checkCommand_heap h
        have hwalk := walked_populateCommand fuel _ _ _ hs2
        have hpar : parent.isValid = true ∧ parent.c = 0 := hqok parent (hcmd ▸ hin)
        have hqok2 := populateCommand_queue fuel _ _ _ hs2 hpar.2 (fun x hx =>
          hqok x (hcmd ▸ (List.mem_filter.mp hx).1))
        refine ⟨s2, h, ⟨wellFormed_walked hwalk hw1, hqok2, fun idx hidx p hp => ?_⟩, ?_⟩
        · obtain ⟨hlt, hc1⟩ := hcov idx hidx p hp
          refine ⟨by rw [hwalk.2.2.1]; exact lt_of_lt_of_le hlt hlen, ?_⟩
          refine coversList_step (fun c => parent.i = some c) hw hlt ?_ ?_ ?_ ?_ ?_ hc1
          · intro c it hit
            obtain ⟨l, hd1, -⟩ := hold c it hit
            obtain ⟨st, hd2, hst⟩ := hwalk.2.2.2 c _ hd1
            exact ⟨_, hd2, rfl, hst⟩
          · intro x hx
            exact hwalk.1 x (by rw [hcmd]; exact hx)
          · intro c hqc
            obtain ⟨x, hx, hxi⟩ := hqc
            by_cases hxp : x = parent
            · exact Or.inr (hxp ▸ hxi)
            · refine Or.inl ⟨x, hwalk.2.1 x ?_, hxi⟩
              rw [hcmd] at *
              exact List.mem_filter.mpr ⟨hx, by simpa using hxp⟩
          · intro c it hit hfor hnq
            rcases ha c it hit with h1 | h2 | h3
            · have : t.deref c = s2.deref c := by unfold deref; rw [hth]
              rw [← this]
              exact h1
            · exact absurd h2 hnq
            · exact absurd hfor (h3 idx hidx p hp)
          · intro c hc
            exact populateCommand_covers fuel _ parent s2 c hs2 hw1 hpar.1 hpar.2 hc
        · rw [addTracksOf_populateCommand fuel _ _ _ hs2]
          exact hat1
    · have hth := checkCommand_heap h
      refine ⟨s1, h, ⟨hw1, fun x hx => hqok x (hcmd ▸ hx), fun idx hidx p hp => ?_⟩, hat1⟩
      obtain ⟨hlt, hc1⟩ := hcov idx hidx p hp
      refine ⟨lt_of_lt_of_le hlt hlen, ?_⟩
      refine coversList_step (fun _ => False) hw hlt ?_ ?_ ?_ ?_ ?_ hc1
      · intro c it hit
        obtain ⟨l, hd1, -⟩ := hold c it hit
        exact ⟨_, hd1, rfl, Or.inl rfl⟩
      · intro x hx
        rw [hcmd]
        exact hx
      · intro c hqc
        obtain ⟨x, hx, hxi⟩ := hqc
        exact Or.inl ⟨x, by rw [hcmd]; exact hx, hxi⟩
      · intro c it hit hfor hnq
        rcases ha c it hit with h1 | h2 | h3
        · have : t.deref c = s1.deref c := by unfold deref; rw [hth]
          rw [← this]
          exact h1
        · exact absurd h2 hnq
        · exact absurd hfor (h3 idx hidx p hp)
      · intro c hc
        exact hc.elim

/-- Along a run that serves a play request: while `command.toPopulate` is not
empty the request has dealt with every item it does not wait for, and a step
that emits `addTracks` does so in a final check that starts from such a
state. -/
theorem serves_inv {fuel : Nat} {idxs : QModelIndexList}
    (hidx : ∀ idx ∈ idxs, idx.isValid = true ∧ idx.c = 0) {s t : MediaServer}
    (h : MediaServer.Serves fuel idxs s t) :
    (t.command.toPopulate ≠ [] → t.PlayInv idxs) ∧
    (t.addTracksOf ≠ s.addTracksOf →
      ∃ m, MediaServer.checkCommand fuel m = some t ∧ m.PlayInv idxs ∧
        m.addTracksOf = s.addTracksOf) := by
  have fromCheck : ∀ {s t : MediaServer},
      (∃ m, MediaServer.checkCommand fuel m = some t ∧ m.PlayInv idxs ∧
        m.addTracksOf = s.addTracksOf) →
      (t.command.toPopulate ≠ [] → t.PlayInv idxs) ∧
      (t.addTracksOf ≠ s.addTracksOf →
        ∃ m, MediaServer.checkCommand fuel m = some t ∧ m.PlayInv idxs ∧
          m.addTracksOf = s.addTracksOf) := by
    intro s t hm
    refine ⟨fun hne => ?_, fun _ => hm⟩
    obtain ⟨m, hchk, hinv, -⟩ := hm
    obtain ⟨-, k2, k3⟩ := checkCommand_spec hchk
    have hmne : m.command.toPopulate ≠ [] := fun he => hne (k2 he).2
    rw [k3 hmne]
    exact hinv
  induction h with
  | play hw hplay => exact fromCheck (play_inv hw hidx hplay)
  | browse _ hne hb ha ih => exact fromCheck (parseBrowse_inv (ih.1 hne) hb ha)
  | @fetch r s index _ hne ih =>
    refine ⟨fun _ => ?_, fun hemit => ?_⟩
    · exact playInv_walked (walked_populateIndex s index) (by
        rw [show s.fetchMore index = s.populateIndex index from rfl, populateIndex_command])
        (ih.1 hne)
    · exact absurd (addTracksOf_populateIndex s index) hemit

/-- The final check of a step that emits: everything in the selected subtrees
is in the emitted command. -/
theorem checkCommand_emits_all {fuel : Nat} {m t : MediaServer} {idxs : QModelIndexList}
    (h : MediaServer.checkCommand fuel m = some t) (hinv : m.PlayInv idxs)
    (hemit : t.addTracksOf ≠ m.addTracksOf) :
    m.command.toPopulate = [] ∧
    ∃ cmd, t.emitted.getLast? = some (Signal.addTracks cmd) ∧
      ∀ idx ∈ idxs, ∀ p q it, idx.i = some p → InForest t.heap [p] q → t.deref q = some it →
        (it.isCollection = true → it.state ≠ State.State_Initial) ∧
        (it.isCollection = false → ∃ trk ∈ cmd.tracks, { trk with artUrl := it.artUrl } = it) := by
  have hmtp : m.command.toPopulate = [] := (checkCommand_spec h).1 hemit
  obtain ⟨sorted, tracks, hsort, hcopy, hem, hth⟩ := checkCommand_emits h hemit
  refine ⟨hmtp, ⟨tracks, m.command.pos, m.command.type⟩, by rw [hem]; simp, ?_⟩
  intro idx hidx p q it hip hq hd
  have hdm : m.deref q = some it := by
    unfold deref at hd ⊢
    rw [← hth]
    exact hd
  have hnoq : ∀ c, ¬ m.Queued c := by
    intro c hc
    obtain ⟨x, hx, -⟩ := hc
    rw [hmtp] at hx
    cases hx
  have ho : OpenIn m.heap m.Queued [p] q := openIn_of_inForest hnoq (hth ▸ hq)
  obtain ⟨k1, k2⟩ := (hinv.2.2 idx hidx p hip).2 q ho it hdm
  refine ⟨k2, fun hnc => ?_⟩
  obtain ⟨x, hx, hxi, hxc⟩ := k1 hnc
  exact copyTracks_mem hcopy (sortIndexes_mem hsort hx hxc) hxi hdm

theorem play_heap {fuel : Nat} {s t : MediaServer} {idxs : QModelIndexList} {pos : Int}
    {type : PlayType} (h : s.play fuel idxs pos type = some t)
    (hemit : t.addTracksOf ≠ s.addTracksOf) : t.heap = s.heap := by
  have key : ∀ s1 m : MediaServer, s1.heap = s.heap → s1.command.toPopulate = [] →
      s1.addTracksOf = s.addTracksOf → MediaServer.playLoop fuel s1 idxs = some m →
      MediaServer.checkCommand fuel m = some t → t.heap = s.heap := by
    intro s1 m h0heap h0tp h0at hm h
    have hquiet : m.addTracksOf = s.addTracksOf := by
      rw [addTracksOf_playLoop fuel _ _ _ hm]
      exact h0at
    have hmtp : m.command.toPopulate = [] := (checkCommand_spec h).1 (by rw [hquiet]; exact hemit)
    obtain ⟨a, b, -, g2, g3⟩ := playLoop_grows fuel idxs s1 m hm
    have hb : b = [] := by
      rw [hmtp, h0tp] at g2
      simpa using g2.symm
    rw [checkCommand_heap h, g3 hb, h0heap]
  unfold MediaServer.play at h
  simp only at h
  split at h
  · cases h
  · rename_i m hm
    refine key _ m ?_ ?_ ?_ hm h
    · split <;> rfl
    · cases htp : s.command.toPopulate with
      | nil => simp [htp]
      | cons a l => simp [PendingCommand.reset]
    · split <;> rfl

theorem answersQueued_of_children {s t : MediaServer} (idxs : QModelIndexList)
    (h : ∀ q ∈ List.range s.heap.length,
      (t.deref q).map (fun i => i.children) = (s.deref q).map (fun i => i.children) ∨
        s.Queued q) : s.AnswersQueued t idxs := by
  intro q it hq
  rcases h q (List.mem_range.mpr (deref_lt hq)) with h1 | h2
  · rw [hq] at h1
    exact Or.inl h1
  · exact Or.inr (Or.inl h2)

end MediaServer

end Upnp
